import Mathlib

/-!
# HashSet (src/hash.cpp): shallow embedding and verification

The C++ class keeps every key in one `std::list<int> master_list`; the vector
`hash_set` holds, per bucket, an iterator to the first list node of that
bucket (or `master_list.end()`).

Modelling decisions
* A list node is a pair of an identity (`id`, standing for the node address)
  and the stored key. A `std::list` iterator is the identity of the node it
  points to, `none` being `master_list.end()`. List operations keep the
  identities of the nodes they do not create or destroy, as `std::list` does.
* The capacity schedule `sizes` is declared in `hash.hpp`, which is not part
  of the sources; it is a parameter (`Env.sizes`).
* `vector::at` throws `std::out_of_range`: operations return an `Outcome`
  that carries the object state at the throw.
* A finite `float` (`load_factor`, `max_load_factor`) is the rational number
  it denotes. The conversion of an integer to `float` and the `float`
  division round to the nearest binary32 value, a tie going to the even
  mantissa (`float_round`, `float_div`; expressions of type `float` are
  evaluated in `float` precision), so the stored load factor is the rounded
  quotient and the growth tests compare rounded values. The counters
  are unbounded naturals and no overflow to infinity is modelled (a machine
  count stays far below `2^128`); a division by a zero capacity and a NaN or
  infinite argument of `maxLoadFactor(float)` are outside the model.
* Reading `*it` for `it == end()` has no defined value in C++; the model
  reads `Env.end_value`, an arbitrary function of the list. Every theorem
  holds for every such function. Whether `erase` makes such an access is
  computed separately (`erase_reads_end`, `erase_advances_end`).
* `int` keys are integers; `static_cast<int>` of a capacity and the
  multiplication by `-1` wrap to 32 bits.
-/

/-- A node of `master_list`: its identity and the key stored in it. -/
structure Node where
  id : Nat
  val : Int
deriving DecidableEq, Repr

/-- A `std::list<int>::iterator`: the identity of a node, or `none` for `end()`. -/
abbrev Iterator := Option Nat

/-- What the class takes from outside `hash.cpp`. -/
structure Env where
  /-- the capacity schedule `sizes` of `hash.hpp` -/
  sizes : List Nat
  /-- the value obtained by reading through the past-the-end iterator -/
  end_value : List Node → Int

/-- The data members of `HashSet`. -/
structure HashSet where
  load_factor : ℚ
  max_load_factor : ℚ
  num_element : Nat
  current_size_index : Nat
  master_list : List Node
  hash_set : List Iterator
deriving DecidableEq

/-- Result of a member function: normal return with a value and the new
state, `std::out_of_range` thrown with the state left behind, or a loop of
the model that did not finish within its iteration budget. -/
inductive Outcome (α : Type) where
  | ok (ret : α) (s : HashSet)
  | out_of_range (s : HashSet)
  | diverged
deriving DecidableEq

/-! ## `std::list` operations on node lists -/

/-- Identity given to a newly allocated node: one not used in the list. -/
def fresh_id (l : List Node) : Nat :=
  l.foldr (fun n m => max (n.id + 1) m) 0

/-- The part of the list starting at the node an iterator points to. -/
def from_it (l : List Node) (i : Nat) : List Node :=
  l.dropWhile (fun n => n.id != i)

/-- Dereference `*it`; reading through `end()` (or through an iterator to no
node of the list) gives `Env.end_value`. -/
def deref (E : Env) (l : List Node) : Iterator → Int
  | none => E.end_value l
  | some i =>
    match from_it l i with
    | n :: _ => n.val
    | [] => E.end_value l

/-- The iterator `master_list.begin()`. -/
def list_begin (l : List Node) : Iterator :=
  match l with
  | [] => none
  | n :: _ => some n.id

/-- The iterator `std::next(it)` (also `advance(it, 1)`); the model leaves
`end()` where it is. -/
def std_next (l : List Node) : Iterator → Iterator
  | none => none
  | some i =>
    match from_it l i with
    | _ :: m :: _ => some m.id
    | _ => none

/-- The iterator to the last node: `advance(it, -1)` from `end()`. -/
def list_last (l : List Node) : Iterator :=
  match l.getLast? with
  | none => none
  | some n => some n.id

/-- Link node `n` in front of position `pos`: `master_list.insert(pos, key)`
with `n` the new node; `pos = end()` is `push_back`. -/
def list_insert (l : List Node) (pos : Iterator) (n : Node) : List Node :=
  match pos with
  | none => l ++ [n]
  | some j => l.takeWhile (fun m => m.id != j) ++ n :: from_it l j

/-- Unlink the node with identity `i`: `master_list.erase(it)`. -/
def list_erase : List Node → Nat → List Node
  | [], _ => []
  | n :: rest, i => if n.id = i then rest else n :: list_erase rest i

/-- Relink node `it` in front of `pos`: `master_list.splice(pos, master_list, it)`.
No effect when `pos == it` or `pos == ++it`. -/
def list_splice (l : List Node) (pos : Iterator) (it : Nat) : List Node :=
  if pos = some it ∨ pos = std_next l (some it) then l
  else
    match from_it l it with
    | n :: _ => list_insert (list_erase l it) pos n
    | [] => l

/-- Assignment `v.at(i) = x`; `none` when `at` throws. -/
def vec_set (v : List Iterator) (i : Nat) (x : Iterator) : Option (List Iterator) :=
  if i < v.length then some (v.set i x) else none

/-! ## `float` arithmetic (IEEE-754 binary32, round to nearest, ties to even) -/

/-- Nearest integer, a tie going to the even one. -/
def round_half_even (y : ℚ) : Int :=
  let k := ⌊y⌋
  let r := y - k
  if r < 1 / 2 then k else if 1 / 2 < r then k + 1 else if k % 2 = 0 then k else k + 1

/-- Exponent of the binade of `x`: `⌊log₂ |x|⌋`, and `-126` below the normal
range (subnormal values share the spacing of the lowest binade). -/
def float_exponent (x : ℚ) : Int := max (Int.log 2 |x|) (-126)

/-- Rounding of a rational to the nearest `float`: a `float` of the binade
with exponent `e` is a multiple of `2 ^ (e - 23)` (24 significant bits). -/
def float_round (x : ℚ) : ℚ :=
  let ulp : ℚ := 2 ^ (float_exponent x - 23)
  ulp * round_half_even (x / ulp)

/-- The expression `static_cast<float>(n) / c` with integers `n` and `c`: `n`
is converted to `float`, `c` is converted to `float` for the division, and the
quotient is rounded to `float`. -/
def float_div (n c : Nat) : ℚ :=
  float_round (float_round (Nat.cast n : ℚ) / float_round (Nat.cast c : ℚ))

/-! ## Bucket addressing -/

/-- Conversion to `int` (32 bits, two's complement). -/
def static_cast_int (n : Int) : Int := Int.bmod n (2 ^ 32)

/-- Body of `HashSet::bucket` once `sizes.at(current_size_index)` is `cap`:
truncated remainder, sign fixed by `*= -1`, returned as `std::size_t`. -/
def bucket_index (cap : Nat) (key : Int) : Nat :=
  let r := Int.tmod key (static_cast_int cap)
  let r := if r < 0 then static_cast_int (r * -1) else r
  (r % 2 ^ 64).toNat

namespace HashSet

/-- `HashSet::bucket`; `none` when `sizes.at` throws. -/
def bucket (E : Env) (s : HashSet) (key : Int) : Option Nat :=
  match E.sizes[s.current_size_index]? with
  | none => none
  | some cap => some (bucket_index cap key)

/-- `HashSet::HashSet()`. -/
def ctor (E : Env) : Outcome Unit :=
  let s : HashSet :=
    { load_factor := 0, num_element := 0, current_size_index := 0,
      max_load_factor := 1, master_list := [], hash_set := [] }
  match E.sizes[s.current_size_index]? with
  | none => .out_of_range s
  | some c => .ok () { s with hash_set := List.replicate c none }

/-- The do-while loop of `HashSet::contains`, `it` pointing to the head of
the given list suffix. -/
def contains_loop (E : Env) (s : HashSet) (key : Int) (bucket_index : Nat) :
    List Node → Option Bool
  | [] => some false
  | n :: rest =>
    if n.val = key then some true
    else
      match rest with
      | [] => some false
      | m :: _ =>
        match s.bucket E m.val with
        | none => none
        | some b => if b = bucket_index then contains_loop E s key bucket_index rest
                    else some false

/-- `HashSet::contains`; `none` when an `at` throws. -/
def contains (E : Env) (s : HashSet) (key : Int) : Option Bool :=
  match s.bucket E key with
  | none => none
  | some bucket_index =>
    match s.hash_set[bucket_index]? with
    | none => none
    | some none => some false
    | some (some i) => contains_loop E s key bucket_index (from_it s.master_list i)

/-- The do-while loop of `HashSet::find`. -/
def find_loop (E : Env) (s : HashSet) (key : Int) (bucket_index : Nat) :
    List Node → Option Iterator
  | [] => some none
  | n :: rest =>
    if n.val = key then some (some n.id)
    else
      match rest with
      | [] => some none
      | m :: _ =>
        match s.bucket E m.val with
        | none => none
        | some b => if b = bucket_index then find_loop E s key bucket_index rest
                    else some none

/-- `HashSet::find`; the outer `none` when an `at` throws, `some none` is `end()`. -/
def find (E : Env) (s : HashSet) (key : Int) : Option Iterator :=
  match s.bucket E key with
  | none => none
  | some bucket_index =>
    match s.hash_set[bucket_index]? with
    | none => none
    | some none => some none
    | some (some i) => find_loop E s key bucket_index (from_it s.master_list i)

/-- The while loop of `HashSet::rehash`; `fuel` bounds the number of times the
loop body runs. -/
def rehash_loop (E : Env) : Nat → HashSet → Iterator → Outcome Unit
  | _, s, none => .ok () s
  | 0, _, some _ => .diverged
  | fuel + 1, s, some i =>
    let next := std_next s.master_list (some i)
    match s.bucket E (deref E s.master_list (some i)) with
    | none => .out_of_range s
    | some bucket_index =>
      match s.hash_set[bucket_index]? with
      | none => .out_of_range s
      | some none =>
        rehash_loop E fuel { s with hash_set := s.hash_set.set bucket_index (some i) } (some i)
      | some (some h) =>
        let insert_pos := std_next s.master_list (some h)
        rehash_loop E fuel
          { s with master_list := list_splice s.master_list insert_pos i } next

/-- `HashSet::rehash`. The loop body runs at most twice per element. The last
statement is `load_factor = static_cast<float>(num_element) / newSize`. -/
def rehash (E : Env) (s : HashSet) (newSize : Nat) : Outcome Unit :=
  let s1 := { s with hash_set := List.replicate newSize none }
  match rehash_loop E (2 * s1.master_list.length) s1 (list_begin s1.master_list) with
  | .ok _ s2 => .ok () { s2 with load_factor := float_div s2.num_element newSize }
  | o => o

/-- The statement `if (load_factor >= max_load_factor) rehash(sizes.at(++current_size_index));`
of `HashSet::insert`. The test compares the two stored `float` values. -/
def grow_if_needed (E : Env) (s : HashSet) : Outcome Unit :=
  if s.load_factor ≥ s.max_load_factor then
    let s1 := { s with current_size_index := s.current_size_index + 1 }
    match E.sizes[s1.current_size_index]? with
    | none => .out_of_range s1
    | some c => s1.rehash E c
  else .ok () s

/-- The last two statements of `insert`: `num_element++` and
`load_factor = static_cast<float>(num_element) / sizes.at(current_size_index)`. -/
def count_up (E : Env) (s : HashSet) : Outcome Unit :=
  let s1 := { s with num_element := s.num_element + 1 }
  match E.sizes[s1.current_size_index]? with
  | none => .out_of_range s1
  | some c => .ok () { s1 with load_factor := float_div s1.num_element c }

/-- The statements of `HashSet::insert` after the growth check. -/
def insert_after_growth (E : Env) (s : HashSet) (key : Int) : Outcome Unit :=
  match s.bucket E key with
  | none => .out_of_range s
  | some bucket_index =>
    if s.master_list.isEmpty then
      let l := list_insert s.master_list none ⟨fresh_id s.master_list, key⟩
      let s1 := { s with master_list := l }
      match vec_set s1.hash_set bucket_index (list_begin l) with
      | none => .out_of_range s1
      | some hs => count_up E { s1 with hash_set := hs }
    else
      match s.contains E key with
      | none => .out_of_range s
      | some true => .ok () s
      | some false =>
        match s.hash_set[bucket_index]? with
        | none => .out_of_range s
        | some (some h) =>
          let it := std_next s.master_list (some h)
          let l := list_insert s.master_list it ⟨fresh_id s.master_list, key⟩
          count_up E { s with master_list := l }
        | some none =>
          let l := list_insert s.master_list none ⟨fresh_id s.master_list, key⟩
          let s1 := { s with master_list := l }
          match vec_set s1.hash_set bucket_index (list_last l) with
          | none => .out_of_range s1
          | some hs => count_up E { s1 with hash_set := hs }

/-- `HashSet::insert`. -/
def insert (E : Env) (s : HashSet) (key : Int) : Outcome Unit :=
  match grow_if_needed E s with
  | .ok _ s1 => insert_after_growth E s1 key
  | o => o

/-- `HashSet::erase(int key)`. -/
def erase (E : Env) (s : HashSet) (key : Int) : Outcome Unit :=
  match s.bucket E key with
  | none => .out_of_range s
  | some bucket_index =>
    match s.find E key with
    | none => .out_of_range s
    | some it =>
      let next := std_next s.master_list it
      match it with
      | none => .ok () s
      | some i =>
        match s.hash_set[bucket_index]? with
        | none => .out_of_range s
        | some head =>
          let relinked : Option (List Iterator) :=
            if it = head then
              match s.bucket E (deref E s.master_list next) with
              | none => none
              | some b =>
                if b = bucket_index then vec_set s.hash_set bucket_index next
                else vec_set s.hash_set bucket_index none
            else some s.hash_set
          match relinked with
          | none => .out_of_range s
          | some hs =>
            -- `num_element--`: the list holds node `i` here, so the counter is positive
            -- whenever it is the length of the list
            let s1 := { s with hash_set := hs, master_list := list_erase s.master_list i,
                               num_element := s.num_element - 1 }
            match E.sizes[s1.current_size_index]? with
            | none => .out_of_range s1
            | some c => .ok () { s1 with load_factor := float_div s1.num_element c }

/-- `HashSet::erase(Iterator it)`. -/
def erase_it (E : Env) (s : HashSet) (it : Iterator) : Outcome Iterator :=
  let next := std_next s.master_list it
  match s.erase E (deref E s.master_list it) with
  | .ok _ s1 => .ok next s1
  | .out_of_range s1 => .out_of_range s1
  | .diverged => .diverged

/-- `HashSet::begin`. -/
def begin_ (s : HashSet) : Iterator := list_begin s.master_list

/-- `HashSet::end`: the past-the-end position. -/
def end_ (_s : HashSet) : Iterator := none

/-- `HashSet::size`. -/
def size (s : HashSet) : Nat := s.num_element

/-- `HashSet::empty`. -/
def empty (s : HashSet) : Bool := s.num_element == 0

/-- `HashSet::bucketCount`; `none` when `sizes.at` throws. -/
def bucketCount (E : Env) (s : HashSet) : Option Nat := E.sizes[s.current_size_index]?

/-- `HashSet::loadFactor`. -/
def loadFactor (s : HashSet) : ℚ := s.load_factor

/-- `HashSet::maxLoadFactor() const`. -/
def maxLoadFactor (s : HashSet) : ℚ := s.max_load_factor

/-- The while loop of `HashSet::maxLoadFactor(float)`; `fuel` bounds the number
of times the loop condition is evaluated. The condition compares the stored
`float` load factor, which `rehash` recomputes in every turn. -/
def grow_loop (E : Env) : Nat → HashSet → Outcome Unit
  | 0, _ => .diverged
  | fuel + 1, s =>
    if s.load_factor ≥ s.max_load_factor then
      let s1 := { s with current_size_index := s.current_size_index + 1 }
      match E.sizes[s1.current_size_index]? with
      | none => .out_of_range s1
      | some c =>
        match s1.rehash E c with
        | .ok _ s2 => grow_loop E fuel s2
        | o => o
    else .ok () s

/-- `HashSet::maxLoadFactor(float maxLoad)`; `maxLoad` is the value of the
`float` argument. Every turn of the loop advances `current_size_index`, and
`sizes.at` throws beyond the schedule, so the loop condition is evaluated at
most `sizes.size() + 1` times. -/
def setMaxLoadFactor (E : Env) (s : HashSet) (maxLoad : ℚ) : Outcome Unit :=
  grow_loop E (E.sizes.length + 1) { s with max_load_factor := maxLoad }

end HashSet

/-! ## Invariants -/

/-- Bucket of a node when the capacity is `cap`. -/
def bkt (cap : Nat) (n : Node) : Nat := bucket_index cap n.val

/-- Same-bucket elements are contiguous: whenever three elements occur in the
sequence in the order `x`, `y`, `z` and the outer two have the same bucket,
the middle one has that bucket too. -/
def Contiguous (f : Node → Nat) (l : List Node) : Prop :=
  ∀ x y z, List.Sublist [x, y, z] l → f x = f z → f y = f x

/-- Position of the first element of bucket `b`, `end()` when there is none. -/
def run_head (f : Node → Nat) (l : List Node) (b : Nat) : Iterator :=
  (l.find? (fun n => f n == b)).map Node.id

/-- The nodes of a list are distinct objects. -/
def NodupIds (l : List Node) : Prop := (l.map Node.id).Nodup

/-- The keys of the element sequence. -/
def keys (l : List Node) : List Int := l.map Node.val

/-- The capacity schedule holds sizes that are positive and fit an `int`. -/
def Env.WF (E : Env) : Prop := ∀ c ∈ E.sizes, 1 ≤ c ∧ c < 2 ^ 31

namespace HashSet

/-- Invariant I2 for the current capacity: the table has one slot per bucket,
slot `b` holds the position of the first element of bucket `b` (`end()`
exactly when no element has bucket `b`), and same-bucket elements are
contiguous. -/
def I2 (E : Env) (s : HashSet) : Prop :=
  ∃ cap, E.sizes[s.current_size_index]? = some cap ∧ s.hash_set.length = cap ∧
    (∀ b, b < cap → s.hash_set[b]? = some (run_head (bkt cap) s.master_list b)) ∧
    Contiguous (bkt cap) s.master_list

/-- Invariant I1: no key occurs twice in the element sequence. -/
def I1 (s : HashSet) : Prop := (keys s.master_list).Nodup

/-- Invariant I4: `num_element` is the length of the element sequence. -/
def I4 (s : HashSet) : Prop := s.num_element = s.master_list.length

/-- Invariant I3: `load_factor` is `num_element / capacity` as computed in `float`. -/
def I3 (E : Env) (s : HashSet) : Prop :=
  ∃ cap, E.sizes[s.current_size_index]? = some cap ∧
    s.load_factor = float_div s.num_element cap

end HashSet

/-- The mutating calls of the public interface. -/
inductive Op where
  | insert (key : Int)
  | erase (key : Int)
  | erase_at (it : Iterator)
  | maxLoadFactor (maxLoad : ℚ)

/-- Effect of one call on the set, the returned value dropped. -/
def Op.run (E : Env) (s : HashSet) : Op → Outcome Unit
  | .insert key => s.insert E key
  | .erase key => s.erase E key
  | .erase_at it =>
    match s.erase_it E it with
    | .ok _ t => .ok () t
    | .out_of_range t => .out_of_range t
    | .diverged => .diverged
  | .maxLoadFactor m => s.setMaxLoadFactor E m

/-- Sets reachable from the freshly constructed one by calls that return. -/
inductive Reachable (E : Env) : HashSet → Prop where
  | ctor {s : HashSet} : HashSet.ctor E = .ok () s → Reachable E s
  | step {s t : HashSet} (op : Op) : Reachable E s → op.run E s = .ok () t → Reachable E t

/-- Inserts the keys of a list one by one, first key first. -/
def insert_list (E : Env) : HashSet → List Int → Outcome Unit
  | s, [] => .ok () s
  | s, k :: ks =>
    match s.insert E k with
    | .ok _ t => insert_list E t ks
    | o => o

/-- Inserts the keys of a list one by one, first key first, into a fresh set. -/
def insert_all (E : Env) (ks : List Int) : Outcome Unit :=
  match HashSet.ctor E with
  | .ok _ s => insert_list E s ks
  | o => o

/-! ## Working form of contiguity -/

/-- Recursive form of contiguity: when a later element has the bucket of `x`,
the element right after `x` has it. -/
def Grouped (f : Node → Nat) : List Node → Prop
  | [] => True
  | x :: xs => (∀ y ∈ xs, f y = f x → ∃ z r, xs = z :: r ∧ f z = f x) ∧ Grouped f xs

/-- Working form of I2 at capacity `cap`, with the facts on `cap` and on node identities. -/
structure Shape (E : Env) (s : HashSet) (cap : Nat) : Prop where
  cap_eq : E.sizes[s.current_size_index]? = some cap
  cap_pos : 1 ≤ cap
  cap_lt : cap < 2 ^ 31
  len : s.hash_set.length = cap
  heads : ∀ b, b < cap → s.hash_set[b]? = some (run_head (bkt cap) s.master_list b)
  grouped : Grouped (bkt cap) s.master_list
  ids : NodupIds s.master_list

/-- All invariants together, at capacity `cap`. -/
structure Good (E : Env) (s : HashSet) (cap : Nat) : Prop where
  shape : Shape E s cap
  keys_nodup : (keys s.master_list).Nodup
  count : s.num_element = s.master_list.length
  load_eq : s.load_factor = float_div s.num_element cap

/-- The capacity schedule is strictly increasing. -/
def Env.Increasing (E : Env) : Prop := E.sizes.Pairwise (fun a b => a < b)

/-! ## Concrete sets used to exercise the theorems -/

/-- A schedule starting at 8, as in the scenarios of the specification. -/
def E8 : Env := { sizes := [8, 16, 32], end_value := fun _ => 0 }

/-- The freshly constructed set under `E8`. -/
def set_fresh : HashSet :=
  { load_factor := 0, max_load_factor := 1, num_element := 0, current_size_index := 0,
    master_list := [],
    hash_set := [none, none, none, none, none, none, none, none] }

/-- The set after `insert(3); insert(11); insert(3)` under `E8`. -/
def set_3_11 : HashSet :=
  { load_factor := 1 / 4, max_load_factor := 1, num_element := 2, current_size_index := 0,
    master_list := [⟨0, 3⟩, ⟨1, 11⟩],
    hash_set := [none, none, none, some 0, none, none, none, none] }

/-- The set `set_3_11` after `insert(4)`. -/
def set_3_11_4 : HashSet :=
  { load_factor := 3 / 8, max_load_factor := 1, num_element := 3, current_size_index := 0,
    master_list := [⟨0, 3⟩, ⟨1, 11⟩, ⟨2, 4⟩],
    hash_set := [none, none, none, some 0, some 2, none, none, none] }

/-- The set `set_3_11` after `erase(3)`. -/
def set_11 : HashSet :=
  { load_factor := 1 / 8, max_load_factor := 1, num_element := 1, current_size_index := 0,
    master_list := [⟨1, 11⟩],
    hash_set := [none, none, none, some 1, none, none, none, none] }

/-- The set after `insert(1)` ... `insert(8)` under `E8`: load factor 1. -/
def set_full : HashSet :=
  { load_factor := 1, max_load_factor := 1, num_element := 8, current_size_index := 0,
    master_list := [⟨0, 1⟩, ⟨1, 2⟩, ⟨2, 3⟩, ⟨3, 4⟩, ⟨4, 5⟩, ⟨5, 6⟩, ⟨6, 7⟩, ⟨7, 8⟩],
    hash_set := [some 7, some 0, some 1, some 2, some 3, some 4, some 5, some 6] }

/-- The set `set_full` after one more `insert(8)`: grown to 16 buckets. -/
def set_full_again : HashSet :=
  { load_factor := 1 / 2, max_load_factor := 1, num_element := 8, current_size_index := 1,
    master_list := [⟨0, 1⟩, ⟨1, 2⟩, ⟨2, 3⟩, ⟨3, 4⟩, ⟨4, 5⟩, ⟨5, 6⟩, ⟨6, 7⟩, ⟨7, 8⟩],
    hash_set := [none, some 0, some 1, some 2, some 3, some 4, some 5, some 6, some 7,
      none, none, none, none, none, none, none] }

/-- The fresh set under `E8` after `maxLoadFactor(1/16)`. -/
def set_sixteenth : HashSet :=
  { load_factor := 0, max_load_factor := 1 / 16, num_element := 0, current_size_index := 0,
    master_list := [],
    hash_set := [none, none, none, none, none, none, none, none] }

/-- The set `set_sixteenth` after `insert(1)`. -/
def set_sixteenth_1 : HashSet :=
  { load_factor := 1 / 8, max_load_factor := 1 / 16, num_element := 1, current_size_index := 0,
    master_list := [⟨0, 1⟩],
    hash_set := [none, some 0, none, none, none, none, none, none] }

/-- A state about to be rehashed to 16 buckets: the keys 3 and 19 share bucket 3
there and are not adjacent; the table is stale. -/
def set_before_rehash : HashSet :=
  { load_factor := 3 / 8, max_load_factor := 1, num_element := 3, current_size_index := 1,
    master_list := [⟨0, 3⟩, ⟨1, 11⟩, ⟨2, 19⟩],
    hash_set := [none, none, none, some 0, none, none, none, none] }

/-- The state `set_before_rehash` after `rehash(16)`. -/
def set_after_rehash : HashSet :=
  { load_factor := 3 / 16, max_load_factor := 1, num_element := 3, current_size_index := 1,
    master_list := [⟨0, 3⟩, ⟨2, 19⟩, ⟨1, 11⟩],
    hash_set := [none, none, none, some 0, none, none, none, none, none, none, none,
      some 1, none, none, none, none] }

/-! ## Further member functions -/

namespace HashSet

/-- The do-while loop of `HashSet::bucketSize`, `it` pointing to the head of
the given list suffix and `size` the count so far. When `bucket(*it) != b` the
body does not advance and the loop condition ends the loop. -/
def bucketSize_loop (E : Env) (s : HashSet) (b : Nat) : List Node → Nat → Option Nat
  | [], size => some size
  | n :: rest, size =>
    match s.bucket E n.val with
    | none => none
    | some bn =>
      if bn = b then
        match rest with
        | [] => some (size + 1)
        | m :: _ =>
          match s.bucket E m.val with
          | none => none
          | some bm =>
            if bm = b then bucketSize_loop E s b rest (size + 1) else some (size + 1)
      else some size

/-- `HashSet::bucketSize`; `none` when an `at` throws. -/
def bucketSize (E : Env) (s : HashSet) (b : Nat) : Option Nat :=
  match s.hash_set[b]? with
  | none => none
  | some none => some 0
  | some (some i) => bucketSize_loop E s b (from_it s.master_list i) 0

/-- First loop of the copy constructor: `master_list.push_back(node)` for every
key of the other list. -/
def copy_keys : List Node → List Int → List Node
  | l, [] => l
  | l, v :: vs => copy_keys (list_insert l none ⟨fresh_id l, v⟩) vs

/-- Second loop of the copy constructor, `it` walking over the given nodes. -/
def copy_heads (E : Env) : HashSet → List Node → Outcome Unit
  | s, [] => .ok () s
  | s, n :: rest =>
    match s.bucket E n.val with
    | none => .out_of_range s
    | some bucket_index =>
      match s.hash_set[bucket_index]? with
      | none => .out_of_range s
      | some none =>
        copy_heads E { s with hash_set := s.hash_set.set bucket_index (some n.id) } rest
      | some (some _) => copy_heads E s rest

/-- `HashSet::HashSet(const HashSet& other)`: the new object. -/
def copy (E : Env) (other : HashSet) : Outcome Unit :=
  let s : HashSet :=
    { load_factor := other.load_factor, max_load_factor := other.max_load_factor,
      num_element := other.num_element, current_size_index := other.current_size_index,
      master_list := [], hash_set := [] }
  match E.sizes[s.current_size_index]? with
  | none => .out_of_range s
  | some c =>
    let s1 := { s with hash_set := List.replicate c none }
    let s2 := { s1 with master_list := copy_keys s1.master_list (other.master_list.map Node.val) }
    copy_heads E s2 s2.master_list

/-- Whether `erase(key)` runs `std::next(it)` on `it == end()`: the statement
comes right after `find` and before the test `it == master_list.end()`. -/
def erase_advances_end (E : Env) (s : HashSet) (key : Int) : Option Bool :=
  match s.bucket E key with
  | none => none
  | some _ =>
    match s.find E key with
    | none => none
    | some it => some (it == none)

/-- Whether `erase(key)` evaluates `*next` with `next == end()`: `bucket(*next)`
is evaluated exactly when `it` is the head of its bucket. -/
def erase_reads_end (E : Env) (s : HashSet) (key : Int) : Option Bool :=
  match s.bucket E key with
  | none => none
  | some bucket_index =>
    match s.find E key with
    | none => none
    | some it =>
      let next := std_next s.master_list it
      match it with
      | none => some false
      | some _ =>
        match s.hash_set[bucket_index]? with
        | none => none
        | some head => if it = head then some (next == none) else some false

/-- One run of the body of the while loop of `rehash` at position `i`: the state
and the position after it; `none` when an `at` throws. -/
def rehash_body (E : Env) (s : HashSet) (i : Nat) : Option (HashSet × Iterator) :=
  let next := std_next s.master_list (some i)
  match s.bucket E (deref E s.master_list (some i)) with
  | none => none
  | some bucket_index =>
    match s.hash_set[bucket_index]? with
    | none => none
    | some none => some ({ s with hash_set := s.hash_set.set bucket_index (some i) }, some i)
    | some (some h) =>
      let insert_pos := std_next s.master_list (some h)
      some ({ s with master_list := list_splice s.master_list insert_pos i }, next)

/-- The positions examined by the while loop of `rehash`, one for every run of
the body, in order. -/
def rehash_trace (E : Env) : Nat → HashSet → Iterator → List Nat
  | _, _, none => []
  | 0, _, some _ => []
  | fuel + 1, s, some i =>
    i :: (match rehash_body E s i with
      | none => []
      | some (s1, it1) => rehash_trace E fuel s1 it1)

end HashSet

/-- The values of type `int` that `HashSet::bucket` computes, as mathematical
integers before any wrapping: the converted capacity, the remainder, and the
product by `-1` when the remainder is negative. -/
def bucket_int_values (cap : Nat) (key : Int) : List Int :=
  let r := Int.tmod key (static_cast_int cap)
  if r < 0 then [(cap : Int), r, r * -1] else [(cap : Int), r]

/-- The range of a 32-bit signed integer. -/
def in_int_range (x : Int) : Prop := -2 ^ 31 ≤ x ∧ x < 2 ^ 31

/-- Index in the sequence of the node an iterator points to. -/
def node_index : List Node → Iterator → Option Nat
  | _, none => none
  | [], some _ => none
  | n :: rest, some i => if n.id = i then some 0 else (node_index rest (some i)).map (· + 1)

/-- Sets reachable from the freshly constructed one by `insert` and `erase`
calls that return: the maximum load factor is never set. -/
inductive ReachableDefault (E : Env) : HashSet → Prop where
  | ctor {s : HashSet} : HashSet.ctor E = .ok () s → ReachableDefault E s
  | insert {s t : HashSet} (key : Int) :
      ReachableDefault E s → s.insert E key = .ok () t → ReachableDefault E t
  | erase {s t : HashSet} (key : Int) :
      ReachableDefault E s → s.erase E key = .ok () t → ReachableDefault E t
  | erase_at {s t : HashSet} (it r : Iterator) :
      ReachableDefault E s → s.erase_it E it = .ok r t → ReachableDefault E t

/-- A sequence of calls, each returning. -/
def run_ops (E : Env) : HashSet → List Op → Outcome Unit
  | s, [] => .ok () s
  | s, op :: ops =>
    match op.run E s with
    | .ok _ t => run_ops E t ops
    | o => o

/-- Invariant of the while loop of `rehash` at capacity `cap`: the sequence is the
processed part `P` followed by the part `U` still to visit, the table holds the
run heads of `P`, and `P` is contiguous. -/
structure RehashInv (E : Env) (cap : Nat) (s : HashSet) (P U : List Node) : Prop where
  cap_eq : E.sizes[s.current_size_index]? = some cap
  list : s.master_list = P ++ U
  len : s.hash_set.length = cap
  heads : ∀ b, b < cap → s.hash_set[b]? = some (run_head (bkt cap) P b)
  grouped : Grouped (bkt cap) P
  ids : NodupIds (P ++ U)

/-! ## Further concrete sets -/

/-- The set `set_3_11` after `maxLoadFactor(1/8)`: grown to 32 buckets. -/
def set_eighth : HashSet :=
  { load_factor := 1 / 16, max_load_factor := 1 / 8, num_element := 2, current_size_index := 2,
    master_list := [⟨0, 3⟩, ⟨1, 11⟩],
    hash_set := List.replicate 3 none ++ [some 0] ++ List.replicate 7 none ++ [some 1] ++
      List.replicate 20 none }

/-- The set `set_eighth` after `insert(4); insert(5)`: at the last schedule entry
with the load factor at the maximum. -/
def set_last : HashSet :=
  { load_factor := 1 / 8, max_load_factor := 1 / 8, num_element := 4, current_size_index := 2,
    master_list := [⟨0, 3⟩, ⟨1, 11⟩, ⟨2, 4⟩, ⟨3, 5⟩],
    hash_set := List.replicate 3 none ++ [some 0, some 2, some 3] ++ List.replicate 5 none ++
      [some 1] ++ List.replicate 20 none }

/-- The set after `insert(1)` into the fresh set under `E8`. -/
def set_one : HashSet :=
  { load_factor := 1 / 8, max_load_factor := 1, num_element := 1, current_size_index := 0,
    master_list := [⟨0, 1⟩],
    hash_set := [none, some 0, none, none, none, none, none, none] }

/-- The set after `insert(3); insert(11); insert(19); insert(4)` under `E8`; the
node of 19 was linked behind the run head 3. -/
def set_mixed : HashSet :=
  { load_factor := 1 / 2, max_load_factor := 1, num_element := 4, current_size_index := 0,
    master_list := [⟨0, 3⟩, ⟨2, 19⟩, ⟨1, 11⟩, ⟨3, 4⟩],
    hash_set := [none, none, none, some 0, some 3, none, none, none] }

/-- The copy constructed from `set_mixed`: nodes of its own. -/
def set_mixed_copy : HashSet :=
  { load_factor := 1 / 2, max_load_factor := 1, num_element := 4, current_size_index := 0,
    master_list := [⟨0, 3⟩, ⟨1, 19⟩, ⟨2, 11⟩, ⟨3, 4⟩],
    hash_set := [none, none, none, some 0, some 3, none, none, none] }

/-- A schedule starting at 3: the ratio 1/3 of one element to three buckets is
not a `float`. -/
def E37 : Env := { sizes := [3, 7], end_value := fun _ => 0 }

/-- The value `0.33333334f`, the `float` nearest to 1/3 (above it). -/
def float_third : ℚ := 11184811 / 33554432

/-- The set after `insert(1)` into the fresh set under `E37`: the stored load
factor is `float(1) / 3`. -/
def set_third : HashSet :=
  { load_factor := float_third, max_load_factor := 1, num_element := 1,
    current_size_index := 0, master_list := [⟨0, 1⟩], hash_set := [none, some 0, none] }

/-- The set `set_third` after `maxLoadFactor(0.33333334f)`: grown to 7 buckets. -/
def set_third_grown : HashSet :=
  { load_factor := 9586981 / 67108864, max_load_factor := float_third, num_element := 1,
    current_size_index := 1, master_list := [⟨0, 1⟩],
    hash_set := [none, some 0, none, none, none, none, none] }

/-! ## Rounding to `float` -/

theorem round_half_even_floor_le (y : ℚ) : ⌊y⌋ ≤ round_half_even y := by
  unfold round_half_even
  simp only
  split_ifs <;> omega

theorem round_half_even_le_floor (y : ℚ) : round_half_even y ≤ ⌊y⌋ + 1 := by
  unfold round_half_even
  simp only
  split_ifs <;> omega

theorem round_half_even_mono {a b : ℚ} (h : a ≤ b) : round_half_even a ≤ round_half_even b := by
  have hf : ⌊a⌋ ≤ ⌊b⌋ := Int.floor_mono h
  rcases lt_or_eq_of_le hf with hlt | heq
  · have h1 := round_half_even_le_floor a
    have h2 := round_half_even_floor_le b
    omega
  · unfold round_half_even
    simp only
    rw [heq]
    have hab : a - (⌊b⌋ : ℚ) ≤ b - (⌊b⌋ : ℚ) := by linarith
    split_ifs <;> first | omega | (exfalso; linarith)

theorem round_half_even_intCast (k : Int) : round_half_even (k : ℚ) = k := by
  unfold round_half_even
  simp

theorem le_round_half_even {k : Int} {y : ℚ} (h : (k : ℚ) ≤ y) : k ≤ round_half_even y := by
  have := round_half_even_mono h
  rwa [round_half_even_intCast] at this

theorem round_half_even_le {k : Int} {y : ℚ} (h : y ≤ (k : ℚ)) : round_half_even y ≤ k := by
  have := round_half_even_mono h
  rwa [round_half_even_intCast] at this

theorem float_ulp_pos (x : ℚ) : (0 : ℚ) < 2 ^ (float_exponent x - 23) :=
  zpow_pos (by norm_num) _

theorem float_round_nonneg {x : ℚ} (h : 0 ≤ x) : 0 ≤ float_round x := by
  unfold float_round
  simp only
  have hu := float_ulp_pos x
  have : (0 : Int) ≤ round_half_even (x / 2 ^ (float_exponent x - 23)) :=
    le_round_half_even (by simpa using div_nonneg h hu.le)
  have : (0 : ℚ) ≤ (round_half_even (x / 2 ^ (float_exponent x - 23)) : ℚ) := by exact_mod_cast this
  positivity

theorem float_ulp_mul_top (e : Int) : (2 : ℚ) ^ (e - 23) * 16777216 = 2 ^ (e + 1) := by
  have h : (16777216 : ℚ) = 2 ^ (24 : Int) := by norm_num
  rw [h, ← zpow_add₀ (by norm_num)]
  congr 1
  ring

theorem float_ulp_mul_bottom (e : Int) : (2 : ℚ) ^ (e - 23) * 8388608 = 2 ^ e := by
  have h : (8388608 : ℚ) = 2 ^ (23 : Int) := by norm_num
  rw [h, ← zpow_add₀ (by norm_num)]
  congr 1
  ring

/-- The rounded value stays in the closed binade of the argument: upper end. -/
theorem float_round_le_binade {x : ℚ} (h : 0 < x) :
    float_round x ≤ 2 ^ (float_exponent x + 1) := by
  unfold float_round
  simp only
  have hu := float_ulp_pos x
  have hx : x < 2 ^ (float_exponent x + 1) := by
    have h1 : x < 2 ^ (Int.log 2 x + 1) := by
      have := Int.lt_zpow_succ_log_self (by norm_num : 1 < 2) x
      exact_mod_cast this
    have h2 : (2 : ℚ) ^ (Int.log 2 x + 1) ≤ 2 ^ (float_exponent x + 1) := by
      apply zpow_le_zpow_right₀ (by norm_num)
      unfold float_exponent
      rw [abs_of_pos h]
      have := le_max_left (Int.log 2 x) (-126)
      omega
    exact lt_of_lt_of_le h1 h2
  have hq : x / 2 ^ (float_exponent x - 23) ≤ ((16777216 : Int) : ℚ) := by
    rw [div_le_iff₀ hu]
    push_cast
    rw [mul_comm, float_ulp_mul_top]
    exact hx.le
  have hr := round_half_even_le hq
  have hr' : (round_half_even (x / 2 ^ (float_exponent x - 23)) : ℚ) ≤ 16777216 := by
    exact_mod_cast hr
  rw [← float_ulp_mul_top]
  exact mul_le_mul_of_nonneg_left hr' hu.le

/-- The rounded value stays in the closed binade of the argument: lower end,
in the normal range. -/
theorem binade_le_float_round {x : ℚ} (h : 0 < x) (hn : float_exponent x = Int.log 2 x) :
    2 ^ (float_exponent x) ≤ float_round x := by
  unfold float_round
  simp only
  have hu := float_ulp_pos x
  have hx : (2 : ℚ) ^ (float_exponent x) ≤ x := by
    rw [hn]
    have := Int.zpow_log_le_self (by norm_num : 1 < 2) h
    exact_mod_cast this
  have hq : ((8388608 : Int) : ℚ) ≤ x / 2 ^ (float_exponent x - 23) := by
    rw [le_div_iff₀ hu]
    push_cast
    rw [mul_comm, float_ulp_mul_bottom]
    exact hx
  have hr := le_round_half_even hq
  have hr' : (8388608 : ℚ) ≤ (round_half_even (x / 2 ^ (float_exponent x - 23)) : ℚ) := by
    exact_mod_cast hr
  nth_rewrite 1 [← float_ulp_mul_bottom (float_exponent x)]
  exact mul_le_mul_of_nonneg_left hr' hu.le

theorem float_exponent_mono {x y : ℚ} (hx : 0 < x) (h : x ≤ y) :
    float_exponent x ≤ float_exponent y := by
  unfold float_exponent
  rw [abs_of_pos hx, abs_of_pos (lt_of_lt_of_le hx h)]
  exact max_le_max (Int.log_mono_right hx h) le_rfl

/-- Rounding to `float` is monotone. -/
theorem float_round_mono {x y : ℚ} (hx : 0 ≤ x) (h : x ≤ y) : float_round x ≤ float_round y := by
  rcases eq_or_lt_of_le hx with h0 | hpos
  · subst h0
    have : float_round 0 = 0 := by
      unfold float_round
      simp [round_half_even]
    rw [this]
    exact float_round_nonneg h
  · have hy : 0 < y := lt_of_lt_of_le hpos h
    rcases lt_or_eq_of_le (float_exponent_mono hpos h) with hlt | heq
    · have h1 := float_round_le_binade hpos
      have hn : float_exponent y = Int.log 2 y := by
        unfold float_exponent at hlt ⊢
        rw [abs_of_pos hy] at hlt ⊢
        rw [abs_of_pos hpos] at hlt
        have := le_max_right (Int.log 2 x) (-126)
        rcases max_cases (Int.log 2 y) (-126) with ⟨h, _⟩ | ⟨h, _⟩
        · exact h
        · omega
      have h2 := binade_le_float_round hy hn
      have h3 : (2 : ℚ) ^ (float_exponent x + 1) ≤ 2 ^ (float_exponent y) :=
        zpow_le_zpow_right₀ (by norm_num) (by omega)
      exact h1.trans (h3.trans h2)
    · unfold float_round
      simp only
      rw [heq]
      have hu := float_ulp_pos y
      have hd : x / 2 ^ (float_exponent y - 23) ≤ y / 2 ^ (float_exponent y - 23) :=
        div_le_div_of_nonneg_right h hu.le
      have hr := round_half_even_mono hd
      have hr' : (round_half_even (x / 2 ^ (float_exponent y - 23)) : ℚ) ≤
          (round_half_even (y / 2 ^ (float_exponent y - 23)) : ℚ) := by exact_mod_cast hr
      exact mul_le_mul_of_nonneg_left hr' hu.le

theorem int_log_two_mul (k : Nat) {x : ℚ} (hx : 0 < x) :
    Int.log 2 (2 ^ k * x) = Int.log 2 x + k := by
  have hk : (0 : ℚ) < 2 ^ k := pow_pos (by norm_num) k
  have hpos : 0 < 2 ^ k * x := mul_pos hk hx
  have hlo : (2 : ℚ) ^ (Int.log 2 x) ≤ x := by
    have := Int.zpow_log_le_self (by norm_num : 1 < 2) hx
    exact_mod_cast this
  have hhi : x < (2 : ℚ) ^ (Int.log 2 x + 1) := by
    have := Int.lt_zpow_succ_log_self (by norm_num : 1 < 2) x
    exact_mod_cast this
  apply le_antisymm
  · have : Int.log 2 (2 ^ k * x) < Int.log 2 x + k + 1 := by
      rw [← Int.lt_zpow_iff_log_lt (by norm_num : 1 < 2) hpos]
      have h1 : ((2 : Nat) : ℚ) ^ (Int.log 2 x + k + 1) = 2 ^ k * 2 ^ (Int.log 2 x + 1) := by
        push_cast
        rw [← zpow_natCast, ← zpow_add₀ (by norm_num)]
        congr 1
        ring
      rw [h1]
      exact mul_lt_mul_of_pos_left hhi hk
    omega
  · rw [← Int.zpow_le_iff_le_log (by norm_num : 1 < 2) hpos]
    have h1 : ((2 : Nat) : ℚ) ^ (Int.log 2 x + k) = 2 ^ k * 2 ^ (Int.log 2 x) := by
      push_cast
      rw [← zpow_natCast, ← zpow_add₀ (by norm_num)]
      congr 1
      ring
    rw [h1]
    exact mul_le_mul_of_nonneg_left hlo hk.le

theorem int_log_two_nonneg {x : ℚ} (hx : 1 ≤ x) : 0 ≤ Int.log 2 x := by
  rw [← Int.zpow_le_iff_le_log (by norm_num : 1 < 2) (lt_of_lt_of_le one_pos hx)]
  simpa using hx

/-- Rounding to `float` commutes with a multiplication by a power of two (no
overflow is modelled). -/
theorem float_round_scale (k : Nat) {x : ℚ} (hx : 1 ≤ x) :
    float_round (2 ^ k * x) = 2 ^ k * float_round x := by
  have hpos : 0 < x := lt_of_lt_of_le one_pos hx
  have hk : (0 : ℚ) < 2 ^ k := pow_pos (by norm_num) k
  have hlog := int_log_two_nonneg hx
  have he : float_exponent (2 ^ k * x) = float_exponent x + k := by
    unfold float_exponent
    rw [abs_of_pos hpos, abs_of_pos (mul_pos hk hpos), int_log_two_mul k hpos]
    rw [max_eq_left (by omega), max_eq_left (by omega)]
  unfold float_round
  simp only
  rw [he]
  have hu : (2 : ℚ) ^ (float_exponent x + k - 23) = 2 ^ k * 2 ^ (float_exponent x - 23) := by
    rw [← zpow_natCast, ← zpow_add₀ (by norm_num)]
    congr 1
    ring
  rw [hu, mul_div_mul_left _ _ hk.ne.symm, mul_assoc]

theorem float_round_one : float_round 1 = 1 := by decide!

theorem float_round_two_pow (k : Nat) : float_round (2 ^ k) = 2 ^ k := by
  have := float_round_scale k (le_refl (1 : ℚ))
  rwa [mul_one, float_round_one, mul_one] at this

theorem one_le_float_round {x : ℚ} (hx : 1 ≤ x) : 1 ≤ float_round x := by
  have := float_round_mono (by norm_num) hx
  rwa [float_round_one] at this

/-- Growth check at a power-of-two maximum: the quotient computed in `float`
reaches `2 ^ k` whenever the exact quotient does. -/
theorem le_float_div (k : Nat) {n c : Nat} (hc : 1 ≤ c) (h : 2 ^ k * c ≤ n) :
    (2 : ℚ) ^ k ≤ float_div n c := by
  unfold float_div
  have hc1 : (1 : ℚ) ≤ (Nat.cast c : ℚ) := by exact_mod_cast hc
  have hfc := one_le_float_round hc1
  have hfc0 : (0 : ℚ) < float_round (Nat.cast c : ℚ) := lt_of_lt_of_le one_pos hfc
  have hk : (0 : ℚ) < 2 ^ k := pow_pos (by norm_num) k
  have hn : (2 : ℚ) ^ k * (Nat.cast c : ℚ) ≤ (Nat.cast n : ℚ) := by exact_mod_cast h
  have h1 := float_round_mono (mul_nonneg hk.le (le_trans zero_le_one hc1)) hn
  rw [float_round_scale k hc1] at h1
  have h2 : (2 : ℚ) ^ k ≤ float_round (Nat.cast n : ℚ) / float_round (Nat.cast c : ℚ) := by
    rw [le_div_iff₀ hfc0]
    exact h1
  have h3 := float_round_mono hk.le h2
  rwa [float_round_two_pow] at h3

/-- The quotient computed in `float` stays at or below `2 ^ k` whenever the
exact quotient does. -/
theorem float_div_le (k : Nat) {n c : Nat} (hc : 1 ≤ c) (h : n ≤ 2 ^ k * c) :
    float_div n c ≤ (2 : ℚ) ^ k := by
  unfold float_div
  have hc1 : (1 : ℚ) ≤ (Nat.cast c : ℚ) := by exact_mod_cast hc
  have hfc := one_le_float_round hc1
  have hfc0 : (0 : ℚ) < float_round (Nat.cast c : ℚ) := lt_of_lt_of_le one_pos hfc
  have hn : (Nat.cast n : ℚ) ≤ (2 : ℚ) ^ k * (Nat.cast c : ℚ) := by exact_mod_cast h
  have h1 := float_round_mono (Nat.cast_nonneg n) hn
  rw [float_round_scale k hc1] at h1
  have h0 : (0 : ℚ) ≤ float_round (Nat.cast n : ℚ) := float_round_nonneg (Nat.cast_nonneg n)
  have h2 : float_round (Nat.cast n : ℚ) / float_round (Nat.cast c : ℚ) ≤ (2 : ℚ) ^ k := by
    rw [div_le_iff₀ hfc0]
    exact h1
  have h3 := float_round_mono (div_nonneg h0 hfc0.le) h2
  rwa [float_round_two_pow] at h3

/-- Eight buckets: the `float` quotient of a smaller count is below 1. -/
theorem float_div_eight : ∀ n, n < 8 → float_div n 8 < 1 := by
  intro n hn
  interval_cases n <;> decide!

theorem float_div_zero (c : Nat) : float_div 0 c = 0 := by
  have h0 : float_round 0 = 0 := by
    unfold float_round
    simp [round_half_even]
  unfold float_div
  rw [Nat.cast_zero, h0, zero_div, h0]

/-- The rounding of a value whose binade is known. -/
theorem float_round_eq {x : ℚ} (e : Int) (hx : 0 < x) (he : -126 ≤ e) (h1 : 2 ^ e ≤ x)
    (h2 : x < 2 ^ (e + 1)) :
    float_round x = 2 ^ (e - 23) * round_half_even (x / 2 ^ (e - 23)) := by
  have hlog : Int.log 2 x = e := by
    apply le_antisymm
    · have : Int.log 2 x < e + 1 := by
        rw [← Int.lt_zpow_iff_log_lt (by norm_num : 1 < 2) hx]
        exact_mod_cast h2
      omega
    · rw [← Int.zpow_le_iff_le_log (by norm_num : 1 < 2) hx]
      exact_mod_cast h1
  have hexp : float_exponent x = e := by
    unfold float_exponent
    rw [abs_of_pos hx, hlog]
    exact max_eq_left he
  unfold float_round
  simp only
  rw [hexp]

/-- A maximum load factor 3 that the `float` quotient misses: 16777221 elements
in 5592407 buckets are three per bucket, and the quotient computed in `float` is
below 3, since 16777221 is not a `float`. -/
theorem float_div_below_three :
    3 * 5592407 ≤ 16777221 ∧ float_div 16777221 5592407 = 12582911 / 4194304 ∧
      float_div 16777221 5592407 < 3 := by
  have hn : float_round ((16777221 : Nat) : ℚ) = 16777220 := by
    rw [float_round_eq 24 (by norm_num) (by norm_num) (by norm_num) (by norm_num)]
    decide!
  have hc : float_round ((5592407 : Nat) : ℚ) = 5592407 := by
    rw [float_round_eq 22 (by norm_num) (by norm_num) (by norm_num) (by norm_num)]
    decide!
  have hq : float_div 16777221 5592407 = 12582911 / 4194304 := by
    unfold float_div
    rw [hn, hc, float_round_eq 1 (by norm_num) (by norm_num) (by norm_num) (by norm_num)]
    decide!
  refine ⟨by norm_num, hq, ?_⟩
  rw [hq]
  norm_num

/-! ## Contiguity: the two forms agree -/

theorem grouped_pair (f : Node → Nat) : ∀ (xs : List Node) (x b c : Node),
    Grouped f (x :: xs) → List.Sublist [b, c] xs → f c = f x → f b = f x := by
  intro xs
  induction xs with
  | nil => intro x b c _ h; cases h
  | cons z r ih =>
    intro x b c hg hs hc
    have hcm : c ∈ z :: r := hs.subset (by simp)
    obtain ⟨z', r', hz, hfz⟩ := hg.1 c hcm hc
    have hzz : z' = z := by injection hz with h1 _; exact h1.symm
    subst hzz
    cases hs with
    | cons _ h => 
      have := ih z' b c hg.2 h (hc.trans hfz.symm)
      exact this.trans hfz
    | cons₂ _ h => exact hfz

theorem grouped_contiguous (f : Node → Nat) : ∀ l, Grouped f l → Contiguous f l := by
  intro l
  induction l with
  | nil => intro _ x y z h; cases h
  | cons a l ih =>
    intro hg x y z hs hxz
    cases hs with
    | cons _ h => exact ih hg.2 x y z h hxz
    | cons₂ _ h => exact grouped_pair f l a y z hg h hxz.symm

theorem contiguous_sublist (f : Node → Nat) {l l' : List Node}
    (h : Contiguous f l) (hs : List.Sublist l' l) : Contiguous f l' :=
  fun x y z hxyz => h x y z (hxyz.trans hs)

theorem contiguous_grouped (f : Node → Nat) : ∀ l, Contiguous f l → Grouped f l := by
  intro l
  induction l with
  | nil => intro _; trivial
  | cons a l ih =>
    intro hc
    refine ⟨?_, ih (contiguous_sublist f hc (List.sublist_cons_self a l))⟩
    intro y hy hfy
    cases l with
    | nil => cases hy
    | cons z r =>
      refine ⟨z, r, rfl, ?_⟩
      rcases List.mem_cons.1 hy with rfl | hy'
      · exact hfy
      · have hs : List.Sublist [a, z, y] (a :: z :: r) :=
          List.Sublist.cons₂ _ (List.Sublist.cons₂ _ (List.singleton_sublist.2 hy'))
        exact hc a z y hs hfy.symm

theorem grouped_iff (f : Node → Nat) (l : List Node) : Grouped f l ↔ Contiguous f l :=
  ⟨grouped_contiguous f l, contiguous_grouped f l⟩

theorem grouped_cons (f : Node → Nat) (x : Node) (xs : List Node) :
    Grouped f (x :: xs) ↔
      (∀ y ∈ xs, f y = f x → ∃ z r, xs = z :: r ∧ f z = f x) ∧ Grouped f xs := Iff.rfl

theorem grouped_insert_after (f : Node → Nat) (h x : Node) (rest : List Node) (hx : f x = f h) :
    ∀ pre, Grouped f (pre ++ h :: rest) → Grouped f (pre ++ h :: x :: rest) := by
  intro pre
  induction pre with
  | nil =>
    intro hg
    rw [List.nil_append, grouped_cons] at hg
    rw [List.nil_append, grouped_cons, grouped_cons]
    refine ⟨fun y _ _ => ⟨x, rest, rfl, hx⟩, ?_, hg.2⟩
    intro y hy hfy
    obtain ⟨z, r, hz, hfz⟩ := hg.1 y hy (hfy.trans hx)
    exact ⟨z, r, hz, hfz.trans hx.symm⟩
  | cons a pre ih =>
    intro hg
    rw [List.cons_append, grouped_cons] at hg
    rw [List.cons_append, grouped_cons]
    refine ⟨?_, ih hg.2⟩
    intro y hy hfy
    have hy' : ∃ y' ∈ pre ++ h :: rest, f y' = f a := by
      simp only [List.mem_append, List.mem_cons] at hy ⊢
      rcases hy with hy | rfl | rfl | hy
      · exact ⟨y, Or.inl hy, hfy⟩
      · exact ⟨y, Or.inr (Or.inl rfl), hfy⟩
      · exact ⟨h, Or.inr (Or.inl rfl), hx.symm.trans hfy⟩
      · exact ⟨y, Or.inr (Or.inr hy), hfy⟩
    obtain ⟨y', hy'm, hfy'⟩ := hy'
    obtain ⟨z, r, hz, hfz⟩ := hg.1 y' hy'm hfy'
    cases pre with
    | nil =>
      simp only [List.nil_append, List.cons.injEq] at hz
      exact ⟨h, x :: rest, rfl, hz.1 ▸ hfz⟩
    | cons p pre' =>
      simp only [List.cons_append, List.cons.injEq] at hz
      exact ⟨p, pre' ++ h :: x :: rest, rfl, hz.1 ▸ hfz⟩

theorem grouped_append_new (f : Node → Nat) (x : Node) :
    ∀ l, Grouped f l → (∀ n ∈ l, f n ≠ f x) → Grouped f (l ++ [x]) := by
  intro l
  induction l with
  | nil =>
    intro _ _
    rw [List.nil_append, grouped_cons]
    exact ⟨fun y hy => absurd hy (List.not_mem_nil _), trivial⟩
  | cons a l ih =>
    intro hg hne
    rw [grouped_cons] at hg
    rw [List.cons_append, grouped_cons]
    refine ⟨?_, ih hg.2 (fun n hn => hne n (List.mem_cons_of_mem _ hn))⟩
    intro y hy hfy
    rcases List.mem_append.1 hy with hy | hy
    · obtain ⟨z, r, hz, hfz⟩ := hg.1 y hy hfy
      subst hz
      exact ⟨z, r ++ [x], rfl, hfz⟩
    · simp only [List.mem_singleton] at hy
      subst hy
      exact absurd hfy.symm (hne a (List.mem_cons_self _ _))

/-! ## Facts about the list operations -/

theorem fresh_id_gt : ∀ (l : List Node) (n : Node), n ∈ l → n.id < fresh_id l := by
  intro l
  induction l with
  | nil => intro n hn; cases hn
  | cons a l ih =>
    intro n hn
    have hf : fresh_id (a :: l) = max (a.id + 1) (fresh_id l) := rfl
    rw [hf]
    rcases List.mem_cons.1 hn with rfl | hn
    · exact lt_of_lt_of_le (Nat.lt_succ_self _) (le_max_left _ _)
    · exact lt_of_lt_of_le (ih n hn) (le_max_right _ _)

theorem nodupIds_split {pre rest : List Node} {x : Node} (h : NodupIds (pre ++ x :: rest)) :
    (∀ n ∈ pre, n.id ≠ x.id) ∧ (∀ n ∈ rest, n.id ≠ x.id) ∧ NodupIds (pre ++ rest) := by
  unfold NodupIds at h ⊢
  simp only [List.map_append, List.map_cons] at h ⊢
  have h1 := List.nodup_middle.1 h
  rw [List.nodup_cons] at h1
  refine ⟨?_, ?_, h1.2⟩
  · intro n hn he
    exact h1.1 (List.mem_append_left _ (he ▸ List.mem_map_of_mem Node.id hn))
  · intro n hn he
    exact h1.1 (List.mem_append_right _ (he ▸ List.mem_map_of_mem Node.id hn))

theorem nodupIds_unsplit {pre rest : List Node} {x : Node} (h : NodupIds (pre ++ rest))
    (hx : ∀ n ∈ pre ++ rest, n.id ≠ x.id) : NodupIds (pre ++ x :: rest) := by
  unfold NodupIds at h ⊢
  simp only [List.map_append, List.map_cons] at h ⊢
  refine List.nodup_middle.2 (List.nodup_cons.2 ⟨?_, h⟩)
  intro hm
  rw [← List.map_append, List.mem_map] at hm
  obtain ⟨n, hn, he⟩ := hm
  exact hx n hn he

theorem from_it_split {pre rest : List Node} {x : Node} (h : ∀ n ∈ pre, n.id ≠ x.id) :
    from_it (pre ++ x :: rest) x.id = x :: rest := by
  unfold from_it
  rw [List.dropWhile_append_of_pos (by intro a ha; simpa using h a ha)]
  simp

theorem takeWhile_split {pre rest : List Node} {x : Node} (h : ∀ n ∈ pre, n.id ≠ x.id) :
    (pre ++ x :: rest).takeWhile (fun m => m.id != x.id) = pre := by
  rw [List.takeWhile_append_of_pos (by intro a ha; simpa using h a ha)]
  simp

theorem from_it_not_mem {l : List Node} {i : Nat} (h : ∀ n ∈ l, n.id ≠ i) : from_it l i = [] := by
  unfold from_it
  rw [List.dropWhile_eq_nil_iff]
  intro a ha; simpa using h a ha

theorem list_erase_split {rest : List Node} {x : Node} :
    ∀ pre : List Node, (∀ n ∈ pre, n.id ≠ x.id) →
      list_erase (pre ++ x :: rest) x.id = pre ++ rest := by
  intro pre
  induction pre with
  | nil => intro _; simp [list_erase]
  | cons a pre ih =>
    intro h
    have ha : a.id ≠ x.id := h a (List.mem_cons_self _ _)
    rw [List.cons_append, list_erase, if_neg ha, ih (fun n hn => h n (List.mem_cons_of_mem _ hn))]
    rfl

theorem std_next_split {pre rest : List Node} {x : Node} (h : ∀ n ∈ pre, n.id ≠ x.id) :
    std_next (pre ++ x :: rest) (some x.id) = list_begin rest := by
  unfold std_next
  simp only
  rw [from_it_split h]
  cases rest <;> rfl

theorem deref_split (E : Env) {pre rest : List Node} {x : Node} (h : ∀ n ∈ pre, n.id ≠ x.id) :
    deref E (pre ++ x :: rest) (some x.id) = x.val := by
  unfold deref
  simp only
  rw [from_it_split h]

theorem list_insert_split {pre rest : List Node} (n : Node) (h : NodupIds (pre ++ rest)) :
    list_insert (pre ++ rest) (list_begin rest) n = pre ++ n :: rest := by
  cases rest with
  | nil => simp [list_insert, list_begin]
  | cons y r =>
    have hy := (nodupIds_split h).1
    simp only [list_insert, list_begin]
    rw [takeWhile_split hy, from_it_split hy]

theorem list_erase_sublist : ∀ (l : List Node) (i : Nat), List.Sublist (list_erase l i) l := by
  intro l i
  induction l with
  | nil => exact List.Sublist.slnil
  | cons a l ih =>
    simp only [list_erase]
    split
    · exact List.sublist_cons_self a l
    · exact List.Sublist.cons₂ a ih

/-! ## Facts about run heads -/

theorem run_head_eq_none {f : Node → Nat} {l : List Node} {b : Nat} :
    run_head f l b = none ↔ ∀ n ∈ l, f n ≠ b := by
  simp [run_head]

theorem run_head_eq_some {f : Node → Nat} {l : List Node} {b i : Nat}
    (h : run_head f l b = some i) :
    ∃ pre x rest, l = pre ++ x :: rest ∧ x.id = i ∧ f x = b ∧ ∀ n ∈ pre, f n ≠ b := by
  unfold run_head at h
  rw [Option.map_eq_some'] at h
  obtain ⟨x, hx, hi⟩ := h
  rw [List.find?_eq_some] at hx
  obtain ⟨hp, pre, rest, hl, hpre⟩ := hx
  refine ⟨pre, x, rest, hl, hi, by simpa using hp, ?_⟩
  intro n hn
  simpa using hpre n hn

theorem run_head_split {f : Node → Nat} {pre rest : List Node} {x : Node} {b : Nat}
    (hx : f x = b) (hpre : ∀ n ∈ pre, f n ≠ b) :
    run_head f (pre ++ x :: rest) b = some x.id := by
  unfold run_head
  rw [List.find?_append]
  have h1 : pre.find? (fun n => f n == b) = none := by
    rw [List.find?_eq_none]; intro a ha; simpa using hpre a ha
  rw [h1]
  simp [hx]

theorem run_head_insert_after (f : Node → Nat) (pre rest : List Node) (h x : Node)
    (hx : f x = f h) (b : Nat) :
    run_head f (pre ++ h :: x :: rest) b = run_head f (pre ++ h :: rest) b := by
  unfold run_head
  rw [List.find?_append, List.find?_append]
  by_cases hb : f h = b
  · have h1 : (f h == b) = true := by simpa using hb
    simp only [List.find?_cons, h1]
  · have h1 : (f h == b) = false := by simpa using hb
    have h2 : (f x == b) = false := by rw [hx]; exact h1
    simp only [List.find?_cons, h1, h2]

theorem run_head_append_new (f : Node → Nat) (l : List Node) (x : Node)
    (hne : ∀ n ∈ l, f n ≠ f x) (b : Nat) :
    run_head f (l ++ [x]) b = if b = f x then some x.id else run_head f l b := by
  unfold run_head
  simp only [List.find?_append, List.find?_cons, List.find?_nil]
  by_cases hb : b = f x
  · subst hb
    have h1 : l.find? (fun n => f n == f x) = none := by
      rw [List.find?_eq_none]; intro a ha; simpa using hne a ha
    simp [h1]
  · have hb' : (f x == b) = false := by simpa using fun h => hb h.symm
    simp [hb, hb']

theorem run_head_remove_other (f : Node → Nat) (pre rest : List Node) (x : Node) (b : Nat)
    (hb : f x ≠ b) :
    run_head f (pre ++ rest) b = run_head f (pre ++ x :: rest) b := by
  unfold run_head
  simp [List.find?_append, List.find?_cons, hb]

theorem run_head_remove_later (f : Node → Nat) (pre rest : List Node) (x : Node) (b : Nat)
    (hb : ∃ n ∈ pre, f n = b) :
    run_head f (pre ++ rest) b = run_head f (pre ++ x :: rest) b := by
  unfold run_head
  obtain ⟨n, hn, hfn⟩ := hb
  have h1 : (pre.find? (fun n => f n == b)).isSome := by
    rw [List.find?_isSome]; exact ⟨n, hn, by simpa using hfn⟩
  obtain ⟨m, hm⟩ := Option.isSome_iff_exists.1 h1
  simp [List.find?_append, hm]

theorem run_head_remove_head (f : Node → Nat) (pre rest : List Node) (x : Node) (b : Nat)
    (hpre : ∀ n ∈ pre, f n ≠ b) (hg : Grouped f (x :: rest)) (hx : f x = b) :
    run_head f (pre ++ rest) b =
      match rest with
      | [] => none
      | m :: _ => if f m = b then some m.id else none := by
  have h1 : pre.find? (fun n => f n == b) = none := by
    rw [List.find?_eq_none]; intro a ha; simpa using hpre a ha
  unfold run_head
  rw [List.find?_append, h1]
  cases rest with
  | nil => simp
  | cons m r =>
    by_cases hm : f m = b
    · simp [hm]
    · simp only [Option.none_or, hm, if_false, Option.map_eq_none', List.find?_eq_none]
      intro a ha
      rw [grouped_cons] at hg
      intro hfa
      obtain ⟨z, r', hz, hfz⟩ := hg.1 a ha (by rw [hx]; simpa using hfa)
      injection hz with hz1 _
      exact hm (by rw [hz1, hfz, hx])

theorem static_cast_int_small {x : Int} (h0 : 0 ≤ x) (h1 : x < 2 ^ 31) : static_cast_int x = x := by
  unfold static_cast_int
  rw [Int.bmod_def]
  have : (2:Int) ^ 31 = 2147483648 := by norm_num
  have h3 : ((2 ^ 32 : Nat) : Int) = 4294967296 := by norm_num
  rw [h3]
  split <;> omega

theorem tmod_bounds (key : Int) (c : Nat) (hc : 1 ≤ c) :
    (0 ≤ Int.tmod key c ∧ Int.tmod key c < c) ∨ (Int.tmod key c < 0 ∧ -(c : Int) < Int.tmod key c) := by
  cases key with
  | ofNat m =>
    left
    have h : Int.tmod (Int.ofNat m) (c : Int) = ((m % c : Nat) : Int) := rfl
    rw [h]
    have := Nat.mod_lt m hc
    constructor <;> omega
  | negSucc m =>
    have h : Int.tmod (Int.negSucc m) (c : Int) = -((Nat.succ m % c : Nat) : Int) := rfl
    rw [h]
    have := Nat.mod_lt (Nat.succ m) hc
    omega

theorem bucket_index_lt {cap : Nat} (h1 : 1 ≤ cap) (h2 : cap < 2 ^ 31) (key : Int) :
    bucket_index cap key < cap := by
  unfold bucket_index
  have hc : static_cast_int (cap : Int) = cap := static_cast_int_small (by omega) (by exact_mod_cast h2)
  simp only [hc]
  have h31 : (2:Nat) ^ 31 = 2147483648 := by norm_num
  have h64 : (2:Int) ^ 64 = 18446744073709551616 := by norm_num
  rcases tmod_bounds key cap h1 with ⟨ha, hb⟩ | ⟨ha, hb⟩
  · rw [if_neg (by omega), h64]
    omega
  · rw [if_pos ha]
    have hs : static_cast_int (Int.tmod key cap * -1) = -(Int.tmod key cap) := by
      rw [static_cast_int_small (by omega) (by omega)]; ring
    rw [hs, h64]
    omega

/-! ## The bounded scan of `find` and `contains` -/

theorem shape_of_I2 {E : Env} {s : HashSet} (hE : E.WF) (hi : NodupIds s.master_list)
    (h : s.I2 E) : ∃ cap, Shape E s cap := by
  obtain ⟨cap, h1, h2, h3, h4⟩ := h
  have hm : cap ∈ E.sizes := List.getElem?_mem h1
  exact ⟨cap, h1, (hE cap hm).1, (hE cap hm).2, h2, h3, contiguous_grouped _ _ h4, hi⟩

theorem Shape.I2 {E : Env} {s : HashSet} {cap : Nat} (h : Shape E s cap) : s.I2 E :=
  ⟨cap, h.cap_eq, h.len, h.heads, grouped_contiguous _ _ h.grouped⟩

theorem bucket_eq {E : Env} {s : HashSet} {cap : Nat}
    (h : E.sizes[s.current_size_index]? = some cap) (key : Int) :
    s.bucket E key = some (bucket_index cap key) := by
  simp [HashSet.bucket, h]

theorem grouped_suffix (f : Node → Nat) : ∀ (pre l : List Node), Grouped f (pre ++ l) → Grouped f l := by
  intro pre
  induction pre with
  | nil => intro l h; exact h
  | cons a pre ih => intro l h; exact ih l h.2

theorem find_loop_spec {E : Env} {s : HashSet} {cap : Nat}
    (hc : E.sizes[s.current_size_index]? = some cap) (key : Int) :
    ∀ (rest : List Node) (x : Node), Grouped (bkt cap) (x :: rest) →
      bkt cap x = bucket_index cap key →
      HashSet.find_loop E s key (bucket_index cap key) (x :: rest) =
        some (((x :: rest).find? (fun n => n.val == key)).map Node.id) := by
  intro rest
  induction rest with
  | nil =>
    intro x _ _
    by_cases hx : x.val = key
    · simp [HashSet.find_loop, hx]
    · simp [HashSet.find_loop, hx]
  | cons m r ih =>
    intro x hg hx
    by_cases hk : x.val = key
    · simp [HashSet.find_loop, hk]
    · rw [HashSet.find_loop, if_neg hk]
      simp only [bucket_eq hc]
      have hk' : (x.val == key) = false := by simpa using hk
      rw [List.find?_cons, hk']
      simp only
      by_cases hm : bucket_index cap m.val = bucket_index cap key
      · rw [if_pos hm]
        exact ih m hg.2 hm
      · rw [if_neg hm]
        have : (m :: r).find? (fun n => n.val == key) = none := by
          rw [List.find?_eq_none]
          intro a ha hak
          have hak' : a.val = key := by simpa using hak
          obtain ⟨z, r', hz, hfz⟩ := hg.1 a ha (by rw [hx]; unfold bkt; rw [hak'])
          injection hz with hz1 _
          apply hm
          have : bkt cap m = bkt cap x := by rw [hz1]; exact hfz
          exact this.trans hx
        rw [this]; rfl

theorem find_spec {E : Env} {s : HashSet} {cap : Nat} (h : Shape E s cap) (key : Int) :
    s.find E key = some ((s.master_list.find? (fun n => n.val == key)).map Node.id) := by
  have hb := bucket_index_lt h.cap_pos h.cap_lt key
  unfold HashSet.find
  rw [bucket_eq h.cap_eq]
  simp only
  rw [h.heads _ hb]
  cases hr : run_head (bkt cap) s.master_list (bucket_index cap key) with
  | none =>
    simp only
    rw [run_head_eq_none] at hr
    have : s.master_list.find? (fun n => n.val == key) = none := by
      rw [List.find?_eq_none]
      intro a ha hak
      have hak' : a.val = key := by simpa using hak
      exact hr a ha (by unfold bkt; rw [hak'])
    rw [this]; rfl
  | some i =>
    simp only
    obtain ⟨pre, x, rest, hl, hi, hx, hpre⟩ := run_head_eq_some hr
    have hids := h.ids
    rw [hl] at hids
    have hne := (nodupIds_split hids).1
    rw [hl, ← hi, from_it_split hne]
    rw [find_loop_spec h.cap_eq key rest x (grouped_suffix _ pre _ (hl ▸ h.grouped)) hx]
    have : pre.find? (fun n => n.val == key) = none := by
      rw [List.find?_eq_none]
      intro a ha hak
      have hak' : a.val = key := by simpa using hak
      exact hpre a ha (by unfold bkt; rw [hak'])
    rw [List.find?_append, this]
    rfl

theorem contains_loop_eq (E : Env) (s : HashSet) (key : Int) (b : Nat) :
    ∀ l, HashSet.contains_loop E s key b l = (HashSet.find_loop E s key b l).map Option.isSome := by
  intro l
  induction l with
  | nil => rfl
  | cons n rest ih =>
    cases rest with
    | nil =>
      by_cases hk : n.val = key
      · simp [HashSet.contains_loop, HashSet.find_loop, hk]
      · simp [HashSet.contains_loop, HashSet.find_loop, hk]
    | cons m r =>
      rw [HashSet.contains_loop, HashSet.find_loop]
      by_cases hk : n.val = key
      · simp [hk]
      · rw [if_neg hk, if_neg hk]
        cases s.bucket E m.val with
        | none => rfl
        | some b' =>
          simp only
          split
          · exact ih
          · rfl

theorem contains_eq_find (E : Env) (s : HashSet) (key : Int) :
    s.contains E key = (s.find E key).map Option.isSome := by
  unfold HashSet.contains HashSet.find
  cases s.bucket E key with
  | none => rfl
  | some b =>
    simp only
    cases s.hash_set[b]? with
    | none => rfl
    | some o =>
      cases o with
      | none => rfl
      | some i => exact contains_loop_eq E s key b _

theorem contains_spec {E : Env} {s : HashSet} {cap : Nat} (h : Shape E s cap) (key : Int) :
    s.contains E key = some (decide (key ∈ keys s.master_list)) := by
  rw [contains_eq_find, find_spec h]
  simp only [Option.map_some', Option.isSome_map', Option.some.injEq]
  rw [Bool.eq_iff_iff]
  simp [keys, List.find?_isSome]

/-! ## `rehash` -/

theorem nodupIds_perm {l l' : List Node} (h : l.Perm l') : NodupIds l → NodupIds l' :=
  fun hn => ((h.map Node.id).nodup_iff).1 hn

theorem list_splice_self_next (l : List Node) (i : Nat) :
    list_splice l (std_next l (some i)) i = l := by
  unfold list_splice
  rw [if_pos (Or.inr rfl)]

theorem list_splice_move {A B C : List Node} {x : Node} (h : NodupIds (A ++ B ++ x :: C)) :
    list_splice (A ++ B ++ x :: C) (list_begin (B ++ x :: C)) x.id = A ++ x :: (B ++ C) := by
  cases B with
  | nil => simp [list_splice, list_begin]
  | cons p B' =>
    have hx := (nodupIds_split h).1
    have hpx : p.id ≠ x.id := hx p (by simp)
    have hnext : std_next (A ++ p :: B' ++ x :: C) (some x.id) = list_begin C := std_next_split hx
    have hpc : (some p.id : Iterator) ≠ list_begin C := by
      cases C with
      | nil => exact fun h => by cases h
      | cons c C' =>
        have h' : NodupIds ((A ++ p :: B' ++ [x]) ++ c :: C') := by simpa using h
        have := (nodupIds_split h').1 p (by simp)
        intro he
        simp only [list_begin, Option.some.injEq] at he
        exact this he
    unfold list_splice
    have hcond : ¬ (list_begin (p :: B' ++ x :: C) = some x.id ∨
        list_begin (p :: B' ++ x :: C) = std_next (A ++ p :: B' ++ x :: C) (some x.id)) := by
      rw [hnext]
      simp only [List.cons_append, list_begin, Option.some.injEq]
      rintro (h1 | h1)
      · exact hpx h1
      · exact hpc h1
    rw [if_neg hcond, from_it_split hx]
    simp only
    rw [list_erase_split _ hx]
    have hn2 : NodupIds (A ++ (p :: B' ++ C)) := by
      have := (nodupIds_split h).2.2
      simpa using this
    have := list_insert_split x hn2
    simpa [list_begin] using this

theorem rehash_loop_none (E : Env) (fuel : Nat) (s : HashSet) :
    HashSet.rehash_loop E fuel s none = .ok () s := by
  cases fuel <;> rfl

/-- More iterations allowed do not change what the loop of `rehash` returns. -/
theorem rehash_loop_mono (E : Env) :
    ∀ (fuel : Nat) (s : HashSet) (it : Iterator) (t : HashSet),
      HashSet.rehash_loop E fuel s it = .ok () t →
      ∀ more, fuel ≤ more → HashSet.rehash_loop E more s it = .ok () t := by
  intro fuel
  induction fuel with
  | zero =>
    intro s it t h more _
    cases it with
    | none => rw [rehash_loop_none] at h ⊢; exact h
    | some i => cases h
  | succ f ih =>
    intro s it t h more hm
    cases it with
    | none => rw [rehash_loop_none] at h ⊢; exact h
    | some i =>
      obtain ⟨m, rfl⟩ : ∃ m, more = m + 1 := ⟨more - 1, by omega⟩
      rw [HashSet.rehash_loop] at h ⊢
      cases hb : s.bucket E (deref E s.master_list (some i)) with
      | none => rw [hb] at h; cases h
      | some b =>
        rw [hb] at h
        simp only at h ⊢
        cases hh : s.hash_set[b]? with
        | none => rw [hh] at h; cases h
        | some o =>
          rw [hh] at h
          cases o with
          | none => exact ih _ _ t h m (by omega)
          | some j => exact ih _ _ t h m (by omega)

theorem getElem?_set_table (v : List Iterator) (i j : Nat) (x : Iterator) (hi : i < v.length) :
    (v.set i x)[j]? = if j = i then some x else v[j]? := by
  rw [List.getElem?_set]
  by_cases h : i = j
  · subst h; simp [hi]
  · have : ¬ j = i := fun e => h e.symm
    simp [h, this]

theorem rehash_loop_step {E : Env} {cap : Nat} (s : HashSet) (f : Nat) {x : Node}
    {P U : List Node} (hc : E.sizes[s.current_size_index]? = some cap)
    (hl : s.master_list = P ++ x :: U) (hx : ∀ n ∈ P, n.id ≠ x.id) :
    HashSet.rehash_loop E (f + 1) s (some x.id) =
      match s.hash_set[bkt cap x]? with
      | none => .out_of_range s
      | some none =>
        HashSet.rehash_loop E f
          { s with hash_set := s.hash_set.set (bkt cap x) (some x.id) } (some x.id)
      | some (some h) =>
        HashSet.rehash_loop E f
          { s with master_list :=
              list_splice s.master_list (std_next s.master_list (some h)) x.id }
          (list_begin U) := by
  have hnext : std_next (P ++ x :: U) (some x.id) = list_begin U := std_next_split hx
  have hderef : deref E (P ++ x :: U) (some x.id) = x.val := deref_split E hx
  rw [HashSet.rehash_loop, hl, hderef, bucket_eq hc, hnext]
  rfl

theorem rehash_loop_spec {E : Env} {cap : Nat} (hc1 : 1 ≤ cap) (hc2 : cap < 2 ^ 31) :
    ∀ (U P : List Node) (s : HashSet) (fuel : Nat),
      E.sizes[s.current_size_index]? = some cap →
      s.master_list = P ++ U →
      s.hash_set.length = cap →
      (∀ b, b < cap → s.hash_set[b]? = some (run_head (bkt cap) P b)) →
      Grouped (bkt cap) P →
      NodupIds (P ++ U) →
      2 * U.length ≤ fuel →
      ∃ t, HashSet.rehash_loop E fuel s (list_begin U) = .ok () t ∧
        Shape E t cap ∧ t.master_list.Perm (P ++ U) ∧
        t.num_element = s.num_element ∧ t.current_size_index = s.current_size_index ∧
        t.load_factor = s.load_factor ∧ t.max_load_factor = s.max_load_factor := by
  intro U
  induction U with
  | nil =>
    intro P s fuel hc hl hlen hT hG hN _
    refine ⟨s, rehash_loop_none E fuel s, ?_, ?_, rfl, rfl, rfl, rfl⟩
    · rw [List.append_nil] at hl hN
      exact ⟨hc, hc1, hc2, hlen, by rw [hl]; exact hT, by rw [hl]; exact hG, by rw [hl]; exact hN⟩
    · rw [hl]
  | cons x U ih =>
    intro P s fuel hc hl hlen hT hG hN hfuel
    obtain ⟨f, rfl⟩ : ∃ f, fuel = f + 2 := ⟨fuel - 2, by simp at hfuel; omega⟩
    have hx := (nodupIds_split hN).1
    have hb : bkt cap x < cap := bucket_index_lt hc1 hc2 x.val
    have hnext : std_next (P ++ x :: U) (some x.id) = list_begin U := std_next_split hx
    have hderef : deref E (P ++ x :: U) (some x.id) = x.val := deref_split E hx
    have hstep : HashSet.rehash_loop E (f + 2) s (list_begin (x :: U)) = _ :=
      rehash_loop_step s (f + 1) hc hl hx
    rw [hstep, hT _ hb]
    cases hr : run_head (bkt cap) P (bkt cap x) with
    | none =>
      simp only
      have hne : ∀ n ∈ P, bkt cap n ≠ bkt cap x := run_head_eq_none.1 hr
      -- second turn of the loop: the element is now the head of its bucket
      have hset : (s.hash_set.set (bkt cap x) (some x.id))[bkt cap x]? = some (some x.id) :=
        List.getElem?_set_self (by rw [hlen]; exact hb)
      have hstep2 : HashSet.rehash_loop E (f + 1)
            { s with hash_set := s.hash_set.set (bkt cap x) (some x.id) } (some x.id) =
          HashSet.rehash_loop E f
            { s with hash_set := s.hash_set.set (bkt cap x) (some x.id) } (list_begin U) := by
        rw [@rehash_loop_step E cap
          { s with hash_set := s.hash_set.set (bkt cap x) (some x.id) } f x P U hc hl hx]
        simp only [hset]
        rw [list_splice_self_next]
      rw [hstep2]
      have hl' : s.master_list = (P ++ [x]) ++ U := by rw [hl]; simp
      have hN' : NodupIds ((P ++ [x]) ++ U) := by simpa using hN
      obtain ⟨t, ht, hS, hP, h1, h2, h3, h4⟩ :=
        ih (P ++ [x]) { s with hash_set := s.hash_set.set (bkt cap x) (some x.id) } f
          hc hl' (by simp [hlen])
          (by
            intro b hb'
            show (s.hash_set.set (bkt cap x) (some x.id))[b]? = _
            rw [getElem?_set_table _ _ _ _ (by rw [hlen]; exact hb),
              run_head_append_new _ _ _ hne, hT b hb']
            split <;> rfl)
          (grouped_append_new _ _ _ hG hne) hN' (by simp at hfuel; omega)
      exact ⟨t, ht, hS, by simpa using hP, h1, h2, h3, h4⟩
    | some h =>
      simp only
      obtain ⟨P1, hn, P2, hP, hid, hfh, hP1⟩ := run_head_eq_some hr
      subst hP
      subst hid
      have hN1 : NodupIds ((P1 ++ [hn]) ++ P2 ++ x :: U) := by simpa using hN
      have hhn : ∀ n ∈ P1, n.id ≠ hn.id := by
        have h' : NodupIds (P1 ++ hn :: (P2 ++ x :: U)) := by simpa using hN
        exact (nodupIds_split h').1
      have hpos : std_next s.master_list (some hn.id) = list_begin (P2 ++ x :: U) := by
        rw [hl]
        have : P1 ++ hn :: P2 ++ x :: U = P1 ++ hn :: (P2 ++ x :: U) := by simp
        rw [this]
        exact std_next_split hhn
      have hmove : list_splice s.master_list (std_next s.master_list (some hn.id)) x.id =
          (P1 ++ hn :: x :: P2) ++ U := by
        rw [hpos, hl]
        have : P1 ++ hn :: P2 ++ x :: U = (P1 ++ [hn]) ++ P2 ++ x :: U := by simp
        rw [this, list_splice_move hN1]
        simp
      rw [hmove]
      have hperm : ((P1 ++ hn :: x :: P2) ++ U).Perm (P1 ++ hn :: P2 ++ x :: U) := by
        have e1 : (P1 ++ hn :: x :: P2) ++ U = (P1 ++ [hn]) ++ x :: (P2 ++ U) := by simp
        have e2 : P1 ++ hn :: P2 ++ x :: U = (P1 ++ hn :: P2) ++ x :: U := by simp
        rw [e1, e2]
        refine List.perm_middle.trans (List.Perm.trans ?_ List.perm_middle.symm)
        simp
      obtain ⟨t, ht, hS, hPm, h1, h2, h3, h4⟩ :=
        ih (P1 ++ hn :: x :: P2)
          { s with master_list := (P1 ++ hn :: x :: P2) ++ U } (f + 1)
          hc rfl hlen
          (by
            intro b hb'
            show s.hash_set[b]? = _
            rw [hT b hb', run_head_insert_after _ _ _ _ _ (hfh.symm ▸ rfl)])
          (grouped_insert_after _ _ _ _ (hfh.symm ▸ rfl) _ hG)
          (nodupIds_perm hperm.symm hN) (by simp at hfuel; omega)
      exact ⟨t, ht, hS, hPm.trans hperm, h1, h2, h3, h4⟩

theorem Shape.congr {E : Env} {s t : HashSet} {cap : Nat} (h : Shape E s cap)
    (h1 : t.current_size_index = s.current_size_index) (h2 : t.hash_set = s.hash_set)
    (h3 : t.master_list = s.master_list) : Shape E t cap :=
  ⟨by rw [h1]; exact h.cap_eq, h.cap_pos, h.cap_lt, by rw [h2]; exact h.len,
    by rw [h2, h3]; exact h.heads, by rw [h3]; exact h.grouped, by rw [h3]; exact h.ids⟩

theorem rehash_spec {E : Env} {s : HashSet} {c : Nat} (hc1 : 1 ≤ c) (hc2 : c < 2 ^ 31)
    (hc : E.sizes[s.current_size_index]? = some c) (hN : NodupIds s.master_list) :
    ∃ t, s.rehash E c = .ok () t ∧ Shape E t c ∧ t.master_list.Perm s.master_list ∧
      t.num_element = s.num_element ∧ t.current_size_index = s.current_size_index ∧
      t.max_load_factor = s.max_load_factor ∧
      t.load_factor = float_div s.num_element c := by
  obtain ⟨t, ht, hS, hP, h1, h2, _, h4⟩ :=
    rehash_loop_spec hc1 hc2 s.master_list []
      { s with hash_set := List.replicate c none } (2 * s.master_list.length)
      hc rfl (by simp)
      (by
        intro b hb
        show (List.replicate c (none : Iterator))[b]? = _
        rw [List.getElem?_replicate_of_lt hb]
        rfl)
      trivial hN (le_refl _)
  refine ⟨{ t with load_factor := float_div t.num_element c }, ?_,
    hS.congr rfl rfl rfl, hP, h1, h2, h4, ?_⟩
  · unfold HashSet.rehash
    simp only
    rw [ht]
  · show float_div t.num_element c = _
    rw [h1]

theorem grow_if_needed_spec {E : Env} (hE : E.WF) {s : HashSet} (hN : NodupIds s.master_list) :
    (¬ s.load_factor ≥ s.max_load_factor ∧ HashSet.grow_if_needed E s = .ok () s) ∨
    (s.load_factor ≥ s.max_load_factor ∧ E.sizes[s.current_size_index + 1]? = none ∧
      HashSet.grow_if_needed E s =
        .out_of_range { s with current_size_index := s.current_size_index + 1 }) ∨
    (s.load_factor ≥ s.max_load_factor ∧ ∃ c t, E.sizes[s.current_size_index + 1]? = some c ∧
      HashSet.grow_if_needed E s = .ok () t ∧ Shape E t c ∧ t.master_list.Perm s.master_list ∧
      t.num_element = s.num_element ∧ t.current_size_index = s.current_size_index + 1 ∧
      t.max_load_factor = s.max_load_factor ∧
      t.load_factor = float_div s.num_element c) := by
  unfold HashSet.grow_if_needed
  by_cases hlf : s.load_factor ≥ s.max_load_factor
  · right
    rw [if_pos hlf]
    cases hs : E.sizes[s.current_size_index + 1]? with
    | none => left; exact ⟨hlf, rfl, by simp only [hs]⟩
    | some c =>
      right
      have hm := hE c (List.getElem?_mem hs)
      obtain ⟨t, ht, hS, hP, h1, h2, h3, h4⟩ :=
        @rehash_spec E { s with current_size_index := s.current_size_index + 1 } c
          hm.1 hm.2 hs hN
      exact ⟨hlf, c, t, rfl, by simp only [hs]; exact ht, hS, hP, h1, h2, h3, h4⟩
  · left
    exact ⟨hlf, by rw [if_neg hlf]⟩

theorem count_up_spec {E : Env} {s : HashSet} {cap : Nat}
    (hc : E.sizes[s.current_size_index]? = some cap) :
    HashSet.count_up E s = .ok ()
      { s with num_element := s.num_element + 1,
               load_factor := float_div (s.num_element + 1) cap } := by
  unfold HashSet.count_up
  simp only [hc]

/-- Appending a node whose bucket had no element, and recording it as the run head. -/
theorem push_back_shape {E : Env} {s t : HashSet} {cap : Nat} (h : Shape E s cap) (n : Node)
    (hne : ∀ m ∈ s.master_list, bkt cap m ≠ bkt cap n)
    (hid : ∀ m ∈ s.master_list, m.id ≠ n.id)
    (h1 : t.current_size_index = s.current_size_index)
    (h2 : t.hash_set = s.hash_set.set (bkt cap n) (some n.id))
    (h3 : t.master_list = s.master_list ++ [n]) : Shape E t cap := by
  have hb : bkt cap n < cap := bucket_index_lt h.cap_pos h.cap_lt n.val
  refine ⟨by rw [h1]; exact h.cap_eq, h.cap_pos, h.cap_lt, by rw [h2]; simp [h.len], ?_, ?_, ?_⟩
  · intro b hb'
    rw [h2, h3, getElem?_set_table _ _ _ _ (by rw [h.len]; exact hb),
      run_head_append_new _ _ _ hne, h.heads b hb']
    split <;> rfl
  · rw [h3]; exact grouped_append_new _ _ _ h.grouped hne
  · rw [h3]
    have := @nodupIds_unsplit s.master_list [] n (by simpa using h.ids) (by simpa using hid)
    exact this

/-- Linking a node right after the run head of its bucket. -/
theorem insert_after_shape {E : Env} {s t : HashSet} {cap : Nat} (h : Shape E s cap) (n : Node)
    {pre rest : List Node} {hn : Node} (hl : s.master_list = pre ++ hn :: rest)
    (hf : bkt cap n = bkt cap hn)
    (hid : ∀ m ∈ s.master_list, m.id ≠ n.id)
    (h1 : t.current_size_index = s.current_size_index)
    (h2 : t.hash_set = s.hash_set)
    (h3 : t.master_list = pre ++ hn :: n :: rest) : Shape E t cap := by
  refine ⟨by rw [h1]; exact h.cap_eq, h.cap_pos, h.cap_lt, by rw [h2]; exact h.len, ?_, ?_, ?_⟩
  · intro b hb'
    rw [h2, h3, run_head_insert_after _ _ _ _ _ hf, ← hl]
    exact h.heads b hb'
  · rw [h3]; exact grouped_insert_after _ _ _ _ hf _ (hl ▸ h.grouped)
  · rw [h3]
    have e : pre ++ hn :: n :: rest = (pre ++ [hn]) ++ n :: rest := by simp
    rw [e]
    refine nodupIds_unsplit ?_ ?_
    · have := h.ids; rw [hl] at this; simpa using this
    · intro m hm; exact hid m (by rw [hl]; simpa using hm)

theorem list_last_concat (l : List Node) (n : Node) : list_last (l ++ [n]) = some n.id := by
  unfold list_last
  rw [List.getLast?_concat]

/-- What the part of `insert` after the growth check does on a well-shaped state. -/
theorem insert_after_growth_spec {E : Env} {s : HashSet} {cap : Nat} (h : Shape E s cap)
    (key : Int) :
    (key ∈ keys s.master_list ∧ HashSet.insert_after_growth E s key = .ok () s) ∨
    (key ∉ keys s.master_list ∧ ∃ t, HashSet.insert_after_growth E s key = .ok () t ∧
      Shape E t cap ∧ t.master_list.Perm (⟨fresh_id s.master_list, key⟩ :: s.master_list) ∧
      t.num_element = s.num_element + 1 ∧ t.current_size_index = s.current_size_index ∧
      t.max_load_factor = s.max_load_factor ∧
      t.load_factor = float_div (s.num_element + 1) cap) := by
  have hb : bucket_index cap key < cap := bucket_index_lt h.cap_pos h.cap_lt key
  have hfresh : ∀ m ∈ s.master_list, m.id ≠ (Node.mk (fresh_id s.master_list) key).id :=
    fun m hm => Nat.ne_of_lt (fresh_id_gt _ m hm)
  have hpush : ∀ t : HashSet, (∀ m ∈ s.master_list, bkt cap m ≠ bucket_index cap key) →
      t.current_size_index = s.current_size_index →
      t.hash_set = s.hash_set.set (bucket_index cap key) (some (fresh_id s.master_list)) →
      t.master_list = s.master_list ++ [⟨fresh_id s.master_list, key⟩] →
      Shape E t cap ∧ t.master_list.Perm (⟨fresh_id s.master_list, key⟩ :: s.master_list) := by
    intro t hne h1 h2 h3
    refine ⟨push_back_shape h ⟨fresh_id s.master_list, key⟩ hne hfresh h1 h2 h3, ?_⟩
    rw [h3]
    exact List.perm_append_singleton _ _
  unfold HashSet.insert_after_growth
  rw [bucket_eq h.cap_eq]
  simp only
  by_cases hemp : s.master_list.isEmpty = true
  · rw [if_pos hemp]
    have hnil : s.master_list = [] := List.isEmpty_iff.1 hemp
    right
    refine ⟨by rw [hnil]; simp [keys], ?_⟩
    have hvs : vec_set s.hash_set (bucket_index cap key)
        (list_begin (list_insert s.master_list none ⟨fresh_id s.master_list, key⟩)) =
        some (s.hash_set.set (bucket_index cap key) (some (fresh_id s.master_list))) := by
      unfold vec_set
      rw [if_pos (by rw [h.len]; exact hb), hnil]
      rfl
    rw [hvs]
    simp only
    simp only [HashSet.count_up, h.cap_eq]
    refine ⟨_, rfl, ?_⟩
    obtain ⟨hS, hP⟩ := hpush
      { s with master_list := s.master_list ++ [⟨fresh_id s.master_list, key⟩],
               hash_set := s.hash_set.set (bucket_index cap key) (some (fresh_id s.master_list)) }
      (by rw [hnil]; intro m hm; cases hm) rfl rfl rfl
    exact ⟨hS.congr rfl rfl rfl, hP, rfl, rfl, rfl, rfl⟩
  · rw [if_neg hemp, contains_spec h]
    by_cases hk : key ∈ keys s.master_list
    · left
      exact ⟨hk, by simp [hk]⟩
    · right
      refine ⟨hk, ?_⟩
      simp only [hk, decide_False]
      rw [h.heads _ hb]
      cases hr : run_head (bkt cap) s.master_list (bucket_index cap key) with
      | none =>
        simp only
        have hvs : vec_set s.hash_set (bucket_index cap key)
            (list_last (list_insert s.master_list none ⟨fresh_id s.master_list, key⟩)) =
            some (s.hash_set.set (bucket_index cap key) (some (fresh_id s.master_list))) := by
          unfold vec_set
          rw [if_pos (by rw [h.len]; exact hb)]
          show some (s.hash_set.set _ (list_last (s.master_list ++ [_]))) = _
          rw [list_last_concat]
        rw [hvs]
        simp only
        simp only [HashSet.count_up, h.cap_eq]
        refine ⟨_, rfl, ?_⟩
        obtain ⟨hS, hP⟩ := hpush
          { s with master_list := s.master_list ++ [⟨fresh_id s.master_list, key⟩],
                   hash_set := s.hash_set.set (bucket_index cap key)
                     (some (fresh_id s.master_list)) }
          (run_head_eq_none.1 hr) rfl rfl rfl
        exact ⟨hS.congr rfl rfl rfl, hP, rfl, rfl, rfl, rfl⟩
      | some i =>
        simp only
        obtain ⟨pre, hn, rest, hl, hid, hfh, _⟩ := run_head_eq_some hr
        subst hid
        have hids := h.ids
        rw [hl] at hids
        have hne := (nodupIds_split hids).1
        have hins : list_insert s.master_list (std_next s.master_list (some hn.id))
            ⟨fresh_id s.master_list, key⟩ =
            pre ++ hn :: ⟨fresh_id s.master_list, key⟩ :: rest := by
          rw [hl, std_next_split hne]
          have e : pre ++ hn :: rest = (pre ++ [hn]) ++ rest := by simp
          rw [e, list_insert_split _ (by rw [← e]; exact hids)]
          simp
        rw [hins]
        simp only [HashSet.count_up, h.cap_eq]
        refine ⟨_, rfl, ?_, ?_, rfl, rfl, rfl, rfl⟩
        · exact insert_after_shape h ⟨fresh_id s.master_list, key⟩ hl hfh.symm hfresh rfl rfl rfl
        · show (pre ++ hn :: ⟨fresh_id s.master_list, key⟩ :: rest).Perm _
          rw [hl]
          have e : pre ++ hn :: ⟨fresh_id (pre ++ hn :: rest), key⟩ :: rest =
              (pre ++ [hn]) ++ ⟨fresh_id (pre ++ hn :: rest), key⟩ :: rest := by simp
          rw [e]
          refine List.perm_middle.trans ?_
          simp

/-! ## `erase` -/

theorem run_head_mem_pre (f : Node → Nat) (pre r : List Node) (b : Nat)
    (h : ∃ n ∈ pre, f n = b) : ∃ m ∈ pre, run_head f (pre ++ r) b = some m.id := by
  obtain ⟨n, hn, hfn⟩ := h
  have h1 : (pre.find? (fun n => f n == b)).isSome := by
    rw [List.find?_isSome]; exact ⟨n, hn, by simpa using hfn⟩
  obtain ⟨m, hm⟩ := Option.isSome_iff_exists.1 h1
  refine ⟨m, List.mem_of_find?_eq_some hm, ?_⟩
  unfold run_head
  rw [List.find?_append, hm]
  rfl

/-- The table after unlinking `x`, as computed by `erase`. -/
theorem erase_table {E : Env} {s : HashSet} {cap : Nat} (h : Shape E s cap)
    {pre rest : List Node} {x : Node} (hl : s.master_list = pre ++ x :: rest) :
    ∃ T : List Iterator,
      (if (some x.id : Iterator) = run_head (bkt cap) s.master_list (bkt cap x) then
        match s.bucket E (deref E s.master_list (std_next s.master_list (some x.id))) with
        | none => none
        | some b =>
          if b = bkt cap x then
            vec_set s.hash_set (bkt cap x) (std_next s.master_list (some x.id))
          else vec_set s.hash_set (bkt cap x) none
      else some s.hash_set) = some T ∧
      T.length = cap ∧
      ∀ b, b < cap → T[b]? = some (run_head (bkt cap) (pre ++ rest) b) := by
  have hb : bkt cap x < cap := bucket_index_lt h.cap_pos h.cap_lt x.val
  have hids := h.ids
  rw [hl] at hids
  have hne := (nodupIds_split hids).1
  have hgr : Grouped (bkt cap) (x :: rest) := grouped_suffix _ pre _ (hl ▸ h.grouped)
  have hother : ∀ b, b < cap → b ≠ bkt cap x →
      s.hash_set[b]? = some (run_head (bkt cap) (pre ++ rest) b) := by
    intro b hb' hbx
    rw [h.heads b hb', hl, ← run_head_remove_other _ pre rest x _ (fun e => hbx e.symm)]
  by_cases hh : (some x.id : Iterator) = run_head (bkt cap) s.master_list (bkt cap x)
  · rw [if_pos hh]
    have hpre : ∀ n ∈ pre, bkt cap n ≠ bkt cap x := by
      intro n hn hfn
      obtain ⟨m, hm, hrm⟩ := run_head_mem_pre (bkt cap) pre (x :: rest) (bkt cap x) ⟨n, hn, hfn⟩
      rw [hl, hrm] at hh
      exact hne m hm (Option.some.inj hh).symm
    have hnew := run_head_remove_head (bkt cap) pre rest x (bkt cap x) hpre hgr rfl
    have hnext : std_next s.master_list (some x.id) = list_begin rest := by
      rw [hl]; exact std_next_split hne
    rw [hnext]
    have hfin : ∀ v : Iterator, v = run_head (bkt cap) (pre ++ rest) (bkt cap x) →
        ∃ T : List Iterator, vec_set s.hash_set (bkt cap x) v = some T ∧ T.length = cap ∧
          ∀ b, b < cap → T[b]? = some (run_head (bkt cap) (pre ++ rest) b) := by
      intro v hv
      refine ⟨s.hash_set.set (bkt cap x) v, ?_, by simp [h.len], ?_⟩
      · unfold vec_set; rw [if_pos (by rw [h.len]; exact hb)]
      · intro b hb'
        rw [getElem?_set_table _ _ _ _ (by rw [h.len]; exact hb)]
        by_cases hbx : b = bkt cap x
        · rw [if_pos hbx, hbx, hv]
        · rw [if_neg hbx]; exact hother b hb' hbx
    cases rest with
    | nil =>
      rw [bucket_eq h.cap_eq]
      simp only [list_begin]
      have := hfin none (by rw [hnew])
      split <;> exact this
    | cons m r =>
      have hm : deref E s.master_list (list_begin (m :: r)) = m.val := by
        rw [hl]
        have e : pre ++ x :: m :: r = (pre ++ [x]) ++ m :: r := by simp
        rw [e]
        have hids' : NodupIds ((pre ++ [x]) ++ m :: r) := by rw [← e]; exact hids
        exact deref_split E (nodupIds_split hids').1
      rw [hm, bucket_eq h.cap_eq]
      simp only [list_begin]
      simp only at hnew
      by_cases hfm : bkt cap m = bkt cap x
      · have hfm' : bucket_index cap m.val = bkt cap x := hfm
        rw [if_pos hfm']
        exact hfin (some m.id) (by rw [hnew, if_pos hfm])
      · have hfm' : ¬ bucket_index cap m.val = bkt cap x := hfm
        rw [if_neg hfm']
        exact hfin none (by rw [hnew, if_neg hfm])
  · rw [if_neg hh]
    refine ⟨s.hash_set, rfl, h.len, ?_⟩
    intro b hb'
    by_cases hbx : b = bkt cap x
    · have hex : ∃ n ∈ pre, bkt cap n = bkt cap x := by
        by_contra hcon
        push_neg at hcon
        apply hh
        rw [hl, run_head_split rfl hcon]
      rw [h.heads b hb', hl, hbx, ← run_head_remove_later _ pre rest x _ hex]
    · exact hother b hb' hbx

/-- What `erase(key)` does on a well-shaped state. -/
theorem erase_spec {E : Env} {s : HashSet} {cap : Nat} (h : Shape E s cap) (key : Int) :
    (key ∉ keys s.master_list ∧ s.erase E key = .ok () s) ∨
    (∃ pre x rest t, s.master_list = pre ++ x :: rest ∧ x.val = key ∧
      (∀ n ∈ pre, n.val ≠ key) ∧ s.erase E key = .ok () t ∧ Shape E t cap ∧
      t.master_list = pre ++ rest ∧ t.num_element = s.num_element - 1 ∧
      t.current_size_index = s.current_size_index ∧
      t.max_load_factor = s.max_load_factor ∧
      t.load_factor = float_div (s.num_element - 1) cap) := by
  have hb : bucket_index cap key < cap := bucket_index_lt h.cap_pos h.cap_lt key
  unfold HashSet.erase
  rw [bucket_eq h.cap_eq, find_spec h]
  simp only
  cases hf : s.master_list.find? (fun n => n.val == key) with
  | none =>
    left
    refine ⟨?_, rfl⟩
    rw [List.find?_eq_none] at hf
    intro hm
    obtain ⟨n, hn, hv⟩ := List.mem_map.1 hm
    exact hf n hn (by simpa using hv)
  | some x =>
    right
    rw [List.find?_eq_some] at hf
    obtain ⟨hxk, pre, rest, hl, hpre⟩ := hf
    have hxk' : x.val = key := by simpa using hxk
    have hbx : bucket_index cap key = bkt cap x := by unfold bkt; rw [hxk']
    obtain ⟨T, hT, hTlen, hTh⟩ := @erase_table E s cap h pre rest x hl
    have hids := h.ids
    rw [hl] at hids
    have hne := (nodupIds_split hids).1
    refine ⟨pre, x, rest, ?_⟩
    simp only [Option.map_some']
    rw [h.heads _ hb, hbx]
    simp only
    rw [hT]
    simp only [h.cap_eq]
    refine ⟨_, hl, hxk', fun n hn => by simpa using hpre n hn, rfl, ?_, ?_, rfl, rfl, rfl, rfl⟩
    · refine ⟨h.cap_eq, h.cap_pos, h.cap_lt, hTlen, ?_, ?_, ?_⟩
      · show ∀ b, b < cap → T[b]? = some (run_head (bkt cap) (list_erase s.master_list x.id) b)
        rw [hl, list_erase_split _ hne]
        exact hTh
      · show Grouped (bkt cap) (list_erase s.master_list x.id)
        exact contiguous_grouped _ _
          (contiguous_sublist _ (grouped_contiguous _ _ h.grouped) (list_erase_sublist _ _))
      · show NodupIds (list_erase s.master_list x.id)
        rw [hl, list_erase_split _ hne]
        exact (nodupIds_split hids).2.2
    · show list_erase s.master_list x.id = pre ++ rest
      rw [hl, list_erase_split _ hne]

/-! ## `insert` and `maxLoadFactor(float)` on well-shaped states -/

/-- What `insert` does on a well-shaped state when it returns. -/
theorem insert_spec {E : Env} (hE : E.WF) {s t : HashSet} {cap : Nat} (h : Shape E s cap)
    (key : Int) (hr : s.insert E key = .ok () t) :
    ∃ g c, HashSet.grow_if_needed E s = .ok () g ∧ Shape E g c ∧ Shape E t c ∧
      g.master_list.Perm s.master_list ∧ g.num_element = s.num_element ∧
      g.max_load_factor = s.max_load_factor ∧
      ((¬ s.load_factor ≥ s.max_load_factor ∧ g = s ∧ c = cap) ∨
        (s.load_factor ≥ s.max_load_factor ∧ E.sizes[s.current_size_index + 1]? = some c ∧
          g.current_size_index = s.current_size_index + 1 ∧
          g.load_factor = float_div s.num_element c)) ∧
      ((key ∈ keys g.master_list ∧ t = g) ∨
        (key ∉ keys g.master_list ∧
          t.master_list.Perm (⟨fresh_id g.master_list, key⟩ :: g.master_list) ∧
          t.num_element = g.num_element + 1 ∧ t.current_size_index = g.current_size_index ∧
          t.max_load_factor = g.max_load_factor ∧
          t.load_factor = float_div (g.num_element + 1) c)) := by
  unfold HashSet.insert at hr
  have hcore : ∀ g c, Shape E g c → HashSet.insert_after_growth E g key = .ok () t →
      Shape E t c ∧ ((key ∈ keys g.master_list ∧ t = g) ∨
        (key ∉ keys g.master_list ∧
          t.master_list.Perm (⟨fresh_id g.master_list, key⟩ :: g.master_list) ∧
          t.num_element = g.num_element + 1 ∧ t.current_size_index = g.current_size_index ∧
          t.max_load_factor = g.max_load_factor ∧
          t.load_factor = float_div (g.num_element + 1) c)) := by
    intro g c hg hi
    rcases insert_after_growth_spec hg key with ⟨hk, he⟩ | ⟨hk, t', he, hS, hP, h1, h2, h3, h4⟩
    · rw [he] at hi
      injection hi with _ hi
      subst hi
      exact ⟨hg, Or.inl ⟨hk, rfl⟩⟩
    · rw [he] at hi
      injection hi with _ hi
      subst hi
      exact ⟨hS, Or.inr ⟨hk, hP, h1, h2, h3, h4⟩⟩
  rcases grow_if_needed_spec hE h.ids with ⟨hlf, hg⟩ | ⟨_, _, hg⟩ |
      ⟨hlf, c, g, hc, hg, hS, hP, h1, h2, h3, h4⟩
  · rw [hg] at hr
    obtain ⟨hSt, hcase⟩ := hcore s cap h hr
    exact ⟨s, cap, hg, h, hSt, List.Perm.refl _, rfl, rfl, Or.inl ⟨hlf, rfl, rfl⟩, hcase⟩
  · rw [hg] at hr
    cases hr
  · rw [hg] at hr
    obtain ⟨hSt, hcase⟩ := hcore g c hS hr
    exact ⟨g, c, hg, hS, hSt, hP, h1, h3, Or.inr ⟨hlf, hc, h2, h4⟩, hcase⟩

/-- What the loop of `maxLoadFactor(float)` does on a well-shaped state when it returns. -/
theorem grow_loop_spec {E : Env} (hE : E.WF) :
    ∀ (fuel : Nat) (s t : HashSet) (cap : Nat), Shape E s cap →
      HashSet.grow_loop E fuel s = .ok () t →
      ∃ c, Shape E t c ∧ t.master_list.Perm s.master_list ∧
        t.num_element = s.num_element ∧ t.max_load_factor = s.max_load_factor ∧
        t.load_factor < t.max_load_factor ∧ s.current_size_index ≤ t.current_size_index ∧
        ((t = s ∧ c = cap) ∨
          t.load_factor = float_div t.num_element c) := by
  intro fuel
  induction fuel with
  | zero => intro s t cap _ hr; cases hr
  | succ f ih =>
    intro s t cap h hr
    rw [HashSet.grow_loop] at hr
    by_cases hlf : s.load_factor ≥ s.max_load_factor
    · rw [if_pos hlf] at hr
      simp only at hr
      cases hs : E.sizes[s.current_size_index + 1]? with
      | none => rw [hs] at hr; cases hr
      | some c =>
        rw [hs] at hr
        simp only at hr
        have hm := hE c (List.getElem?_mem hs)
        obtain ⟨g, hg, hS, hP, h1, h2, h3, h4⟩ :=
          @rehash_spec E { s with current_size_index := s.current_size_index + 1 } c
            hm.1 hm.2 hs h.ids
        rw [hg] at hr
        simp only at hr
        obtain ⟨c', hS', hP', h1', h3', hlt, hidx, hcase⟩ := ih g t c hS hr
        refine ⟨c', hS', hP'.trans hP, h1'.trans h1, h3'.trans h3, hlt, ?_, ?_⟩
        · have : g.current_size_index = s.current_size_index + 1 := h2
          omega
        · right
          rcases hcase with ⟨rfl, rfl⟩ | hcase
          · rw [h4, h1]
          · exact hcase
    · rw [if_neg hlf] at hr
      injection hr with _ hr
      subst hr
      exact ⟨cap, h, List.Perm.refl _, rfl, rfl, lt_of_not_ge hlf, le_refl _, Or.inl ⟨rfl, rfl⟩⟩

/-! ## The invariants of reachable sets -/

theorem keys_perm {l l' : List Node} (h : l.Perm l') : (keys l).Perm (keys l') := h.map Node.val

theorem ctor_good {E : Env} (hE : E.WF) {s : HashSet} (h : HashSet.ctor E = .ok () s) :
    ∃ cap, Good E s cap ∧ s.master_list = [] ∧ s.max_load_factor = 1 ∧
      s.current_size_index = 0 := by
  unfold HashSet.ctor at h
  simp only at h
  cases hs : E.sizes[0]? with
  | none => rw [hs] at h; cases h
  | some c =>
    rw [hs] at h
    injection h with _ h
    subst h
    have hm := hE c (List.getElem?_mem hs)
    refine ⟨c, ⟨⟨hs, hm.1, hm.2, by simp, ?_, trivial, List.nodup_nil⟩, List.nodup_nil, rfl, ?_⟩,
      rfl, rfl, rfl⟩
    · intro b hb
      show (List.replicate c (none : Iterator))[b]? = _
      rw [List.getElem?_replicate_of_lt hb]
      rfl
    · exact (float_div_zero c).symm

theorem insert_good {E : Env} (hE : E.WF) {s t : HashSet} {cap : Nat} (h : Good E s cap)
    (key : Int) (hr : s.insert E key = .ok () t) :
    ∃ c, Good E t c ∧ (∀ k, k ∈ keys t.master_list ↔ k = key ∨ k ∈ keys s.master_list) ∧
      t.max_load_factor = s.max_load_factor := by
  obtain ⟨g, c, _, hSg, hSt, hP, h1, h3, hgrow, hcase⟩ := insert_spec hE h.shape key hr
  have hgood : Good E g c := by
    refine ⟨hSg, (keys_perm hP).nodup_iff.2 h.keys_nodup, ?_, ?_⟩
    · rw [h1, h.count, hP.length_eq]
    · rcases hgrow with ⟨_, rfl, rfl⟩ | ⟨_, _, _, h4⟩
      · exact h.load_eq
      · rw [h4, h1]
  have hmem : ∀ k, k ∈ keys g.master_list ↔ k ∈ keys s.master_list :=
    fun k => (keys_perm hP).mem_iff
  rcases hcase with ⟨hk, rfl⟩ | ⟨hk, hPt, ht1, _, ht3, ht4⟩
  · refine ⟨c, hgood, ?_, h3⟩
    intro k
    rw [hmem k]
    constructor
    · exact Or.inr
    · rintro (rfl | hk')
      · exact (hmem k).1 hk
      · exact hk'
  · refine ⟨c, ⟨hSt, ?_, ?_, ?_⟩, ?_, ht3.trans h3⟩
    · rw [(keys_perm hPt).nodup_iff]
      show (key :: keys g.master_list).Nodup
      exact List.nodup_cons.2 ⟨hk, hgood.keys_nodup⟩
    · rw [ht1, hgood.count, hPt.length_eq]; rfl
    · rw [ht4, ht1]
    · intro k
      rw [(keys_perm hPt).mem_iff]
      show k ∈ key :: keys g.master_list ↔ _
      rw [List.mem_cons, hmem k]

theorem erase_good {E : Env} {s : HashSet} {cap : Nat} (h : Good E s cap) (key : Int) :
    ∃ t, s.erase E key = .ok () t ∧ Good E t cap ∧
      (∀ k, k ∈ keys t.master_list ↔ k ≠ key ∧ k ∈ keys s.master_list) ∧
      t.max_load_factor = s.max_load_factor ∧ t.num_element ≤ s.num_element ∧
      t.current_size_index = s.current_size_index ∧
      (key ∉ keys s.master_list → t = s) := by
  rcases erase_spec h.shape key with ⟨hk, he⟩ |
      ⟨pre, x, rest, t, hl, hx, _, he, hS, htl, h1, h2, h3, h4⟩
  · refine ⟨s, he, h, ?_, rfl, le_refl _, rfl, fun _ => rfl⟩
    intro k
    constructor
    · intro hk'
      exact ⟨fun e => hk (e ▸ hk'), hk'⟩
    · exact fun hk' => hk'.2
  · have hn := h.keys_nodup
    rw [hl] at hn
    simp only [keys, List.map_append, List.map_cons] at hn
    have hn' := List.nodup_middle.1 hn
    rw [List.nodup_cons] at hn'
    refine ⟨t, he, ⟨hS, ?_, ?_, ?_⟩, ?_, h3, by omega, h2, ?_⟩
    · rw [htl]; simpa [keys] using hn'.2
    · rw [h1, h.count, htl, hl]; simp
    · rw [h4, h1]
    · intro k
      rw [htl, hl]
      simp only [keys, List.map_append, List.map_cons, List.mem_append, List.mem_cons]
      constructor
      · intro hk'
        refine ⟨?_, by tauto⟩
        rintro rfl
        apply hn'.1
        rw [hx]
        exact List.mem_append.2 hk'
      · rintro ⟨hne, hk' | hk' | hk'⟩
        · exact Or.inl hk'
        · exact absurd (hk'.trans hx) hne
        · exact Or.inr hk'
    · intro hk
      exfalso
      apply hk
      rw [hl]
      simp [keys, hx]

theorem setMaxLoadFactor_good {E : Env} (hE : E.WF) {s t : HashSet} {cap : Nat}
    (h : Good E s cap) (m : ℚ) (hr : s.setMaxLoadFactor E m = .ok () t) :
    ∃ c, Good E t c ∧ t.master_list.Perm s.master_list ∧ t.max_load_factor = m ∧
      t.load_factor < m ∧ t.num_element = s.num_element := by
  unfold HashSet.setMaxLoadFactor at hr
  have hS : Shape E { s with max_load_factor := m } cap := h.shape.congr rfl rfl rfl
  obtain ⟨c, hS', hP, h1, h3, hlt, _, hcase⟩ := grow_loop_spec hE _ _ t cap hS hr
  have h3' : t.max_load_factor = m := h3
  refine ⟨c, ⟨hS', (keys_perm hP).nodup_iff.2 h.keys_nodup, ?_, ?_⟩, hP, h3', h3' ▸ hlt, h1⟩
  · rw [h1, hP.length_eq]; exact h.count
  · rcases hcase with ⟨rfl, rfl⟩ | hcase
    · exact h.load_eq
    · exact hcase

theorem erase_at_run {E : Env} {s t : HashSet} {it : Iterator}
    (h : (Op.erase_at it).run E s = .ok () t) :
    s.erase E (deref E s.master_list it) = .ok () t := by
  unfold Op.run HashSet.erase_it at h
  simp only at h
  cases he : s.erase E (deref E s.master_list it) with
  | ok r u =>
    rw [he] at h
    injection h with _ h
    rw [h]
  | out_of_range u => rw [he] at h; cases h
  | diverged => rw [he] at h; cases h

/-- On a well-shaped state `insert` returns or throws `out_of_range`; it throws
only when growth is needed and the schedule has no next entry. -/
theorem insert_total {E : Env} (hE : E.WF) {s : HashSet} {cap : Nat} (h : Shape E s cap)
    (key : Int) :
    (∃ t, s.insert E key = .ok () t) ∨
    (s.load_factor ≥ s.max_load_factor ∧ E.sizes[s.current_size_index + 1]? = none ∧
      s.insert E key =
        .out_of_range { s with current_size_index := s.current_size_index + 1 }) := by
  have hcore : ∀ g c, Shape E g c → ∃ t, HashSet.insert_after_growth E g key = .ok () t := by
    intro g c hg
    rcases insert_after_growth_spec hg key with ⟨_, he⟩ | ⟨_, t, he, _⟩
    · exact ⟨g, he⟩
    · exact ⟨t, he⟩
  unfold HashSet.insert
  rcases grow_if_needed_spec hE h.ids with ⟨_, hg⟩ | ⟨hlf, hn, hg⟩ | ⟨_, c, g, _, hg, hS, _⟩
  · rw [hg]; exact Or.inl (hcore s cap h)
  · rw [hg]; exact Or.inr ⟨hlf, hn, rfl⟩
  · rw [hg]; exact Or.inl (hcore g c hS)

/-- The iteration budget of the loop of `maxLoadFactor(float)` is never used up. -/
theorem grow_loop_total {E : Env} (hE : E.WF) :
    ∀ (fuel : Nat) (s : HashSet), NodupIds s.master_list →
      E.sizes.length + 1 ≤ fuel + s.current_size_index → 1 ≤ fuel →
      HashSet.grow_loop E fuel s ≠ .diverged := by
  intro fuel
  induction fuel with
  | zero => intro s _ _ h1; exact absurd h1 (by decide)
  | succ f ih =>
    intro s hN hf _
    rw [HashSet.grow_loop]
    by_cases hlf : s.load_factor ≥ s.max_load_factor
    · rw [if_pos hlf]
      simp only
      cases hs : E.sizes[s.current_size_index + 1]? with
      | none => simp
      | some c =>
        simp only
        have hm := hE c (List.getElem?_mem hs)
        have hlt : s.current_size_index + 1 < E.sizes.length := by
          by_contra hcon
          rw [List.getElem?_eq_none (by omega)] at hs
          cases hs
        obtain ⟨g, hg, hS, _, _, h2, _⟩ :=
          @rehash_spec E { s with current_size_index := s.current_size_index + 1 } c
            hm.1 hm.2 hs hN
        rw [hg]
        simp only
        have h2' : g.current_size_index = s.current_size_index + 1 := h2
        exact ih g hS.ids (by omega) (by omega)
    · rw [if_neg hlf]
      simp

/-- `maxLoadFactor(float)` returns or throws `out_of_range`. -/
theorem setMaxLoadFactor_total {E : Env} (hE : E.WF) (s : HashSet)
    (hN : NodupIds s.master_list) (m : ℚ) : s.setMaxLoadFactor E m ≠ .diverged :=
  grow_loop_total hE _ _ hN (by omega) (by omega)

theorem reachable_good {E : Env} (hE : E.WF) {s : HashSet} (h : Reachable E s) :
    ∃ cap, Good E s cap := by
  induction h with
  | ctor h0 =>
    obtain ⟨cap, hg, _⟩ := ctor_good hE h0
    exact ⟨cap, hg⟩
  | step op _ hrun ih =>
    obtain ⟨cap, hg⟩ := ih
    cases op with
    | insert key =>
      obtain ⟨c, hg', _⟩ := insert_good hE hg key hrun
      exact ⟨c, hg'⟩
    | erase key =>
      obtain ⟨t, he, hg', _⟩ := erase_good hg key
      have hrun' : HashSet.erase E _ key = .ok () _ := hrun
      rw [he] at hrun'
      injection hrun' with _ hrun'
      subst hrun'
      exact ⟨cap, hg'⟩
    | erase_at it =>
      obtain ⟨t, he, hg', _⟩ := erase_good hg (deref E _ it)
      rw [erase_at_run hrun] at he
      injection he with _ he
      subst he
      exact ⟨cap, hg'⟩
    | maxLoadFactor m =>
      obtain ⟨c, hg', _⟩ := setMaxLoadFactor_good hE hg m hrun
      exact ⟨c, hg'⟩

theorem insert_list_good {E : Env} (hE : E.WF) :
    ∀ (ks : List Int) (s t : HashSet) (cap : Nat), Good E s cap →
      insert_list E s ks = .ok () t →
      ∃ c, Good E t c ∧ ∀ k, k ∈ keys t.master_list ↔ k ∈ ks ∨ k ∈ keys s.master_list := by
  intro ks
  induction ks with
  | nil =>
    intro s t cap h hr
    injection hr with _ hr
    subst hr
    exact ⟨cap, h, fun k => by simp⟩
  | cons a ks ih =>
    intro s t cap h hr
    rw [insert_list] at hr
    cases hi : s.insert E a with
    | ok r u =>
      rw [hi] at hr
      obtain ⟨c, hg, hmem, _⟩ := insert_good hE h a hi
      obtain ⟨c', hg', hmem'⟩ := ih u t c hg hr
      refine ⟨c', hg', fun k => ?_⟩
      rw [hmem' k, hmem k, List.mem_cons]
      tauto
    | out_of_range u => rw [hi] at hr; cases hr
    | diverged => rw [hi] at hr; cases hr

theorem insert_list_reachable {E : Env} :
    ∀ (ks : List Int) (s t : HashSet), Reachable E s → insert_list E s ks = .ok () t →
      Reachable E t := by
  intro ks
  induction ks with
  | nil =>
    intro s t h hr
    injection hr with _ hr
    exact hr ▸ h
  | cons a ks ih =>
    intro s t h hr
    rw [insert_list] at hr
    cases hi : s.insert E a with
    | ok r u =>
      rw [hi] at hr
      exact ih u t (Reachable.step (Op.insert a) h hi) hr
    | out_of_range u => rw [hi] at hr; cases hr
    | diverged => rw [hi] at hr; cases hr

theorem insert_all_reachable {E : Env} {ks : List Int} {t : HashSet}
    (h : insert_all E ks = .ok () t) : Reachable E t := by
  unfold insert_all at h
  cases hc : HashSet.ctor E with
  | ok r s =>
    rw [hc] at h
    exact insert_list_reachable ks s t (Reachable.ctor hc) h
  | out_of_range u => rw [hc] at h; cases h
  | diverged => rw [hc] at h; cases h

theorem deref_mem (E : Env) {l : List Node} (hN : NodupIds l) {n : Node} (hn : n ∈ l) :
    deref E l (some n.id) = n.val := by
  obtain ⟨pre, rest, rfl⟩ := List.append_of_mem hn
  exact deref_split E (nodupIds_split hN).1

/-! ## The claims -/

/-- C1: after inserting a list of keys one by one into a freshly constructed set
(every call returning, that is, the capacity schedule not being exhausted),
`contains(k)` is true exactly for the keys of the list and `size()` is the
number of distinct keys of the list. -/
theorem insert_all_set_semantics (E : Env) (hE : E.WF) (ks : List Int) (s : HashSet)
    (h : insert_all E ks = .ok () s) :
    (∀ k, s.contains E k = some (decide (k ∈ ks))) ∧ s.size = ks.dedup.length := by
  unfold insert_all at h
  cases hc : HashSet.ctor E with
  | out_of_range u => rw [hc] at h; cases h
  | diverged => rw [hc] at h; cases h
  | ok r s0 =>
    rw [hc] at h
    obtain ⟨cap, hg0, hnil, _⟩ := ctor_good hE hc
    obtain ⟨c, hg, hmem⟩ := insert_list_good hE ks s0 s cap hg0 h
    have hmem' : ∀ k, k ∈ keys s.master_list ↔ k ∈ ks := by
      intro k
      rw [hmem k, hnil]
      simp [keys]
    constructor
    · intro k
      rw [contains_spec hg.shape k]
      simp only [hmem' k]
    · have hp : (keys s.master_list).Perm ks.dedup :=
        (List.perm_ext_iff_of_nodup hg.keys_nodup (List.nodup_dedup ks)).2
          (fun k => by rw [hmem' k, List.mem_dedup])
      show s.num_element = _
      rw [hg.count, ← hp.length_eq]
      simp [keys]

/-- C2: in a reachable set, `contains(k)` right after `insert(k)` is true, and
`erase(k)` returns and `contains(k)` right after it is false. -/
theorem insert_erase_round_trip (E : Env) (hE : E.WF) (s : HashSet) (hs : Reachable E s)
    (k : Int) :
    (∀ t, s.insert E k = .ok () t → t.contains E k = some true) ∧
    (∃ t, s.erase E k = .ok () t ∧ t.contains E k = some false) := by
  obtain ⟨cap, hg⟩ := reachable_good hE hs
  constructor
  · intro t ht
    obtain ⟨c, hg', hmem, _⟩ := insert_good hE hg k ht
    rw [contains_spec hg'.shape k]
    simp [hmem k]
  · obtain ⟨t, ht, hg', hmem, _⟩ := erase_good hg k
    refine ⟨t, ht, ?_⟩
    rw [contains_spec hg'.shape k]
    simp [hmem k]

/-- C3: when the nodes are distinct and the table and sequence satisfy I2, the
bounded scan of `contains(k)` returns true if and only if `k` occurs in the
element sequence. -/
theorem contains_iff_occurs (E : Env) (hE : E.WF) (s : HashSet)
    (hN : NodupIds s.master_list) (hI : s.I2 E) (k : Int) :
    s.contains E k = some (decide (k ∈ keys s.master_list)) := by
  obtain ⟨cap, hS⟩ := shape_of_I2 hE hN hI
  exact contains_spec hS k

/-- C4: I2 holds for the freshly constructed set and is kept by `insert(key)`,
`erase(key)`, `erase(position)`, `maxLoadFactor(m)` and by `rehash(c)` called
with the capacity in force, whenever the call returns. -/
theorem contiguity_preserved (E : Env) (hE : E.WF) :
    (∀ s, HashSet.ctor E = .ok () s → s.I2 E ∧ NodupIds s.master_list) ∧
    (∀ s : HashSet, NodupIds s.master_list → s.I2 E →
      (∀ key t, s.insert E key = .ok () t → t.I2 E ∧ NodupIds t.master_list) ∧
      (∀ key t, s.erase E key = .ok () t → t.I2 E ∧ NodupIds t.master_list) ∧
      (∀ it r t, s.erase_it E it = .ok r t → t.I2 E ∧ NodupIds t.master_list) ∧
      (∀ m t, s.setMaxLoadFactor E m = .ok () t → t.I2 E ∧ NodupIds t.master_list)) ∧
    (∀ (s : HashSet) c t, NodupIds s.master_list → E.sizes[s.current_size_index]? = some c →
      s.rehash E c = .ok () t → t.I2 E ∧ NodupIds t.master_list) := by
  have herase : ∀ (s : HashSet) cap, Shape E s cap → ∀ key t, s.erase E key = .ok () t →
      t.I2 E ∧ NodupIds t.master_list := by
    intro s cap hS key t ht
    rcases erase_spec hS key with ⟨_, he⟩ | ⟨_, _, _, u, _, _, _, he, hS', _⟩
    · rw [he] at ht
      injection ht with _ ht
      subst ht
      exact ⟨hS.I2, hS.ids⟩
    · rw [he] at ht
      injection ht with _ ht
      subst ht
      exact ⟨hS'.I2, hS'.ids⟩
  refine ⟨?_, ?_, ?_⟩
  · intro s hs
    obtain ⟨cap, hg, _⟩ := ctor_good hE hs
    exact ⟨hg.shape.I2, hg.shape.ids⟩
  · intro s hN hI
    obtain ⟨cap, hS⟩ := shape_of_I2 hE hN hI
    refine ⟨?_, herase s cap hS, ?_, ?_⟩
    · intro key t ht
      obtain ⟨g, c, _, _, hSt, _⟩ := insert_spec hE hS key ht
      exact ⟨hSt.I2, hSt.ids⟩
    · intro it r t ht
      unfold HashSet.erase_it at ht
      simp only at ht
      cases he : s.erase E (deref E s.master_list it) with
      | ok r' u =>
        rw [he] at ht
        injection ht with _ ht
        subst ht
        exact herase s cap hS _ _ he
      | out_of_range u => rw [he] at ht; cases ht
      | diverged => rw [he] at ht; cases ht
    · intro m t ht
      unfold HashSet.setMaxLoadFactor at ht
      have hS0 : Shape E { s with max_load_factor := m } cap := hS.congr rfl rfl rfl
      obtain ⟨c, hS', _⟩ := grow_loop_spec hE _ _ t cap hS0 ht
      exact ⟨hS'.I2, hS'.ids⟩
  · intro s c t hN hc ht
    have hm := hE c (List.getElem?_mem hc)
    obtain ⟨u, hu, hS, _⟩ := rehash_spec hm.1 hm.2 hc hN
    rw [hu] at ht
    injection ht with _ ht
    subst ht
    exact ⟨hS.I2, hS.ids⟩

/-- C5: in a reachable set, `find(k)` returns the position of an element equal
to `k` when `k` is in the set and `end()` when it is not; hence
`find(k) != end()` if and only if `contains(k)`. -/
theorem find_position (E : Env) (hE : E.WF) (s : HashSet) (hs : Reachable E s) (k : Int) :
    (s.contains E k = some true →
      ∃ n ∈ s.master_list, s.find E k = some (some n.id) ∧ n.val = k ∧
        deref E s.master_list (some n.id) = k) ∧
    (s.contains E k = some false → s.find E k = some s.end_) ∧
    (s.find E k ≠ some s.end_ ↔ s.contains E k = some true) := by
  obtain ⟨cap, hg⟩ := reachable_good hE hs
  have hf := find_spec hg.shape k
  have hc := contains_eq_find E s k
  rw [hf] at hc
  cases hx : s.master_list.find? (fun n => n.val == k) with
  | none =>
    rw [hx] at hf hc
    rw [hf, hc]
    simp [HashSet.end_]
  | some n =>
    rw [hx] at hf hc
    rw [hf, hc]
    have hn : n ∈ s.master_list := List.mem_of_find?_eq_some hx
    have hv : n.val = k := by simpa using List.find?_some hx
    refine ⟨fun _ => ⟨n, hn, rfl, hv, ?_⟩, ?_, ?_⟩
    · rw [deref_mem E hg.shape.ids hn, hv]
    · simp
    · simp [HashSet.end_]

/-- C6: in a reachable set, `erase(k)` for a key that is not in the set returns
normally and leaves the whole state as it was. -/
theorem erase_absent_unchanged (E : Env) (hE : E.WF) (s : HashSet) (hs : Reachable E s)
    (k : Int) (hk : s.contains E k = some false) : s.erase E k = .ok () s := by
  obtain ⟨cap, hg⟩ := reachable_good hE hs
  rw [contains_spec hg.shape k] at hk
  have hk' : k ∉ keys s.master_list := by simpa using hk
  obtain ⟨t, ht, _, _, _, _, _, hsame⟩ := erase_good hg k
  rw [ht, hsame hk']

/-- C8: in a reachable set no key occurs twice in the element sequence (I1) and
`size()` is the length of the sequence (I4). -/
theorem reachable_unique_keys (E : Env) (hE : E.WF) (s : HashSet) (hs : Reachable E s) :
    s.I1 ∧ s.size = s.master_list.length := by
  obtain ⟨cap, hg⟩ := reachable_good hE hs
  exact ⟨hg.keys_nodup, hg.count⟩

/-- C9: `rehash(c)`, for a capacity `c >= 1` that is the one `bucket()` uses (and
that fits an `int`), returns on every sequence of distinct nodes and every
prior table; the sequence afterwards is a permutation of the one before, the
table has `c` slots, I2 holds, and every key contained before is contained. -/
theorem rehash_permutes (E : Env) (s : HashSet) (c : Nat) (hc1 : 1 ≤ c) (hc2 : c < 2 ^ 31)
    (hc : E.sizes[s.current_size_index]? = some c) (hN : NodupIds s.master_list) :
    ∃ t, s.rehash E c = .ok () t ∧ t.master_list.Perm s.master_list ∧
      t.hash_set.length = c ∧ t.I2 E ∧
      ∀ k, k ∈ keys s.master_list → t.contains E k = some true := by
  obtain ⟨t, ht, hS, hP, _⟩ := rehash_spec hc1 hc2 hc hN
  refine ⟨t, ht, hP, hS.len, hS.I2, ?_⟩
  intro k hk
  rw [contains_spec hS k]
  simp [(keys_perm hP).mem_iff, hk]

theorem increasing_adjacent : ∀ (l : List Nat) (i : Nat) (a b : Nat),
    l.Pairwise (fun a b => a < b) → l[i]? = some a → l[i + 1]? = some b → a < b := by
  intro l
  induction l with
  | nil => intro i a b _ h; simp at h
  | cons x l ih =>
    intro i a b hp ha hb
    rw [List.pairwise_cons] at hp
    cases i with
    | zero =>
      simp only [List.getElem?_cons_zero, Option.some.injEq] at ha
      simp only [zero_add, List.getElem?_cons_succ] at hb
      subst ha
      exact hp.1 b (List.getElem?_mem hb)
    | succ j =>
      simp only [List.getElem?_cons_succ] at ha hb
      exact ih j a b hp.2 ha hb

/-- With a maximum load factor that is a power of two (1, 2, 4, ...), the
number of elements never exceeds `max_load_factor * capacity`. -/
theorem reachable_load {E : Env} (hE : E.WF) (hI : E.Increasing) {s : HashSet}
    (h : Reachable E s) :
    ∀ cap, E.sizes[s.current_size_index]? = some cap →
      ∀ k : Nat, s.max_load_factor = 2 ^ k → s.num_element ≤ 2 ^ k * cap := by
  induction h with
  | ctor h0 =>
    intro cap _ k _
    obtain ⟨c, hg, hnil, _⟩ := ctor_good hE h0
    rw [hg.count, hnil]
    exact Nat.zero_le _
  | @step s t op hs hrun ih =>
    intro cap hcap k hmax
    obtain ⟨c0, hg⟩ := reachable_good hE hs
    cases op with
    | insert key =>
      obtain ⟨g, c, _, hSg, hSt, _, h1, h3, hgrow, hcase⟩ := insert_spec hE hg.shape key hrun
      have hcc : c = cap := Option.some.inj (hSt.cap_eq.symm.trans hcap)
      subst hcc
      have hmax_g : g.max_load_factor = 2 ^ k := by
        rcases hcase with ⟨_, rfl⟩ | ⟨_, _, _, _, ht3, _⟩
        · exact hmax
        · rw [← ht3]; exact hmax
      have hmax_s : s.max_load_factor = 2 ^ k := h3 ▸ hmax_g
      have hbound : s.num_element + 1 ≤ 2 ^ k * c := by
        rcases hgrow with ⟨hlf, _, rfl⟩ | ⟨_, hsz, _, _⟩
        · have hlt : s.load_factor < s.max_load_factor := lt_of_not_ge hlf
          rw [hg.load_eq, hmax_s] at hlt
          have : s.num_element < 2 ^ k * c := by
            by_contra hge
            exact absurd (le_float_div k hg.shape.cap_pos (not_lt.1 hge)) (not_le_of_lt hlt)
          omega
        · have hlt : c0 < c := increasing_adjacent _ _ _ _ hI hg.shape.cap_eq hsz
          have hle := ih c0 hg.shape.cap_eq k hmax_s
          have h2 : 2 ^ k * (c0 + 1) ≤ 2 ^ k * c := Nat.mul_le_mul_left (2 ^ k) hlt
          have h3 : 2 ^ k * (c0 + 1) = 2 ^ k * c0 + 2 ^ k := by ring
          have h4 : 1 ≤ 2 ^ k := Nat.one_le_two_pow
          omega
      rcases hcase with ⟨_, rfl⟩ | ⟨_, _, ht1, _⟩
      · rw [h1]; omega
      · rw [ht1, h1]; exact hbound
    | erase key =>
      obtain ⟨u, he, _, _, hm, hn, hi, _⟩ := erase_good hg key
      have hrun' : HashSet.erase E s key = .ok () t := hrun
      rw [he] at hrun'
      injection hrun' with _ hrun'
      subst hrun'
      have := ih cap (hi ▸ hcap) k (hm ▸ hmax)
      omega
    | erase_at it =>
      obtain ⟨u, he, _, _, hm, hn, hi, _⟩ := erase_good hg (deref E s.master_list it)
      rw [erase_at_run hrun] at he
      injection he with _ he
      subst he
      have := ih cap (hi ▸ hcap) k (hm ▸ hmax)
      omega
    | maxLoadFactor m =>
      obtain ⟨c, hg', _, hm, hlt, _⟩ := setMaxLoadFactor_good hE hg m hrun
      have hcc : c = cap := Option.some.inj (hg'.shape.cap_eq.symm.trans hcap)
      subst hcc
      rw [hg'.load_eq, ← hm, hmax] at hlt
      have : t.num_element < 2 ^ k * c := by
        by_contra hge
        exact absurd (le_float_div k hg'.shape.cap_pos (not_lt.1 hge)) (not_le_of_lt hlt)
      omega

theorem contains_after_insert {E : Env} (hE : E.WF) {s : HashSet} {cap : Nat}
    (hg : Good E s cap) (k : Int) (t : HashSet) (ht : s.insert E k = .ok () t) :
    t.contains E k = some true := by
  obtain ⟨c, hg', hmem, _⟩ := insert_good hE hg k ht
  rw [contains_spec hg'.shape k]
  simp [hmem k]

/-- C7, as amended: in a reachable set with `loadFactor() < maxLoadFactor()`,
`insert(k)` of a key that is present returns and leaves the whole state as it
was; so a second `insert(k)` changes nothing when the load factor after the
first is below the maximum. In every case `insert(k)` of a present key keeps
`size()` and the contained keys. -/
theorem insert_present_unchanged (E : Env) (hE : E.WF) (s : HashSet) (hs : Reachable E s)
    (k : Int) :
    (s.contains E k = some true → s.loadFactor < s.maxLoadFactor → s.insert E k = .ok () s) ∧
    (∀ t, s.insert E k = .ok () t → t.loadFactor < t.maxLoadFactor →
      t.insert E k = .ok () t) ∧
    (s.contains E k = some true → ∀ t, s.insert E k = .ok () t →
      t.size = s.size ∧ ∀ j, t.contains E j = s.contains E j) := by
  have hnoop : ∀ u : HashSet, Reachable E u → u.contains E k = some true →
      u.load_factor < u.max_load_factor → u.insert E k = .ok () u := by
    intro u hu hk hlf
    obtain ⟨cap, hg⟩ := reachable_good hE hu
    rw [contains_spec hg.shape k] at hk
    have hk' : k ∈ keys u.master_list := by simpa using hk
    unfold HashSet.insert
    rcases grow_if_needed_spec hE hg.shape.ids with ⟨_, hgr⟩ | ⟨hge, _⟩ | ⟨hge, _⟩
    · rw [hgr]
      simp only
      rcases insert_after_growth_spec hg.shape k with ⟨_, he⟩ | ⟨hn, _⟩
      · exact he
      · exact absurd hk' hn
    · exact absurd hlf (not_lt_of_ge hge)
    · exact absurd hlf (not_lt_of_ge hge)
  obtain ⟨cap, hg⟩ := reachable_good hE hs
  refine ⟨hnoop s hs, ?_, ?_⟩
  · intro t ht hlf
    exact hnoop t (Reachable.step (Op.insert k) hs ht)
      ((contains_after_insert hE hg k t ht)) hlf
  · intro hk t ht
    rw [contains_spec hg.shape k] at hk
    have hk' : k ∈ keys s.master_list := by simpa using hk
    obtain ⟨g, c, _, hSg, hSt, hP, h1, _, _, hcase⟩ := insert_spec hE hg.shape k ht
    rcases hcase with ⟨_, rfl⟩ | ⟨hn, _⟩
    · refine ⟨h1, fun j => ?_⟩
      rw [contains_spec hSt j, contains_spec hg.shape j]
      simp only [(keys_perm hP).mem_iff]
    · exact absurd ((keys_perm hP).mem_iff.2 hk') hn

/-- C10, as amended: with a strictly increasing schedule, in a reachable set
whose maximum load factor is a power of two `2^p` with `p >= 0` (the default 1
is one; earlier calls of `maxLoadFactor(float)` may have set other values),
after `insert(k)` returns `loadFactor() <= maxLoadFactor()`, and the exact
ratio `size() / bucketCount()` is at most `maxLoadFactor()` too. -/
theorem load_factor_bound_pow2 (E : Env) (hE : E.WF) (hI : E.Increasing) (s : HashSet)
    (hs : Reachable E s) (p : Nat) (hmax : s.maxLoadFactor = 2 ^ p)
    (k : Int) (t : HashSet) (ht : s.insert E k = .ok () t) :
    t.loadFactor ≤ t.maxLoadFactor ∧
    ∃ c, t.bucketCount E = some c ∧
      (Nat.cast t.size : ℚ) / (Nat.cast c : ℚ) ≤ t.maxLoadFactor := by
  have hrt : Reachable E t := Reachable.step (Op.insert k) hs ht
  obtain ⟨cap, hg⟩ := reachable_good hE hs
  obtain ⟨c, hg', _, hm⟩ := insert_good hE hg k ht
  have hmax' : t.max_load_factor = 2 ^ p := hm.trans hmax
  have hle := reachable_load hE hI hrt c hg'.shape.cap_eq p hmax'
  have hc : (0 : ℚ) < (Nat.cast c : ℚ) := by exact_mod_cast hg'.shape.cap_pos
  refine ⟨?_, c, hg'.shape.cap_eq, ?_⟩
  · show t.load_factor ≤ t.max_load_factor
    rw [hg'.load_eq, hmax']
    exact float_div_le p hg'.shape.cap_pos hle
  · show (Nat.cast t.num_element : ℚ) / (Nat.cast c : ℚ) ≤ t.max_load_factor
    rw [hmax', div_le_iff₀ hc]
    exact_mod_cast hle

/-! ## The theorems at concrete sets -/

theorem E8_WF : E8.WF := by
  intro c hc
  simp only [E8, List.mem_cons, List.mem_singleton, List.not_mem_nil, or_false] at hc
  rcases hc with rfl | rfl | rfl <;> norm_num

theorem E8_increasing : E8.Increasing := by
  simp [Env.Increasing, E8]

theorem insert_all_3_11 : insert_all E8 [3, 11, 3] = .ok () set_3_11 := by decide!

theorem reachable_3_11 : Reachable E8 set_3_11 := insert_all_reachable insert_all_3_11

theorem insert_all_full : insert_all E8 [1, 2, 3, 4, 5, 6, 7, 8] = .ok () set_full := by decide!

theorem reachable_full : Reachable E8 set_full := insert_all_reachable insert_all_full

theorem reachable_sixteenth : Reachable E8 set_sixteenth :=
  Reachable.step (Op.maxLoadFactor (1 / 16))
    (Reachable.ctor (by decide! : HashSet.ctor E8 = .ok () set_fresh))
    (by decide! : (Op.maxLoadFactor (1 / 16)).run E8 set_fresh = .ok () set_sixteenth)

theorem insert_all_set_semantics_witness :
    E8.WF ∧ insert_all E8 [3, 11, 3] = .ok () set_3_11 ∧
      ((∀ k, set_3_11.contains E8 k = some (decide (k ∈ [3, 11, 3]))) ∧
        set_3_11.size = [3, 11, 3].dedup.length) :=
  ⟨E8_WF, insert_all_3_11, insert_all_set_semantics E8 E8_WF [3, 11, 3] set_3_11 insert_all_3_11⟩

theorem insert_erase_round_trip_witness :
    E8.WF ∧ Reachable E8 set_3_11 ∧ set_3_11.insert E8 4 = .ok () set_3_11_4 ∧
      set_3_11_4.contains E8 4 = some true ∧
      (∃ t, set_3_11.erase E8 3 = .ok () t ∧ t.contains E8 3 = some false) :=
  ⟨E8_WF, reachable_3_11, by decide!,
    (insert_erase_round_trip E8 E8_WF set_3_11 reachable_3_11 4).1 set_3_11_4 (by decide!),
    (insert_erase_round_trip E8 E8_WF set_3_11 reachable_3_11 3).2⟩

theorem contains_iff_occurs_witness :
    E8.WF ∧ NodupIds set_3_11.master_list ∧ set_3_11.I2 E8 ∧
      set_3_11.contains E8 11 = some (decide (11 ∈ keys set_3_11.master_list)) := by
  obtain ⟨cap, hg⟩ := reachable_good E8_WF reachable_3_11
  exact ⟨E8_WF, hg.shape.ids, hg.shape.I2,
    contains_iff_occurs E8 E8_WF set_3_11 hg.shape.ids hg.shape.I2 11⟩

theorem contiguity_preserved_witness :
    E8.WF ∧ NodupIds set_3_11.master_list ∧ set_3_11.I2 E8 ∧
      set_3_11.insert E8 4 = .ok () set_3_11_4 ∧ set_3_11.erase E8 3 = .ok () set_11 ∧
      (set_3_11_4.I2 E8 ∧ NodupIds set_3_11_4.master_list) ∧
      (set_11.I2 E8 ∧ NodupIds set_11.master_list) := by
  obtain ⟨cap, hg⟩ := reachable_good E8_WF reachable_3_11
  have h := (contiguity_preserved E8 E8_WF).2.1 set_3_11 hg.shape.ids hg.shape.I2
  have h1 : set_3_11.insert E8 4 = .ok () set_3_11_4 := by decide!
  have h2 : set_3_11.erase E8 3 = .ok () set_11 := by decide!
  exact ⟨E8_WF, hg.shape.ids, hg.shape.I2, h1, h2, h.1 4 _ h1, h.2.1 3 _ h2⟩

theorem find_position_witness :
    E8.WF ∧ Reachable E8 set_3_11 ∧ set_3_11.contains E8 11 = some true ∧
      set_3_11.contains E8 19 = some false ∧
      (∃ n ∈ set_3_11.master_list, set_3_11.find E8 11 = some (some n.id) ∧ n.val = 11 ∧
        deref E8 set_3_11.master_list (some n.id) = 11) ∧
      set_3_11.find E8 19 = some set_3_11.end_ ∧
      (set_3_11.find E8 11 ≠ some set_3_11.end_ ↔ set_3_11.contains E8 11 = some true) :=
  ⟨E8_WF, reachable_3_11, by decide!, by decide!,
    (find_position E8 E8_WF set_3_11 reachable_3_11 11).1 (by decide!),
    (find_position E8 E8_WF set_3_11 reachable_3_11 19).2.1 (by decide!),
    (find_position E8 E8_WF set_3_11 reachable_3_11 11).2.2⟩

theorem erase_absent_unchanged_witness :
    E8.WF ∧ Reachable E8 set_3_11 ∧ set_3_11.contains E8 19 = some false ∧
      set_3_11.erase E8 19 = .ok () set_3_11 :=
  ⟨E8_WF, reachable_3_11, by decide!,
    erase_absent_unchanged E8 E8_WF set_3_11 reachable_3_11 19 (by decide!)⟩

/-- C7 fails as stated: `set_full` is reachable and contains 8, its load factor
equals the maximum, and `insert(8)` grows the table from 8 to 16 buckets and
halves the load factor. -/
theorem insert_present_grows :
    E8.WF ∧ Reachable E8 set_full ∧ set_full.contains E8 8 = some true ∧
      set_full.insert E8 8 = .ok () set_full_again ∧
      set_full.bucketCount E8 = some 8 ∧ set_full_again.bucketCount E8 = some 16 ∧
      set_full.loadFactor = 1 ∧ set_full_again.loadFactor = 1 / 2 ∧
      set_full_again.hash_set ≠ set_full.hash_set ∧
      set_full.insert E8 8 ≠ .ok () set_full :=
  ⟨E8_WF, reachable_full, by decide!, by decide!, by decide!, by decide!, by decide!, by decide!,
    by decide!, by decide!⟩

theorem insert_present_unchanged_witness :
    E8.WF ∧ Reachable E8 set_3_11 ∧ set_3_11.contains E8 3 = some true ∧
      set_3_11.loadFactor < set_3_11.maxLoadFactor ∧
      set_3_11.insert E8 3 = .ok () set_3_11 ∧
      (set_full_again.size = set_full.size ∧
        ∀ j, set_full_again.contains E8 j = set_full.contains E8 j) :=
  ⟨E8_WF, reachable_3_11, by decide!, by decide!,
    (insert_present_unchanged E8 E8_WF set_3_11 reachable_3_11 3).1 (by decide!) (by decide!),
    (insert_present_unchanged E8 E8_WF set_full reachable_full 8).2.2 (by decide!)
      set_full_again (by decide!)⟩

theorem reachable_unique_keys_witness :
    E8.WF ∧ Reachable E8 set_3_11 ∧
      (set_3_11.I1 ∧ set_3_11.size = set_3_11.master_list.length) :=
  ⟨E8_WF, reachable_3_11, reachable_unique_keys E8 E8_WF set_3_11 reachable_3_11⟩

theorem rehash_permutes_witness :
    1 ≤ 16 ∧ 16 < 2 ^ 31 ∧ E8.sizes[set_before_rehash.current_size_index]? = some 16 ∧
      NodupIds set_before_rehash.master_list ∧
      set_before_rehash.rehash E8 16 = .ok () set_after_rehash ∧
      ∃ t, set_before_rehash.rehash E8 16 = .ok () t ∧
        t.master_list.Perm set_before_rehash.master_list ∧ t.hash_set.length = 16 ∧ t.I2 E8 ∧
        ∀ k, k ∈ keys set_before_rehash.master_list → t.contains E8 k = some true :=
  ⟨by decide, by norm_num, by decide, by unfold NodupIds; decide, by decide!,
    rehash_permutes E8 set_before_rehash 16 (by decide) (by norm_num) (by decide)
      (by unfold NodupIds; decide)⟩

/-- C10 fails as stated: 1/16 is a `float`, and after `maxLoadFactor(1/16)` on
the fresh set of 8 buckets, `insert(1)` returns with one element in 8 buckets:
`loadFactor()` and the ratio `size() / bucketCount()` are 1/8, above the
maximum 1/16. -/
theorem load_factor_above_max :
    E8.WF ∧ float_round (1 / 16) = 1 / 16 ∧ Reachable E8 set_sixteenth ∧
      set_sixteenth.maxLoadFactor = 1 / 16 ∧
      set_sixteenth.insert E8 1 = .ok () set_sixteenth_1 ∧
      set_sixteenth_1.loadFactor = 1 / 8 ∧ set_sixteenth_1.maxLoadFactor = 1 / 16 ∧
      set_sixteenth_1.size = 1 ∧ set_sixteenth_1.bucketCount E8 = some 8 ∧
      ¬ set_sixteenth_1.loadFactor ≤ set_sixteenth_1.maxLoadFactor ∧
      ¬ (Nat.cast set_sixteenth_1.size : ℚ) / (Nat.cast 8 : ℚ) ≤ set_sixteenth_1.maxLoadFactor :=
  ⟨E8_WF, by decide!, reachable_sixteenth, by decide!, by decide!, by decide!, by decide!,
    by decide!, by decide!, by decide!, by decide!⟩

theorem load_factor_bound_pow2_witness :
    E8.WF ∧ E8.Increasing ∧ Reachable E8 set_full ∧ set_full.maxLoadFactor = 2 ^ 0 ∧
      set_full.insert E8 8 = .ok () set_full_again ∧
      (set_full_again.loadFactor ≤ set_full_again.maxLoadFactor ∧
        ∃ c, set_full_again.bucketCount E8 = some c ∧
          (Nat.cast set_full_again.size : ℚ) / (Nat.cast c : ℚ) ≤
            set_full_again.maxLoadFactor) :=
  ⟨E8_WF, E8_increasing, reachable_full, by decide!, by decide!,
    load_factor_bound_pow2 E8 E8_WF E8_increasing set_full reachable_full 0 (by decide!)
      8 set_full_again (by decide!)⟩

/-! ## Bucket addressing in 32 bits -/

theorem bucket_index_eq {cap : Nat} (h1 : 1 ≤ cap) (h2 : cap < 2 ^ 31) (key : Int) :
    bucket_index cap key = (Int.tmod key cap).natAbs := by
  unfold bucket_index
  have hc : static_cast_int (cap : Int) = cap :=
    static_cast_int_small (by omega) (by exact_mod_cast h2)
  simp only [hc]
  have h31 : (2:Nat) ^ 31 = 2147483648 := by norm_num
  have h64 : (2:Int) ^ 64 = 18446744073709551616 := by norm_num
  rcases tmod_bounds key cap h1 with ⟨ha, hb⟩ | ⟨ha, hb⟩
  · rw [if_neg (by omega), h64]
    omega
  · rw [if_pos ha]
    have hs : static_cast_int (Int.tmod key cap * -1) = -(Int.tmod key cap) := by
      rw [static_cast_int_small (by omega) (by omega)]; ring
    rw [hs, h64]
    omega

/-- C14: for a capacity `c` with `1 <= c <= 2^31 - 1` and every key (so every
32-bit key, the minimum integer included), the `int` values computed by
`bucket` stay in the 32-bit signed range, `bucket(key)` is the absolute value
of the truncated remainder of `key` by `c`, and `bucket(key) < c`. -/
theorem bucket_abs_remainder (cap : Nat) (key : Int) (h1 : 1 ≤ cap) (h2 : cap ≤ 2 ^ 31 - 1) :
    (∀ v ∈ bucket_int_values cap key, in_int_range v) ∧
    bucket_index cap key = (Int.tmod key cap).natAbs ∧
    bucket_index cap key < cap ∧
    (∀ (E : Env) (s : HashSet), E.sizes[s.current_size_index]? = some cap →
      s.bucket E key = some (Int.tmod key cap).natAbs) := by
  have h31 : (2:Nat) ^ 31 = 2147483648 := by norm_num
  have h31' : (2:Int) ^ 31 = 2147483648 := by norm_num
  have h2' : cap < 2 ^ 31 := by omega
  have hc : static_cast_int (cap : Int) = cap :=
    static_cast_int_small (by omega) (by exact_mod_cast h2')
  refine ⟨?_, bucket_index_eq h1 h2' key, bucket_index_lt h1 h2' key, ?_⟩
  · intro v hv
    unfold bucket_int_values at hv
    simp only [hc] at hv
    unfold in_int_range
    rw [h31']
    rcases tmod_bounds key cap h1 with ⟨ha, hb⟩ | ⟨ha, hb⟩
    · rw [if_neg (by omega)] at hv
      simp only [List.mem_cons, List.mem_singleton, List.not_mem_nil, or_false] at hv
      rcases hv with rfl | rfl <;> omega
    · rw [if_pos ha] at hv
      simp only [List.mem_cons, List.mem_singleton, List.not_mem_nil, or_false] at hv
      rcases hv with rfl | rfl | rfl <;> omega
  · intro E s hs
    rw [bucket_eq hs, bucket_index_eq h1 h2' key]

/-! ## Exhausting the schedule -/

/-- C13, as amended: in a reachable set whose capacity is the last entry of the
schedule, `insert(k)` and `maxLoadFactor(m)` throw `out_of_range` when growth
is required, and leave the element sequence, the bucket table, the size and
the load factor as they were; `insert` leaves the maximum load factor as it
was and `maxLoadFactor(m)` leaves it set to `m`. -/
theorem exhaustion_keeps_contents (E : Env) (hE : E.WF) (s : HashSet) (hs : Reachable E s)
    (hlast : E.sizes[s.current_size_index + 1]? = none) :
    (∀ k, s.loadFactor ≥ s.maxLoadFactor →
      ∃ t, s.insert E k = .out_of_range t ∧ t.master_list = s.master_list ∧
        t.hash_set = s.hash_set ∧ t.size = s.size ∧ t.loadFactor = s.loadFactor ∧
        t.maxLoadFactor = s.maxLoadFactor) ∧
    (∀ m, s.loadFactor ≥ m →
      ∃ t, s.setMaxLoadFactor E m = .out_of_range t ∧ t.master_list = s.master_list ∧
        t.hash_set = s.hash_set ∧ t.size = s.size ∧ t.loadFactor = s.loadFactor ∧
        t.maxLoadFactor = m) := by
  obtain ⟨cap, hg⟩ := reachable_good hE hs
  constructor
  · intro k hlf
    rcases insert_total hE hg.shape k with ⟨t, ht⟩ | ⟨_, _, ht⟩
    · exfalso
      obtain ⟨g, c, _, _, hSt, _, _, _, hgrow, hcase⟩ := insert_spec hE hg.shape k ht
      rcases hgrow with ⟨hno, _⟩ | ⟨_, hsz, _⟩
      · exact hno hlf
      · rw [hlast] at hsz; cases hsz
    · exact ⟨_, ht, rfl, rfl, rfl, rfl, rfl⟩
  · intro m hlf
    refine ⟨{ s with max_load_factor := m, current_size_index := s.current_size_index + 1 },
      ?_, rfl, rfl, rfl, rfl, rfl⟩
    unfold HashSet.setMaxLoadFactor
    rw [HashSet.grow_loop]
    have hlf' : s.load_factor ≥ m := hlf
    simp only [hlf', if_true, hlast]

/-! ## The schedule index only grows -/

theorem increasing_le : ∀ (l : List Nat) (i j : Nat) (a b : Nat),
    l.Pairwise (fun a b => a < b) → i ≤ j → l[i]? = some a → l[j]? = some b → a ≤ b := by
  intro l
  induction l with
  | nil => intro i j a b _ _ h; simp at h
  | cons x l ih =>
    intro i j a b hp hij ha hb
    rw [List.pairwise_cons] at hp
    cases i with
    | zero =>
      simp only [List.getElem?_cons_zero, Option.some.injEq] at ha
      subst ha
      cases j with
      | zero =>
        simp only [List.getElem?_cons_zero, Option.some.injEq] at hb
        omega
      | succ j =>
        simp only [List.getElem?_cons_succ] at hb
        exact le_of_lt (hp.1 b (List.getElem?_mem hb))
    | succ i =>
      cases j with
      | zero => omega
      | succ j =>
        simp only [List.getElem?_cons_succ] at ha hb
        exact ih i j a b hp.2 (by omega) ha hb

/-- One returning call on a good state: the schedule index does not decrease,
and `insert` advances it by at most one. -/
theorem step_index {E : Env} (hE : E.WF) {s t : HashSet} {cap : Nat} (hg : Good E s cap)
    (op : Op) (hrun : op.run E s = .ok () t) :
    s.current_size_index ≤ t.current_size_index ∧
    (∀ k, op = Op.insert k → t.current_size_index ≤ s.current_size_index + 1) := by
  cases op with
  | insert key =>
    obtain ⟨g, c, _, _, _, _, _, _, hgrow, hcase⟩ := insert_spec hE hg.shape key hrun
    have hgi : g.current_size_index = s.current_size_index ∨
        g.current_size_index = s.current_size_index + 1 := by
      rcases hgrow with ⟨_, rfl, _⟩ | ⟨_, _, h, _⟩
      · exact Or.inl rfl
      · exact Or.inr h
    have hti : t.current_size_index = g.current_size_index := by
      rcases hcase with ⟨_, rfl⟩ | ⟨_, _, _, h, _⟩
      · rfl
      · exact h
    constructor
    · omega
    · intro _ _; omega
  | erase key =>
    obtain ⟨u, he, _, _, _, _, hi, _⟩ := erase_good hg key
    have hrun' : HashSet.erase E s key = .ok () t := hrun
    rw [he] at hrun'
    injection hrun' with _ hrun'
    subst hrun'
    exact ⟨by omega, fun k h => by cases h⟩
  | erase_at it =>
    obtain ⟨u, he, _, _, _, _, hi, _⟩ := erase_good hg (deref E s.master_list it)
    rw [erase_at_run hrun] at he
    injection he with _ he
    subst he
    exact ⟨by omega, fun k h => by cases h⟩
  | maxLoadFactor m =>
    have hrun' : s.setMaxLoadFactor E m = .ok () t := hrun
    unfold HashSet.setMaxLoadFactor at hrun'
    have hS : Shape E { s with max_load_factor := m } cap := hg.shape.congr rfl rfl rfl
    obtain ⟨c, _, _, _, _, _, hidx, _⟩ := grow_loop_spec hE _ _ t cap hS hrun'
    exact ⟨hidx, fun k h => by cases h⟩

theorem run_ops_index {E : Env} (hE : E.WF) :
    ∀ (ops : List Op) (s t : HashSet), Reachable E s → run_ops E s ops = .ok () t →
      Reachable E t ∧ s.current_size_index ≤ t.current_size_index := by
  intro ops
  induction ops with
  | nil =>
    intro s t hs hr
    injection hr with _ hr
    subst hr
    exact ⟨hs, le_refl _⟩
  | cons op ops ih =>
    intro s t hs hr
    rw [run_ops] at hr
    cases hop : op.run E s with
    | ok r u =>
      rw [hop] at hr
      obtain ⟨cap, hg⟩ := reachable_good hE hs
      obtain ⟨hrt, hle⟩ := ih u t (Reachable.step op hs hop) hr
      exact ⟨hrt, le_trans (step_index hE hg op hop).1 hle⟩
    | out_of_range u => rw [hop] at hr; cases hr
    | diverged => rw [hop] at hr; cases hr

theorem bucketCount_le {E : Env} (hE : E.WF) (hI : E.Increasing) {s t : HashSet}
    (hs : Reachable E s) (ht : Reachable E t)
    (hle : s.current_size_index ≤ t.current_size_index) :
    ∃ a b, s.bucketCount E = some a ∧ t.bucketCount E = some b ∧ a ≤ b := by
  obtain ⟨a, hga⟩ := reachable_good hE hs
  obtain ⟨b, hgb⟩ := reachable_good hE ht
  exact ⟨a, b, hga.shape.cap_eq, hgb.shape.cap_eq,
    increasing_le _ _ _ _ _ hI hle hga.shape.cap_eq hgb.shape.cap_eq⟩

/-- C18: with a strictly increasing schedule, every returning call of `insert`,
`erase(key)`, `erase(position)` or `maxLoadFactor(m)` on a reachable set leaves
the schedule index unchanged or increases it, so `bucketCount()` does not
decrease, along any sequence of such calls too; an `insert` advances the index
by at most one. -/
theorem bucket_count_monotone (E : Env) (hE : E.WF) (hI : E.Increasing) (s : HashSet)
    (hs : Reachable E s) :
    (∀ (op : Op) (t : HashSet), op.run E s = .ok () t →
      s.current_size_index ≤ t.current_size_index ∧
      ∃ a b, s.bucketCount E = some a ∧ t.bucketCount E = some b ∧ a ≤ b) ∧
    (∀ (k : Int) (t : HashSet), s.insert E k = .ok () t →
      t.current_size_index ≤ s.current_size_index + 1) ∧
    (∀ (ops : List Op) (t : HashSet), run_ops E s ops = .ok () t →
      s.current_size_index ≤ t.current_size_index ∧
      ∃ a b, s.bucketCount E = some a ∧ t.bucketCount E = some b ∧ a ≤ b) := by
  obtain ⟨cap, hg⟩ := reachable_good hE hs
  refine ⟨?_, ?_, ?_⟩
  · intro op t ht
    have h := (step_index hE hg op ht).1
    exact ⟨h, bucketCount_le hE hI hs (Reachable.step op hs ht) h⟩
  · intro k t ht
    exact (step_index hE hg (Op.insert k) ht).2 k rfl
  · intro ops t ht
    obtain ⟨hrt, h⟩ := run_ops_index hE ops s t hs ht
    exact ⟨h, bucketCount_le hE hI hs hrt h⟩

/-! ## `maxLoadFactor(float)`: where the loop stops -/

theorem Good.transfer {E : Env} {s t : HashSet} {cap : Nat} (h : Good E s cap)
    (h1 : t.current_size_index = s.current_size_index) (h2 : t.hash_set = s.hash_set)
    (h3 : t.master_list = s.master_list) (h4 : t.num_element = s.num_element)
    (h5 : t.load_factor = s.load_factor) : Good E t cap :=
  ⟨h.shape.congr h1 h2 h3, by rw [h3]; exact h.keys_nodup, by rw [h4, h3]; exact h.count,
    by rw [h5, h4]; exact h.load_eq⟩

theorem rehash_good {E : Env} (hE : E.WF) {s : HashSet} {cap : Nat} (hg : Good E s cap)
    {c : Nat} (hc : E.sizes[s.current_size_index + 1]? = some c) :
    ∃ g, HashSet.rehash E { s with current_size_index := s.current_size_index + 1 } c =
        .ok () g ∧ Good E g c ∧ g.master_list.Perm s.master_list ∧
      g.num_element = s.num_element ∧ g.current_size_index = s.current_size_index + 1 ∧
      g.max_load_factor = s.max_load_factor := by
  have hm := hE c (List.getElem?_mem hc)
  obtain ⟨g, hr, hS, hP, h1, h2, h3, h4⟩ :=
    @rehash_spec E { s with current_size_index := s.current_size_index + 1 } c
      hm.1 hm.2 hc hg.shape.ids
  refine ⟨g, hr, ⟨hS, (keys_perm hP).nodup_iff.2 hg.keys_nodup, ?_, ?_⟩, hP, h1, h2, h3⟩
  · rw [h1, hP.length_eq]; exact hg.count
  · rw [h4, h1]

/-- The loop of `maxLoadFactor(float)` passes only schedule entries at which the
load factor is not below the maximum, and does nothing when it is below at the
start. -/
theorem grow_loop_first {E : Env} (hE : E.WF) :
    ∀ (fuel : Nat) (s t : HashSet) (cap : Nat), Good E s cap →
      HashSet.grow_loop E fuel s = .ok () t →
      (∀ j c, s.current_size_index ≤ j → j < t.current_size_index → E.sizes[j]? = some c →
        float_div s.num_element c ≥ s.max_load_factor) ∧
      (s.load_factor < s.max_load_factor → t = s) := by
  intro fuel
  induction fuel with
  | zero => intro s t cap _ hr; cases hr
  | succ f ih =>
    intro s t cap hg hr
    rw [HashSet.grow_loop] at hr
    by_cases hlf : s.load_factor ≥ s.max_load_factor
    · rw [if_pos hlf] at hr
      simp only at hr
      cases hs : E.sizes[s.current_size_index + 1]? with
      | none => rw [hs] at hr; cases hr
      | some c =>
        rw [hs] at hr
        simp only at hr
        obtain ⟨g, hgr, hgg, _, h1, h2, h3⟩ := rehash_good hE hg hs
        rw [hgr] at hr
        simp only at hr
        obtain ⟨ihj, _⟩ := ih g t c hgg hr
        refine ⟨?_, fun hlt => absurd hlf (not_le_of_lt hlt)⟩
        intro j cj hj1 hj2 hcj
        by_cases hj : j = s.current_size_index
        · subst hj
          have : cj = cap := Option.some.inj (hcj.symm.trans hg.shape.cap_eq)
          subst this
          rw [← hg.load_eq]
          exact hlf
        · have := ihj j cj (by omega) hj2 hcj
          rw [h1, h3] at this
          exact this
    · rw [if_neg hlf] at hr
      injection hr with _ hr
      subst hr
      exact ⟨fun j c h1 h2 _ => absurd h2 (by omega), fun _ => rfl⟩

/-- C12, as amended: when `maxLoadFactor(m)` returns on a reachable set, the
maximum load factor is `m`, the load factor is below `m`, the capacity is the
first schedule entry at or after the previous one at which the quotient
`size / capacity` as computed in `float` is below `m` (the previous one when
the load factor was already below `m`), and `size()` and the contained keys
are as before. -/
theorem max_load_factor_growth (E : Env) (hE : E.WF) (s : HashSet) (hs : Reachable E s)
    (m : ℚ) (t : HashSet) (ht : s.setMaxLoadFactor E m = .ok () t) :
    t.maxLoadFactor = m ∧ t.loadFactor < m ∧
    s.current_size_index ≤ t.current_size_index ∧
    (∃ c, t.bucketCount E = some c ∧ float_div s.size c < m) ∧
    (∀ j c, s.current_size_index ≤ j → j < t.current_size_index → E.sizes[j]? = some c →
      ¬ float_div s.size c < m) ∧
    (s.loadFactor < m → t.current_size_index = s.current_size_index ∧
      t.bucketCount E = s.bucketCount E) ∧
    (∀ k, t.contains E k = s.contains E k) ∧ t.size = s.size := by
  obtain ⟨cap, hg⟩ := reachable_good hE hs
  obtain ⟨c, hg', hP, hmax, hlt, hnum⟩ := setMaxLoadFactor_good hE hg m ht
  have hg0 : Good E { s with max_load_factor := m } cap := hg.transfer rfl rfl rfl rfl rfl
  have hidx := (step_index hE hg (Op.maxLoadFactor m) ht).1
  unfold HashSet.setMaxLoadFactor at ht
  obtain ⟨hfirst, hsame⟩ := grow_loop_first hE _ _ t cap hg0 ht
  refine ⟨hmax, hlt, hidx, ⟨c, hg'.shape.cap_eq, ?_⟩, ?_, ?_, ?_, hnum⟩
  · have := hg'.load_eq
    rw [hnum] at this
    show float_div s.num_element c < m
    rw [← this]
    exact hlt
  · intro j cj h1 h2 h3
    exact not_lt_of_ge (hfirst j cj h1 h2 h3)
  · intro hlf
    have := hsame hlf
    subst this
    exact ⟨rfl, rfl⟩
  · intro k
    rw [contains_spec hg'.shape k, contains_spec hg.shape k]
    simp only [(keys_perm hP).mem_iff]

/-! ## The default maximum load factor -/

theorem erase_it_run {E : Env} {s t : HashSet} {it r : Iterator}
    (h : s.erase_it E it = .ok r t) : (Op.erase_at it).run E s = .ok () t := by
  unfold Op.run
  simp only [h]

theorem reachableDefault_reachable {E : Env} (hE : E.WF) {s : HashSet}
    (h : ReachableDefault E s) : Reachable E s ∧ s.max_load_factor = 1 := by
  induction h with
  | ctor h0 =>
    obtain ⟨cap, _, _, hm, _⟩ := ctor_good hE h0
    exact ⟨Reachable.ctor h0, hm⟩
  | insert key _ hrun ih =>
    obtain ⟨cap, hg⟩ := reachable_good hE ih.1
    obtain ⟨c, _, _, hm⟩ := insert_good hE hg key hrun
    exact ⟨Reachable.step (Op.insert key) ih.1 hrun, hm.trans ih.2⟩
  | erase key _ hrun ih =>
    obtain ⟨cap, hg⟩ := reachable_good hE ih.1
    obtain ⟨u, he, _, _, hm, _⟩ := erase_good hg key
    rw [hrun] at he
    injection he with _ he
    subst he
    exact ⟨Reachable.step (Op.erase key) ih.1 hrun, hm.trans ih.2⟩
  | @erase_at s t it r _ hrun ih =>
    obtain ⟨cap, hg⟩ := reachable_good hE ih.1
    obtain ⟨u, he, _, _, hm, _⟩ := erase_good hg (deref E s.master_list it)
    have hrun' := erase_it_run hrun
    rw [erase_at_run hrun'] at he
    injection he with _ he
    subst he
    exact ⟨Reachable.step (Op.erase_at it) ih.1 hrun', hm.trans ih.2⟩

/-- With maximum load factor 1, inserting new keys does not grow the table
while there are fewer elements than buckets, at a capacity where the `float`
quotient of a smaller count is below 1. -/
theorem insert_list_no_growth {E : Env} (hE : E.WF) :
    ∀ (ks : List Int) (s : HashSet) (cap : Nat), Good E s cap → s.max_load_factor = 1 →
      (∀ n, n < cap → float_div n cap < 1) →
      ks.Nodup → (∀ k ∈ ks, k ∉ keys s.master_list) → s.num_element + ks.length ≤ cap →
      ∃ t, insert_list E s ks = .ok () t ∧ t.current_size_index = s.current_size_index ∧
        t.num_element = s.num_element + ks.length := by
  intro ks
  induction ks with
  | nil => intro s cap _ _ _ _ _ _; exact ⟨s, rfl, rfl, rfl⟩
  | cons k ks ih =>
    intro s cap hg hmax hfl hnd hnew hlen
    rw [List.nodup_cons] at hnd
    simp only [List.length_cons] at hlen
    have hlf : ¬ s.load_factor ≥ s.max_load_factor := by
      rw [hg.load_eq, hmax, ge_iff_le, not_le]
      exact hfl _ (by omega)
    rcases insert_total hE hg.shape k with ⟨u, hu⟩ | ⟨hge, _⟩
    · obtain ⟨g, c, _, _, hSu, _, _, _, hgrow, hcase⟩ := insert_spec hE hg.shape k hu
      obtain ⟨c', hgu, hmem, hmu⟩ := insert_good hE hg k hu
      rcases hgrow with ⟨_, rfl, rfl⟩ | ⟨hge, _⟩
      · rcases hcase with ⟨hk, _⟩ | ⟨_, _, hn, hi, _⟩
        · exact absurd hk (hnew k (List.mem_cons_self _ _))
        · have hcc : c' = c := by
            have := hgu.shape.cap_eq
            rw [hi, hg.shape.cap_eq] at this
            exact (Option.some.inj this).symm
          subst hcc
          obtain ⟨t, ht, hti, htn⟩ := ih u c' hgu (hmu.trans hmax) hfl hnd.2
            (by
              intro j hj hju
              rcases (hmem j).1 hju with rfl | hjs
              · exact hnd.1 hj
              · exact hnew j (List.mem_cons_of_mem _ hj) hjs)
            (by omega)
          refine ⟨t, ?_, by rw [hti, hi], by rw [htn, hn, List.length_cons]; omega⟩
          rw [insert_list, hu]
          exact ht
      · exact absurd hge hlf
    · exact absurd hge hlf

/-- C11: with a strictly increasing schedule, a set reachable by `insert` and
`erase` calls only (maximum load factor left at its default 1) has
`size() <= bucketCount()` and `loadFactor() <= 1`; and inserting 1..8 into a
fresh set of capacity 8 gives `size() == 8` with the capacity still 8. -/
theorem default_load_bound (E : Env) (hE : E.WF) (hI : E.Increasing) :
    (∀ s, ReachableDefault E s →
      s.maxLoadFactor = 1 ∧ s.loadFactor ≤ 1 ∧
      ∃ c, s.bucketCount E = some c ∧ s.size ≤ c) ∧
    (E.sizes[0]? = some 8 →
      ∃ s, insert_all E [1, 2, 3, 4, 5, 6, 7, 8] = .ok () s ∧ s.size = 8 ∧
        s.current_size_index = 0 ∧ s.bucketCount E = some 8) := by
  constructor
  · intro s hs
    obtain ⟨hr, hmax⟩ := reachableDefault_reachable hE hs
    obtain ⟨cap, hg⟩ := reachable_good hE hr
    have hle := reachable_load hE hI hr cap hg.shape.cap_eq 0 (by rw [hmax]; norm_num)
    refine ⟨hmax, ?_, cap, hg.shape.cap_eq, by simpa using hle⟩
    show s.load_factor ≤ 1
    rw [hg.load_eq]
    simpa using float_div_le 0 hg.shape.cap_pos hle
  · intro h8
    unfold insert_all
    cases hc : HashSet.ctor E with
    | out_of_range u =>
      unfold HashSet.ctor at hc
      simp only [h8] at hc
      cases hc
    | diverged =>
      unfold HashSet.ctor at hc
      simp only [h8] at hc
      cases hc
    | ok r s0 =>
      obtain ⟨cap, hg, hnil, hmax, hidx⟩ := ctor_good hE hc
      have hcap : cap = 8 := by
        have := hg.shape.cap_eq
        rw [hidx, h8] at this
        exact (Option.some.inj this).symm
      subst hcap
      have hnum : s0.num_element = 0 := by rw [hg.count, hnil]; rfl
      obtain ⟨t, ht, hti, htn⟩ := insert_list_no_growth hE [1, 2, 3, 4, 5, 6, 7, 8] s0 8 hg hmax
        float_div_eight (by decide) (by rw [hnil]; intro k _ h; cases h) (by rw [hnum]; decide)
      refine ⟨t, ht, ?_, by rw [hti, hidx], ?_⟩
      · show t.num_element = 8
        rw [htn, hnum]; rfl
      · show E.sizes[t.current_size_index]? = some 8
        rw [hti, hidx, h8]

/-! ## `erase(position)` -/

theorem split_unique : ∀ (pre pre' : List Node) (n x : Node) (rest rest' : List Node),
    (keys (pre ++ n :: rest)).Nodup → pre ++ n :: rest = pre' ++ x :: rest' →
    x.val = n.val → pre = pre' ∧ rest = rest' := by
  intro pre
  induction pre with
  | nil =>
    intro pre' n x rest rest' hnd he hx
    cases pre' with
    | nil =>
      simp only [List.nil_append, List.cons.injEq] at he
      exact ⟨rfl, he.2⟩
    | cons p q =>
      exfalso
      simp only [List.nil_append, List.cons_append, List.cons.injEq] at he
      simp only [keys, List.nil_append, List.map_cons, List.nodup_cons, List.mem_map] at hnd
      apply hnd.1
      refine ⟨x, ?_, hx⟩
      rw [he.2]
      simp
  | cons a pre ih =>
    intro pre' n x rest rest' hnd he hx
    cases pre' with
    | nil =>
      exfalso
      simp only [List.nil_append, List.cons_append, List.cons.injEq] at he
      simp only [keys, List.cons_append, List.map_cons, List.nodup_cons, List.mem_map] at hnd
      apply hnd.1
      refine ⟨n, by simp, ?_⟩
      rw [he.1, hx]
    | cons p q =>
      simp only [List.cons_append, List.cons.injEq] at he
      have hnd' : (keys (pre ++ n :: rest)).Nodup := by
        simp only [keys, List.cons_append, List.map_cons, List.nodup_cons] at hnd
        exact hnd.2
      obtain ⟨h1, h2⟩ := ih q n x rest rest' hnd' he.2 hx
      exact ⟨by rw [he.1, h1], h2⟩

/-- C16: in a reachable set, `erase(p)` for a position `p` that holds an element
removes that element and no other (the elements before and after it stay in
order), `size()` decreases by one, I1..I4 hold afterwards, and the value
returned is the position of the element that followed `p`, `end()` when `p`
was the last position. -/
theorem erase_position (E : Env) (hE : E.WF) (s : HashSet) (hs : Reachable E s)
    (pre rest : List Node) (n : Node) (hl : s.master_list = pre ++ n :: rest) :
    ∃ t, s.erase_it E (some n.id) = .ok (list_begin rest) t ∧
      t.master_list = pre ++ rest ∧ t.size + 1 = s.size ∧
      t.I1 ∧ t.I2 E ∧ t.I3 E ∧ t.I4 := by
  obtain ⟨cap, hg⟩ := reachable_good hE hs
  have hids := hg.shape.ids
  rw [hl] at hids
  have hne := (nodupIds_split hids).1
  have hderef : deref E s.master_list (some n.id) = n.val := by
    rw [hl]; exact deref_split E hne
  have hnext : std_next s.master_list (some n.id) = list_begin rest := by
    rw [hl]; exact std_next_split hne
  obtain ⟨t, he, hgt, _⟩ := erase_good hg n.val
  have hlist : t.master_list = pre ++ rest ∧ t.num_element = s.num_element - 1 := by
    rcases erase_spec hg.shape n.val with ⟨hk, _⟩ |
        ⟨pre', x, rest', u, hl', hx, _, he', _, hul, hun, _⟩
    · exfalso
      apply hk
      rw [hl]
      simp [keys]
    · rw [he] at he'
      injection he' with _ he'
      subst he'
      have hnd := hg.keys_nodup
      rw [hl] at hnd
      obtain ⟨h1, h2⟩ := split_unique pre pre' n x rest rest' hnd (hl.symm.trans hl') hx
      rw [hul, hun, h1, h2]
      exact ⟨rfl, rfl⟩
  refine ⟨t, ?_, hlist.1, ?_, hgt.keys_nodup, hgt.shape.I2, ⟨cap, hgt.shape.cap_eq, hgt.load_eq⟩,
    hgt.count⟩
  · unfold HashSet.erase_it
    simp only
    rw [hderef, he, hnext]
  · show t.num_element + 1 = s.num_element
    rw [hlist.2, hg.count, hl]
    simp only [List.length_append, List.length_cons]
    omega

/-! ## `bucketSize` -/

theorem bucketSize_loop_spec {E : Env} {s : HashSet} {cap : Nat}
    (hc : E.sizes[s.current_size_index]? = some cap) (b : Nat) :
    ∀ (rest : List Node) (x : Node) (size : Nat), Grouped (bkt cap) (x :: rest) →
      bkt cap x = b →
      HashSet.bucketSize_loop E s b (x :: rest) size =
        some (size + (x :: rest).countP (fun n => bkt cap n == b)) := by
  intro rest
  induction rest with
  | nil =>
    intro x size _ hx
    have hx' : bucket_index cap x.val = b := hx
    simp [HashSet.bucketSize_loop, bucket_eq hc, hx', hx]
  | cons m r ih =>
    intro x size hg hx
    have hx' : bucket_index cap x.val = b := hx
    rw [HashSet.bucketSize_loop]
    simp only [bucket_eq hc, hx', if_true]
    have hcx : (x :: m :: r).countP (fun n => bkt cap n == b) =
        (m :: r).countP (fun n => bkt cap n == b) + 1 := by
      rw [List.countP_cons_of_pos _ _ (by simpa using hx)]
    rw [hcx]
    by_cases hm : bucket_index cap m.val = b
    · rw [if_pos hm, ih m (size + 1) hg.2 hm]
      congr 1
      omega
    · rw [if_neg hm]
      have : (m :: r).countP (fun n => bkt cap n == b) = 0 := by
        rw [List.countP_eq_zero]
        intro a ha hab
        have hab' : bkt cap a = b := by simpa using hab
        obtain ⟨z, r', hz, hfz⟩ := hg.1 a ha (hab'.trans hx.symm)
        injection hz with hz1 _
        apply hm
        have : bkt cap m = bkt cap x := by rw [hz1]; exact hfz
        exact this.trans hx
      rw [this]

theorem bucketSize_spec {E : Env} {s : HashSet} {cap : Nat} (h : Shape E s cap) {b : Nat}
    (hb : b < cap) :
    s.bucketSize E b = some ((keys s.master_list).countP (fun k => bucket_index cap k == b)) := by
  have hcount : (keys s.master_list).countP (fun k => bucket_index cap k == b) =
      s.master_list.countP (fun n => bkt cap n == b) := by
    unfold keys
    rw [List.countP_map]
    rfl
  rw [hcount]
  unfold HashSet.bucketSize
  rw [h.heads b hb]
  cases hr : run_head (bkt cap) s.master_list b with
  | none =>
    simp only
    rw [run_head_eq_none] at hr
    have : s.master_list.countP (fun n => bkt cap n == b) = 0 := by
      rw [List.countP_eq_zero]
      intro a ha hab
      exact hr a ha (by simpa using hab)
    rw [this]
  | some i =>
    simp only
    obtain ⟨pre, x, rest, hl, hi, hx, hpre⟩ := run_head_eq_some hr
    have hids := h.ids
    rw [hl] at hids
    have hne := (nodupIds_split hids).1
    rw [hl, ← hi, from_it_split hne]
    rw [bucketSize_loop_spec h.cap_eq b rest x 0 (grouped_suffix _ pre _ (hl ▸ h.grouped)) hx]
    have : pre.countP (fun n => bkt cap n == b) = 0 := by
      rw [List.countP_eq_zero]
      intro a ha hab
      exact hpre a ha (by simpa using hab)
    rw [List.countP_append, this]

theorem sum_countP_buckets (f : Int → Nat) (cap : Nat) :
    ∀ l : List Int, (∀ k ∈ l, f k < cap) →
      (Finset.range cap).sum (fun b => l.countP (fun k => f k == b)) = l.length := by
  intro l
  induction l with
  | nil => intro _; simp
  | cons a l ih =>
    intro h
    have ha : f a < cap := h a (List.mem_cons_self _ _)
    simp only [List.countP_cons, Finset.sum_add_distrib, List.length_cons, beq_iff_eq]
    rw [ih (fun k hk => h k (List.mem_cons_of_mem _ hk)), Finset.sum_ite_eq]
    simp [ha]

/-- C15: in a reachable set, `bucketSize(b)` for `b < bucketCount()` is the number
of keys of the set whose bucket is `b`, and these numbers add up to `size()`;
inserting 3 and 11 into a fresh set of capacity 8 gives `bucketSize(3) == 2`. -/
theorem bucket_size_counts (E : Env) (hE : E.WF) :
    (∀ s, Reachable E s → ∃ cap, s.bucketCount E = some cap ∧
      (∀ b, b < cap → s.bucketSize E b =
        some ((keys s.master_list).countP (fun k => bucket_index cap k == b))) ∧
      (Finset.range cap).sum (fun b => (s.bucketSize E b).getD 0) = s.size) ∧
    (E.sizes[0]? = some 8 →
      ∃ s, insert_all E [3, 11] = .ok () s ∧ s.bucketSize E 3 = some 2) := by
  constructor
  · intro s hs
    obtain ⟨cap, hg⟩ := reachable_good hE hs
    refine ⟨cap, hg.shape.cap_eq, fun b hb => bucketSize_spec hg.shape hb, ?_⟩
    have : (Finset.range cap).sum (fun b => (s.bucketSize E b).getD 0) =
        (Finset.range cap).sum
          (fun b => (keys s.master_list).countP (fun k => bucket_index cap k == b)) := by
      apply Finset.sum_congr rfl
      intro b hb
      rw [bucketSize_spec hg.shape (Finset.mem_range.1 hb)]
      rfl
    rw [this, sum_countP_buckets _ _ _
      (fun k _ => bucket_index_lt hg.shape.cap_pos hg.shape.cap_lt k)]
    show _ = s.num_element
    rw [hg.count]
    simp [keys]
  · intro h8
    unfold insert_all
    cases hc : HashSet.ctor E with
    | out_of_range u =>
      unfold HashSet.ctor at hc
      simp only [h8] at hc
      cases hc
    | diverged =>
      unfold HashSet.ctor at hc
      simp only [h8] at hc
      cases hc
    | ok r s0 =>
      obtain ⟨cap, hg, hnil, hmax, hidx⟩ := ctor_good hE hc
      have hcap : cap = 8 := by
        have := hg.shape.cap_eq
        rw [hidx, h8] at this
        exact (Option.some.inj this).symm
      subst hcap
      have hnum : s0.num_element = 0 := by rw [hg.count, hnil]; rfl
      obtain ⟨t, ht, hti, _⟩ := insert_list_no_growth hE [3, 11] s0 8 hg hmax
        float_div_eight (by decide) (by rw [hnil]; intro k _ h; cases h) (by rw [hnum]; decide)
      obtain ⟨c, hgt, hmem⟩ := insert_list_good hE [3, 11] s0 t 8 hg ht
      have hc8 : c = 8 := by
        have := hgt.shape.cap_eq
        rw [hti, hidx, h8] at this
        exact (Option.some.inj this).symm
      subst hc8
      have hp : (keys t.master_list).Perm [3, 11] :=
        (List.perm_ext_iff_of_nodup hgt.keys_nodup (by decide)).2
          (fun k => by rw [hmem k, hnil]; simp [keys])
      refine ⟨t, ht, ?_⟩
      rw [bucketSize_spec hgt.shape (by decide : 3 < 8), hp.countP_eq]
      decide

/-! ## Past-the-end accesses of `erase(key)` -/

/-- In a reachable set `erase(key)` for an absent key always runs `std::next` on
`end()`. -/
theorem erase_absent_advances_end {E : Env} (hE : E.WF) {s : HashSet} (hs : Reachable E s)
    (k : Int) (hk : s.contains E k = some false) :
    s.erase_advances_end E k = some true := by
  obtain ⟨cap, hg⟩ := reachable_good hE hs
  have hf := find_spec hg.shape k
  have hc := contains_eq_find E s k
  rw [hf] at hc
  rw [hk] at hc
  unfold HashSet.erase_advances_end
  rw [bucket_eq hg.shape.cap_eq, hf]
  simp only [Option.map_some', Option.some.injEq] at hc ⊢
  cases hx : (s.master_list.find? (fun n => n.val == k)) with
  | none => rfl
  | some n => rw [hx] at hc; simp at hc

/-! ## The copy constructor -/

theorem copy_keys_spec : ∀ (vs : List Int) (l : List Node), NodupIds l →
    NodupIds (HashSet.copy_keys l vs) ∧ keys (HashSet.copy_keys l vs) = keys l ++ vs := by
  intro vs
  induction vs with
  | nil => intro l h; exact ⟨h, by simp [HashSet.copy_keys]⟩
  | cons v vs ih =>
    intro l h
    rw [HashSet.copy_keys]
    have hn : NodupIds (list_insert l none ⟨fresh_id l, v⟩) := by
      show NodupIds (l ++ [⟨fresh_id l, v⟩])
      exact @nodupIds_unsplit l [] ⟨fresh_id l, v⟩ (by simpa using h)
        (by
          intro m hm
          have hm' : m ∈ l := by simpa using hm
          exact Nat.ne_of_lt (fresh_id_gt _ m hm'))
    obtain ⟨h1, h2⟩ := ih _ hn
    refine ⟨h1, ?_⟩
    rw [h2]
    show keys (l ++ [⟨fresh_id l, v⟩]) ++ vs = _
    simp [keys]

theorem run_head_append_old (f : Node → Nat) (P : List Node) (n : Node)
    (h : run_head f P (f n) ≠ none) (b : Nat) :
    run_head f (P ++ [n]) b = run_head f P b := by
  unfold run_head at h ⊢
  rw [List.find?_append]
  by_cases hb : f n = b
  · subst hb
    cases hx : P.find? (fun m => f m == f n) with
    | none => rw [hx] at h; exact absurd rfl h
    | some x => rfl
  · have : [n].find? (fun m => f m == b) = none := by
      rw [List.find?_eq_none]
      intro a ha
      simp only [List.mem_singleton] at ha
      subst ha
      simpa using hb
    rw [this, Option.or_none]

theorem copy_heads_spec {E : Env} {cap : Nat} (hc1 : 1 ≤ cap) (hc2 : cap < 2 ^ 31) :
    ∀ (U P : List Node) (s : HashSet), E.sizes[s.current_size_index]? = some cap →
      s.hash_set.length = cap →
      (∀ b, b < cap → s.hash_set[b]? = some (run_head (bkt cap) P b)) →
      ∃ T : List Iterator, HashSet.copy_heads E s U = .ok () { s with hash_set := T } ∧
        T.length = cap ∧ ∀ b, b < cap → T[b]? = some (run_head (bkt cap) (P ++ U) b) := by
  intro U
  induction U with
  | nil =>
    intro P s _ hlen hT
    exact ⟨s.hash_set, rfl, hlen, by simpa using hT⟩
  | cons n U ih =>
    intro P s hc hlen hT
    have hb : bkt cap n < cap := bucket_index_lt hc1 hc2 n.val
    have hb' : bucket_index cap n.val < cap := hb
    rw [HashSet.copy_heads, bucket_eq hc]
    simp only
    have hTn := hT _ hb
    have hTn' : s.hash_set[bucket_index cap n.val]? =
        some (run_head (bkt cap) P (bkt cap n)) := hTn
    rw [hTn']
    have hPU : P ++ n :: U = (P ++ [n]) ++ U := by simp
    cases hr : run_head (bkt cap) P (bkt cap n) with
    | none =>
      simp only
      have hne : ∀ m ∈ P, bkt cap m ≠ bkt cap n := run_head_eq_none.1 hr
      obtain ⟨T, hT1, hT2, hT3⟩ :=
        ih (P ++ [n]) { s with hash_set := s.hash_set.set (bkt cap n) (some n.id) } hc
          (by simp [hlen])
          (by
            intro b hb2
            show (s.hash_set.set (bkt cap n) (some n.id))[b]? = _
            rw [getElem?_set_table _ _ _ _ (by rw [hlen]; exact hb),
              run_head_append_new _ _ _ hne, hT b hb2]
            split <;> rfl)
      exact ⟨T, hT1, hT2, by rw [hPU]; exact hT3⟩
    | some h =>
      simp only
      obtain ⟨T, hT1, hT2, hT3⟩ :=
        ih (P ++ [n]) s hc hlen
          (by
            intro b hb2
            rw [hT b hb2, run_head_append_old _ _ _ (by rw [hr]; exact fun e => by cases e)])
      exact ⟨T, hT1, hT2, by rw [hPU]; exact hT3⟩

theorem grouped_of_keys_eq (cap : Nat) : ∀ (l l' : List Node), keys l = keys l' →
    Grouped (bkt cap) l → Grouped (bkt cap) l' := by
  intro l
  induction l with
  | nil =>
    intro l' hk _
    cases l' with
    | nil => trivial
    | cons a r => simp [keys] at hk
  | cons x xs ih =>
    intro l' hk hg
    cases l' with
    | nil => simp [keys] at hk
    | cons x' xs' =>
      simp only [keys, List.map_cons, List.cons.injEq] at hk
      have hxb : bkt cap x' = bkt cap x := by unfold bkt; rw [hk.1]
      rw [grouped_cons] at hg ⊢
      refine ⟨?_, ih xs' hk.2 hg.2⟩
      intro y' hy' hfy'
      have hmem : y'.val ∈ xs.map Node.val := by
        rw [hk.2]; exact List.mem_map_of_mem Node.val hy'
      obtain ⟨y, hy, hyv⟩ := List.mem_map.1 hmem
      have hfy : bkt cap y = bkt cap x := by
        have : bkt cap y = bkt cap y' := by unfold bkt; rw [hyv]
        rw [this, hfy', hxb]
      obtain ⟨z, r, hz, hfz⟩ := hg.1 y hy hfy
      subst hz
      cases xs' with
      | nil => simp at hk
      | cons z' r' =>
        simp only [List.map_cons, List.cons.injEq] at hk
        refine ⟨z', r', rfl, ?_⟩
        have : bkt cap z' = bkt cap z := by unfold bkt; rw [hk.2.1]
        rw [this, hfz, hxb]

theorem node_index_none (l : List Node) : node_index l none = none := by
  cases l <;> rfl

theorem run_head_mem {f : Node → Nat} {l : List Node} {b i : Nat}
    (h : run_head f l b = some i) : ∃ m ∈ l, m.id = i := by
  obtain ⟨pre, x, rest, hl, hi, _⟩ := run_head_eq_some h
  exact ⟨x, by rw [hl]; simp, hi⟩

theorem node_index_run_head_cons (f : Node → Nat) (n : Node) (rest : List Node) (b : Nat)
    (hN : NodupIds (n :: rest)) :
    node_index (n :: rest) (run_head f (n :: rest) b) =
      if f n = b then some 0 else (node_index rest (run_head f rest b)).map (· + 1) := by
  by_cases hb : f n = b
  · rw [if_pos hb]
    have : run_head f (n :: rest) b = some n.id := by
      unfold run_head
      rw [List.find?_cons_of_pos _ (by simpa using hb)]
      rfl
    rw [this]
    simp [node_index]
  · rw [if_neg hb]
    have : run_head f (n :: rest) b = run_head f rest b := by
      unfold run_head
      rw [List.find?_cons_of_neg _ (by simpa using hb)]
    rw [this]
    cases hr : run_head f rest b with
    | none => simp [node_index_none]
    | some i =>
      obtain ⟨m, hm, hmi⟩ := run_head_mem hr
      have hne : n.id ≠ i := by
        have := (@nodupIds_split [] rest n (by simpa using hN)).2.1 m hm
        rw [hmi] at this
        exact fun e => this e.symm
      simp [node_index, hne]

theorem node_index_run_head (cap : Nat) (b : Nat) : ∀ (l l' : List Node),
    keys l = keys l' → NodupIds l → NodupIds l' →
    node_index l (run_head (bkt cap) l b) = node_index l' (run_head (bkt cap) l' b) := by
  intro l
  induction l with
  | nil =>
    intro l' hk _ _
    cases l' with
    | nil => rfl
    | cons a r => simp [keys] at hk
  | cons x xs ih =>
    intro l' hk hN hN'
    cases l' with
    | nil => simp [keys] at hk
    | cons x' xs' =>
      simp only [keys, List.map_cons, List.cons.injEq] at hk
      have hxb : bkt cap x' = bkt cap x := by unfold bkt; rw [hk.1]
      have hNx : NodupIds xs := (@nodupIds_split [] xs x (by simpa using hN)).2.2
      have hNx' : NodupIds xs' := (@nodupIds_split [] xs' x' (by simpa using hN')).2.2
      rw [node_index_run_head_cons _ _ _ _ hN, node_index_run_head_cons _ _ _ _ hN', hxb,
        ih xs' hk.2 hNx hNx']

/-- What the copy constructor builds from a good state. -/
theorem copy_spec {E : Env} {s : HashSet} {cap : Nat} (hg : Good E s cap) :
    ∃ t, s.copy E = .ok () t ∧ Good E t cap ∧ keys t.master_list = keys s.master_list ∧
      t.num_element = s.num_element ∧ t.current_size_index = s.current_size_index ∧
      t.load_factor = s.load_factor ∧ t.max_load_factor = s.max_load_factor := by
  obtain ⟨hN, hK⟩ := copy_keys_spec (s.master_list.map Node.val) []
    (by unfold NodupIds; exact List.nodup_nil)
  have hK' : keys (HashSet.copy_keys [] (s.master_list.map Node.val)) = keys s.master_list := by
    rw [hK]; rfl
  obtain ⟨T, hT1, hT2, hT3⟩ := copy_heads_spec hg.shape.cap_pos hg.shape.cap_lt
    (HashSet.copy_keys [] (s.master_list.map Node.val)) []
    { load_factor := s.load_factor, max_load_factor := s.max_load_factor,
      num_element := s.num_element, current_size_index := s.current_size_index,
      master_list := HashSet.copy_keys [] (s.master_list.map Node.val),
      hash_set := List.replicate cap none }
    hg.shape.cap_eq (by simp)
    (by
      intro b hb
      show (List.replicate cap (none : Iterator))[b]? = _
      rw [List.getElem?_replicate_of_lt hb]
      rfl)
  refine ⟨{ load_factor := s.load_factor, max_load_factor := s.max_load_factor,
            num_element := s.num_element, current_size_index := s.current_size_index,
            master_list := HashSet.copy_keys [] (s.master_list.map Node.val),
            hash_set := T }, ?_, ?_, hK', rfl, rfl, rfl, rfl⟩
  · unfold HashSet.copy
    simp only [hg.shape.cap_eq]
    exact hT1
  · refine ⟨⟨hg.shape.cap_eq, hg.shape.cap_pos, hg.shape.cap_lt, hT2, ?_, ?_, hN⟩, ?_, ?_, hg.load_eq⟩
    · intro b hb
      have := hT3 b hb
      simpa using this
    · exact grouped_of_keys_eq cap _ _ hK'.symm hg.shape.grouped
    · show (keys (HashSet.copy_keys [] (s.master_list.map Node.val))).Nodup
      rw [hK']; exact hg.keys_nodup
    · show s.num_element = (HashSet.copy_keys [] (s.master_list.map Node.val)).length
      have : (keys (HashSet.copy_keys [] (s.master_list.map Node.val))).length =
          (keys s.master_list).length := by rw [hK']
      simp only [keys, List.length_map] at this
      rw [this]; exact hg.count

/-- C17: the copy constructed from a reachable set has the same keys in the same
order, the same size, capacity, load factor and maximum load factor, distinct
nodes of its own, and a table satisfying I2 whose entries are at the same
sequence indices as in the original (an entry is empty exactly when it is in
the original); `contains` and `bucketSize` agree on the two sets. -/
theorem copy_agrees (E : Env) (hE : E.WF) (s : HashSet) (hs : Reachable E s) :
    ∃ t, s.copy E = .ok () t ∧ keys t.master_list = keys s.master_list ∧
      t.size = s.size ∧ t.bucketCount E = s.bucketCount E ∧
      t.loadFactor = s.loadFactor ∧ t.maxLoadFactor = s.maxLoadFactor ∧
      NodupIds t.master_list ∧ t.I2 E ∧
      t.hash_set.length = s.hash_set.length ∧
      (∀ b : Nat, (t.hash_set[b]?).bind (node_index t.master_list) =
        (s.hash_set[b]?).bind (node_index s.master_list)) ∧
      (∀ b : Nat, t.hash_set[b]? = some none ↔ s.hash_set[b]? = some none) ∧
      (∀ k, t.contains E k = s.contains E k) ∧
      (∀ b, t.bucketSize E b = s.bucketSize E b) := by
  obtain ⟨cap, hg⟩ := reachable_good hE hs
  obtain ⟨t, ht, hgt, hK, h1, h2, h3, h4⟩ := copy_spec hg
  have hlen : t.hash_set.length = s.hash_set.length := by
    rw [hgt.shape.len, hg.shape.len]
  have hout : ∀ b, ¬ b < cap → t.hash_set[b]? = none ∧ s.hash_set[b]? = none := by
    intro b hb
    exact ⟨List.getElem?_eq_none (by rw [hgt.shape.len]; omega),
      List.getElem?_eq_none (by rw [hg.shape.len]; omega)⟩
  have hnone : ∀ b, run_head (bkt cap) t.master_list b = none ↔
      run_head (bkt cap) s.master_list b = none := by
    intro b
    rw [run_head_eq_none, run_head_eq_none]
    have hiff : ∀ l : List Node, (∀ n ∈ l, bkt cap n ≠ b) ↔
        ∀ k ∈ keys l, bucket_index cap k ≠ b := by
      intro l
      simp [keys, bkt]
    rw [hiff, hiff, hK]
  refine ⟨t, ht, hK, h1, ?_, h3, h4, hgt.shape.ids, hgt.shape.I2, hlen, ?_, ?_, ?_, ?_⟩
  · show E.sizes[t.current_size_index]? = E.sizes[s.current_size_index]?
    rw [h2]
  · intro b
    by_cases hb : b < cap
    · rw [hgt.shape.heads b hb, hg.shape.heads b hb]
      simp only [Option.some_bind]
      exact node_index_run_head cap b _ _ hK hgt.shape.ids hg.shape.ids
    · rw [(hout b hb).1, (hout b hb).2]
      rfl
  · intro b
    by_cases hb : b < cap
    · rw [hgt.shape.heads b hb, hg.shape.heads b hb]
      simp only [Option.some.injEq]
      exact hnone b
    · rw [(hout b hb).1, (hout b hb).2]
  · intro k
    rw [contains_spec hgt.shape k, contains_spec hg.shape k, hK]
  · intro b
    by_cases hb : b < cap
    · rw [bucketSize_spec hgt.shape hb, bucketSize_spec hg.shape hb, hK]
    · unfold HashSet.bucketSize
      rw [(hout b hb).1, (hout b hb).2]

/-! ## The iterations of `rehash` -/

theorem rehash_loop_body (E : Env) (f : Nat) (s : HashSet) (i : Nat) :
    HashSet.rehash_loop E (f + 1) s (some i) =
      match HashSet.rehash_body E s i with
      | none => .out_of_range s
      | some (s1, it1) => HashSet.rehash_loop E f s1 it1 := by
  rw [HashSet.rehash_loop]
  unfold HashSet.rehash_body
  cases s.bucket E (deref E s.master_list (some i)) with
  | none => rfl
  | some b =>
    simp only
    cases s.hash_set[b]? with
    | none => rfl
    | some o =>
      cases o with
      | none => rfl
      | some h => rfl

theorem rehash_trace_none (E : Env) (fuel : Nat) (s : HashSet) :
    HashSet.rehash_trace E fuel s none = [] := by
  cases fuel <;> rfl

theorem rehash_body_eq {E : Env} {cap : Nat} (s : HashSet) {x : Node}
    {P U : List Node} (hc : E.sizes[s.current_size_index]? = some cap)
    (hl : s.master_list = P ++ x :: U) (hx : ∀ n ∈ P, n.id ≠ x.id) :
    HashSet.rehash_body E s x.id =
      match s.hash_set[bkt cap x]? with
      | none => none
      | some none =>
        some ({ s with hash_set := s.hash_set.set (bkt cap x) (some x.id) }, some x.id)
      | some (some h) =>
        some ({ s with master_list :=
                  list_splice s.master_list (std_next s.master_list (some h)) x.id },
              list_begin U) := by
  have hnext : std_next (P ++ x :: U) (some x.id) = list_begin U := std_next_split hx
  have hderef : deref E (P ++ x :: U) (some x.id) = x.val := deref_split E hx
  unfold HashSet.rehash_body
  rw [hl, hderef, bucket_eq hc, hnext]
  rfl

/-- The loop of `rehash` at an element `x`: either `x` is claimed as the head of
its bucket and the next run of the body, at `x` again, splices it in front of
its own successor and moves on; or `x` is moved behind the head of its bucket
and the loop moves on at once. -/
theorem rehash_element_step {E : Env} {cap : Nat} (hc1 : 1 ≤ cap) (hc2 : cap < 2 ^ 31)
    {s : HashSet} {P U : List Node} {x : Node} (h : RehashInv E cap s P (x :: U)) :
    (∃ s1 P', HashSet.rehash_body E s x.id = some (s1, some x.id) ∧
      HashSet.rehash_body E s1 x.id = some (s1, list_begin U) ∧
      s1.master_list = s.master_list ∧ RehashInv E cap s1 P' U) ∨
    (∃ s2 P', HashSet.rehash_body E s x.id = some (s2, list_begin U) ∧
      RehashInv E cap s2 P' U) := by
  have hx := (nodupIds_split h.ids).1
  have hb : bkt cap x < cap := bucket_index_lt hc1 hc2 x.val
  rw [rehash_body_eq s h.cap_eq h.list hx, h.heads _ hb]
  cases hr : run_head (bkt cap) P (bkt cap x) with
  | none =>
    left
    simp only
    have hne : ∀ n ∈ P, bkt cap n ≠ bkt cap x := run_head_eq_none.1 hr
    have hset : (s.hash_set.set (bkt cap x) (some x.id))[bkt cap x]? = some (some x.id) :=
      List.getElem?_set_self (by rw [h.len]; exact hb)
    refine ⟨{ s with hash_set := s.hash_set.set (bkt cap x) (some x.id) }, P ++ [x], rfl, ?_,
      rfl, ?_⟩
    · rw [@rehash_body_eq E cap
        { s with hash_set := s.hash_set.set (bkt cap x) (some x.id) } x P U h.cap_eq h.list hx]
      simp only [hset]
      rw [list_splice_self_next]
    · refine ⟨h.cap_eq, ?_, by simp [h.len], ?_, grouped_append_new _ _ _ h.grouped hne, ?_⟩
      · show s.master_list = (P ++ [x]) ++ U
        rw [h.list]; simp
      · intro b hb'
        show (s.hash_set.set (bkt cap x) (some x.id))[b]? = _
        rw [getElem?_set_table _ _ _ _ (by rw [h.len]; exact hb),
          run_head_append_new _ _ _ hne, h.heads b hb']
        split <;> rfl
      · simpa using h.ids
  | some hd =>
    right
    simp only
    obtain ⟨P1, hn, P2, hP, hid, hfh, hP1⟩ := run_head_eq_some hr
    subst hP
    subst hid
    have hN := h.ids
    have hl := h.list
    have hN1 : NodupIds ((P1 ++ [hn]) ++ P2 ++ x :: U) := by simpa using hN
    have hhn : ∀ n ∈ P1, n.id ≠ hn.id := by
      have h' : NodupIds (P1 ++ hn :: (P2 ++ x :: U)) := by simpa using hN
      exact (nodupIds_split h').1
    have hpos : std_next s.master_list (some hn.id) = list_begin (P2 ++ x :: U) := by
      rw [hl]
      have : P1 ++ hn :: P2 ++ x :: U = P1 ++ hn :: (P2 ++ x :: U) := by simp
      rw [this]
      exact std_next_split hhn
    have hmove : list_splice s.master_list (std_next s.master_list (some hn.id)) x.id =
        (P1 ++ hn :: x :: P2) ++ U := by
      rw [hpos, hl]
      have : P1 ++ hn :: P2 ++ x :: U = (P1 ++ [hn]) ++ P2 ++ x :: U := by simp
      rw [this, list_splice_move hN1]
      simp
    rw [hmove]
    have hperm : ((P1 ++ hn :: x :: P2) ++ U).Perm (P1 ++ hn :: P2 ++ x :: U) := by
      have e1 : (P1 ++ hn :: x :: P2) ++ U = (P1 ++ [hn]) ++ x :: (P2 ++ U) := by simp
      have e2 : P1 ++ hn :: P2 ++ x :: U = (P1 ++ hn :: P2) ++ x :: U := by simp
      rw [e1, e2]
      refine List.perm_middle.trans (List.Perm.trans ?_ List.perm_middle.symm)
      simp
    refine ⟨_, P1 ++ hn :: x :: P2, rfl, h.cap_eq, rfl, h.len, ?_,
      grouped_insert_after _ _ _ _ (hfh.symm ▸ rfl) _ h.grouped, nodupIds_perm hperm.symm hN⟩
    intro b hb'
    show s.hash_set[b]? = _
    rw [h.heads b hb', run_head_insert_after _ _ _ _ _ (hfh.symm ▸ rfl)]

/-- The positions examined by the loop of `rehash`: at most two runs of the body
per element still to visit, no position more than twice. -/
theorem rehash_trace_spec {E : Env} {cap : Nat} (hc1 : 1 ≤ cap) (hc2 : cap < 2 ^ 31) :
    ∀ (U P : List Node) (s : HashSet) (fuel : Nat), RehashInv E cap s P U →
      2 * U.length ≤ fuel →
      (HashSet.rehash_trace E fuel s (list_begin U)).length ≤ 2 * U.length ∧
      (∀ j ∈ HashSet.rehash_trace E fuel s (list_begin U), ∃ n ∈ U, n.id = j) ∧
      (∀ j, (HashSet.rehash_trace E fuel s (list_begin U)).count j ≤ 2) := by
  intro U
  induction U with
  | nil =>
    intro P s fuel _ _
    rw [list_begin, rehash_trace_none]
    refine ⟨le_refl _, fun j hj => absurd hj (List.not_mem_nil _), fun j => ?_⟩
    rw [List.count_nil]
    exact Nat.zero_le _
  | cons x U ih =>
    intro P s fuel h hfuel
    obtain ⟨f, rfl⟩ : ∃ f, fuel = f + 2 := ⟨fuel - 2, by simp at hfuel; omega⟩
    have hxU : ∀ n ∈ U, n.id ≠ x.id := (nodupIds_split h.ids).2.1
    have hcount : ∀ tr : List Nat, (∀ j ∈ tr, ∃ n ∈ U, n.id = j) → tr.count x.id = 0 := by
      intro tr htr
      rw [List.count_eq_zero]
      intro hm
      obtain ⟨n, hn, hni⟩ := htr _ hm
      exact hxU n hn hni
    rcases rehash_element_step hc1 hc2 h with ⟨s1, P', hb1, hb2, _, hinv⟩ | ⟨s2, P', hb, hinv⟩
    · have htr : HashSet.rehash_trace E (f + 2) s (list_begin (x :: U)) =
          x.id :: x.id :: HashSet.rehash_trace E f s1 (list_begin U) := by
        show HashSet.rehash_trace E (f + 1 + 1) s (some x.id) = _
        rw [HashSet.rehash_trace, hb1]
        simp only
        rw [HashSet.rehash_trace, hb2]
      obtain ⟨h1, h2, h3⟩ := ih P' s1 f hinv (by simp at hfuel; omega)
      rw [htr]
      refine ⟨by simp only [List.length_cons]; omega, ?_, ?_⟩
      · intro j hj
        simp only [List.mem_cons] at hj
        rcases hj with rfl | rfl | hj
        · exact ⟨x, List.mem_cons_self _ _, rfl⟩
        · exact ⟨x, List.mem_cons_self _ _, rfl⟩
        · obtain ⟨n, hn, hni⟩ := h2 j hj
          exact ⟨n, List.mem_cons_of_mem _ hn, hni⟩
      · intro j
        by_cases hj : j = x.id
        · subst hj
          simp only [List.count_cons_self, hcount _ h2]
          omega
        · rw [List.count_cons_of_ne hj, List.count_cons_of_ne hj]
          exact h3 j
    · have htr : HashSet.rehash_trace E (f + 2) s (list_begin (x :: U)) =
          x.id :: HashSet.rehash_trace E (f + 1) s2 (list_begin U) := by
        show HashSet.rehash_trace E (f + 1 + 1) s (some x.id) = _
        rw [HashSet.rehash_trace, hb]
      obtain ⟨h1, h2, h3⟩ := ih P' s2 (f + 1) hinv (by simp at hfuel; omega)
      rw [htr]
      refine ⟨by simp only [List.length_cons]; omega, ?_, ?_⟩
      · intro j hj
        simp only [List.mem_cons] at hj
        rcases hj with rfl | hj
        · exact ⟨x, List.mem_cons_self _ _, rfl⟩
        · obtain ⟨n, hn, hni⟩ := h2 j hj
          exact ⟨n, List.mem_cons_of_mem _ hn, hni⟩
      · intro j
        by_cases hj : j = x.id
        · subst hj
          simp only [List.count_cons_self, hcount _ h2]
          omega
        · rw [List.count_cons_of_ne hj]
          exact h3 j

/-- C20: for a capacity `c >= 1` that is the one `bucket()` uses (and that fits an
`int`) and every sequence of distinct nodes, `rehash` returns: its loop ends
normally within `2 * size` runs of the body (a larger budget gives the same
result), it examines no position more than twice, and the splice of an element
in front of its own successor leaves the sequence as it is. -/
theorem rehash_terminates (E : Env) (s : HashSet) (c : Nat) (hc1 : 1 ≤ c) (hc2 : c < 2 ^ 31)
    (hc : E.sizes[s.current_size_index]? = some c) (hN : NodupIds s.master_list) :
    (∃ t, s.rehash E c = .ok () t) ∧
    (∃ t, ∀ fuel, 2 * s.master_list.length ≤ fuel →
      HashSet.rehash_loop E fuel
        { s with hash_set := List.replicate c none } (list_begin s.master_list) = .ok () t) ∧
    (∀ fuel, 2 * s.master_list.length ≤ fuel →
      (HashSet.rehash_trace E fuel { s with hash_set := List.replicate c none }
        (list_begin s.master_list)).length ≤ 2 * s.master_list.length ∧
      ∀ j, (HashSet.rehash_trace E fuel { s with hash_set := List.replicate c none }
        (list_begin s.master_list)).count j ≤ 2) ∧
    (∀ (l : List Node) (i : Nat), list_splice l (std_next l (some i)) i = l) := by
  have hinv : RehashInv E c { s with hash_set := List.replicate c none } [] s.master_list := by
    refine ⟨hc, rfl, by simp, ?_, trivial, hN⟩
    intro b hb
    show (List.replicate c (none : Iterator))[b]? = _
    rw [List.getElem?_replicate_of_lt hb]
    rfl
  refine ⟨?_, ?_, ?_, list_splice_self_next⟩
  · obtain ⟨t, ht, _⟩ := rehash_spec hc1 hc2 hc hN
    exact ⟨t, ht⟩
  · obtain ⟨t, ht, _⟩ := rehash_loop_spec hc1 hc2 s.master_list []
      { s with hash_set := List.replicate c none } (2 * s.master_list.length)
      hinv.cap_eq hinv.list hinv.len hinv.heads hinv.grouped hinv.ids (le_refl _)
    exact ⟨t, fun fuel hf => rehash_loop_mono E _ _ _ t ht fuel hf⟩
  · intro fuel hf
    obtain ⟨h1, _, h3⟩ := rehash_trace_spec hc1 hc2 s.master_list []
      { s with hash_set := List.replicate c none } fuel hinv hf
    exact ⟨h1, h3⟩

/-! ## The further theorems at concrete sets -/

theorem insert_list_reachableDefault {E : Env} :
    ∀ (ks : List Int) (s t : HashSet), ReachableDefault E s → insert_list E s ks = .ok () t →
      ReachableDefault E t := by
  intro ks
  induction ks with
  | nil =>
    intro s t h hr
    injection hr with _ hr
    exact hr ▸ h
  | cons a ks ih =>
    intro s t h hr
    rw [insert_list] at hr
    cases hi : s.insert E a with
    | ok r u =>
      rw [hi] at hr
      exact ih u t (ReachableDefault.insert a h hi) hr
    | out_of_range u => rw [hi] at hr; cases hr
    | diverged => rw [hi] at hr; cases hr

theorem reachableDefault_full : ReachableDefault E8 set_full :=
  insert_list_reachableDefault [1, 2, 3, 4, 5, 6, 7, 8] set_fresh set_full
    (ReachableDefault.ctor (by decide! : HashSet.ctor E8 = .ok () set_fresh)) (by decide!)

theorem reachable_eighth : Reachable E8 set_eighth :=
  Reachable.step (Op.maxLoadFactor (1 / 8)) reachable_3_11
    (by decide! : (Op.maxLoadFactor (1 / 8)).run E8 set_3_11 = .ok () set_eighth)

theorem reachable_last : Reachable E8 set_last :=
  insert_list_reachable [4, 5] set_eighth set_last reachable_eighth (by decide!)

theorem reachable_one : Reachable E8 set_one :=
  insert_all_reachable (by decide! : insert_all E8 [1] = .ok () set_one)

theorem reachable_mixed : Reachable E8 set_mixed :=
  insert_all_reachable (by decide! : insert_all E8 [3, 11, 19, 4] = .ok () set_mixed)

theorem default_load_bound_witness :
    E8.WF ∧ E8.Increasing ∧ ReachableDefault E8 set_full ∧
      (set_full.maxLoadFactor = 1 ∧ set_full.loadFactor ≤ 1 ∧
        ∃ c, set_full.bucketCount E8 = some c ∧ set_full.size ≤ c) ∧
      E8.sizes[0]? = some 8 ∧
      (∃ s, insert_all E8 [1, 2, 3, 4, 5, 6, 7, 8] = .ok () s ∧ s.size = 8 ∧
        s.current_size_index = 0 ∧ s.bucketCount E8 = some 8) :=
  ⟨E8_WF, E8_increasing, reachableDefault_full,
    (default_load_bound E8 E8_WF E8_increasing).1 set_full reachableDefault_full,
    by decide, (default_load_bound E8 E8_WF E8_increasing).2 (by decide)⟩

theorem E37_WF : E37.WF := by
  intro c hc
  simp only [E37, List.mem_cons, List.mem_singleton, List.not_mem_nil, or_false] at hc
  rcases hc with rfl | rfl <;> norm_num

theorem reachable_third : Reachable E37 set_third :=
  insert_all_reachable (by decide! : insert_all E37 [1] = .ok () set_third)

/-- C12 fails as stated: under the schedule 3, 7 the set `set_third` holds one
element in 3 buckets and `m = 0.33333334f` is a `float` above 1/3, so the ratio
`size / capacity` at the capacity 3 is below `m`; but the stored load factor
`float(1) / 3` is `m` itself, and `maxLoadFactor(m)` grows the table to 7
buckets. -/
theorem max_load_factor_rounding :
    E37.WF ∧ Reachable E37 set_third ∧ float_round float_third = float_third ∧
      set_third.size = 1 ∧ set_third.bucketCount E37 = some 3 ∧
      (Nat.cast set_third.size : ℚ) / (Nat.cast 3 : ℚ) < float_third ∧
      set_third.loadFactor = float_third ∧
      set_third.setMaxLoadFactor E37 float_third = .ok () set_third_grown ∧
      set_third_grown.bucketCount E37 = some 7 ∧
      set_third_grown.bucketCount E37 ≠ set_third.bucketCount E37 :=
  ⟨E37_WF, reachable_third, by decide!, by decide!, by decide!, by decide!, by decide!,
    by decide!, by decide!, by decide!⟩

theorem max_load_factor_growth_witness :
    E8.WF ∧ Reachable E8 set_3_11 ∧ set_3_11.setMaxLoadFactor E8 (1 / 8) = .ok () set_eighth ∧
      (set_eighth.maxLoadFactor = 1 / 8 ∧ set_eighth.loadFactor < 1 / 8 ∧
      set_3_11.current_size_index ≤ set_eighth.current_size_index ∧
      (∃ c, set_eighth.bucketCount E8 = some c ∧
        float_div set_3_11.size c < 1 / 8) ∧
      (∀ j c, set_3_11.current_size_index ≤ j → j < set_eighth.current_size_index →
        E8.sizes[j]? = some c → ¬ float_div set_3_11.size c < 1 / 8) ∧
      (set_3_11.loadFactor < 1 / 8 →
        set_eighth.current_size_index = set_3_11.current_size_index ∧
        set_eighth.bucketCount E8 = set_3_11.bucketCount E8) ∧
      (∀ k, set_eighth.contains E8 k = set_3_11.contains E8 k) ∧
      set_eighth.size = set_3_11.size) :=
  ⟨E8_WF, reachable_3_11, by decide!,
    max_load_factor_growth E8 E8_WF set_3_11 reachable_3_11 (1 / 8) set_eighth (by decide!)⟩

/-- C13 fails as stated: `set_last` is reachable, at the last schedule entry (32
buckets) with the load factor at the maximum; `insert(6)` throws and leaves the
schedule index at 3, past the schedule, so that `bucketCount()` throws too;
`maxLoadFactor(1/16)` throws and leaves the index at 3 and the maximum load
factor at 1/16. -/
theorem exhaustion_advances_index :
    E8.WF ∧ Reachable E8 set_last ∧ set_last.bucketCount E8 = some 32 ∧
      E8.sizes[set_last.current_size_index + 1]? = none ∧
      set_last.loadFactor ≥ set_last.maxLoadFactor ∧
      set_last.insert E8 6 = .out_of_range { set_last with current_size_index := 3 } ∧
      set_last.current_size_index = 2 ∧
      HashSet.bucketCount E8 { set_last with current_size_index := 3 } = none ∧
      set_last.setMaxLoadFactor E8 (1 / 16) =
        .out_of_range { set_last with current_size_index := 3, max_load_factor := 1 / 16 } ∧
      set_last.maxLoadFactor = 1 / 8 :=
  ⟨E8_WF, reachable_last, by decide!, by decide!, by decide!, by decide!, by decide!,
    by decide!, by decide!, by decide!⟩

theorem exhaustion_keeps_contents_witness :
    E8.WF ∧ Reachable E8 set_last ∧ E8.sizes[set_last.current_size_index + 1]? = none ∧
      set_last.loadFactor ≥ set_last.maxLoadFactor ∧ set_last.loadFactor ≥ 1 / 16 ∧
      (∃ t, set_last.insert E8 6 = .out_of_range t ∧ t.master_list = set_last.master_list ∧
        t.hash_set = set_last.hash_set ∧ t.size = set_last.size ∧
        t.loadFactor = set_last.loadFactor ∧ t.maxLoadFactor = set_last.maxLoadFactor) ∧
      (∃ t, set_last.setMaxLoadFactor E8 (1 / 16) = .out_of_range t ∧
        t.master_list = set_last.master_list ∧ t.hash_set = set_last.hash_set ∧
        t.size = set_last.size ∧ t.loadFactor = set_last.loadFactor ∧
        t.maxLoadFactor = 1 / 16) :=
  ⟨E8_WF, reachable_last, by decide!, by decide!, by decide!,
    (exhaustion_keeps_contents E8 E8_WF set_last reachable_last (by decide!)).1 6 (by decide!),
    (exhaustion_keeps_contents E8 E8_WF set_last reachable_last (by decide!)).2 (1 / 16)
      (by decide!)⟩

theorem bucket_abs_remainder_witness :
    1 ≤ 8 ∧ 8 ≤ 2 ^ 31 - 1 ∧ bucket_index 8 (-3) = 3 ∧
      ((∀ v ∈ bucket_int_values 8 (-3), in_int_range v) ∧
        bucket_index 8 (-3) = (Int.tmod (-3) (8 : Nat)).natAbs ∧
        bucket_index 8 (-3) < 8 ∧
        (∀ (E : Env) (s : HashSet), E.sizes[s.current_size_index]? = some 8 →
          s.bucket E (-3) = some (Int.tmod (-3) (8 : Nat)).natAbs)) ∧
      bucket_index 7 (-2 ^ 31) < 7 ∧
      (∀ v ∈ bucket_int_values 7 (-2 ^ 31), in_int_range v) :=
  ⟨by decide, by norm_num, by decide, bucket_abs_remainder 8 (-3) (by decide) (by norm_num),
    (bucket_abs_remainder 7 (-2 ^ 31) (by decide) (by norm_num)).2.2.1,
    (bucket_abs_remainder 7 (-2 ^ 31) (by decide) (by norm_num)).1⟩

theorem bucket_size_counts_witness :
    E8.WF ∧ Reachable E8 set_3_11 ∧ set_3_11.bucketSize E8 3 = some 2 ∧
      (∃ cap, set_3_11.bucketCount E8 = some cap ∧
        (∀ b, b < cap → set_3_11.bucketSize E8 b =
          some ((keys set_3_11.master_list).countP (fun k => bucket_index cap k == b))) ∧
        (Finset.range cap).sum (fun b => (set_3_11.bucketSize E8 b).getD 0) =
          set_3_11.size) ∧
      E8.sizes[0]? = some 8 ∧
      (∃ s, insert_all E8 [3, 11] = .ok () s ∧ s.bucketSize E8 3 = some 2) :=
  ⟨E8_WF, reachable_3_11, by decide!,
    (bucket_size_counts E8 E8_WF).1 set_3_11 reachable_3_11, by decide,
    (bucket_size_counts E8 E8_WF).2 (by decide)⟩

theorem erase_position_witness :
    E8.WF ∧ Reachable E8 set_3_11 ∧ set_3_11.master_list = [] ++ ⟨0, 3⟩ :: [⟨1, 11⟩] ∧
      set_3_11.erase_it E8 (some 0) = .ok (some 1) set_11 ∧
      ∃ t, set_3_11.erase_it E8 (some (Node.mk 0 3).id) = .ok (list_begin [⟨1, 11⟩]) t ∧
        t.master_list = [] ++ [⟨1, 11⟩] ∧ t.size + 1 = set_3_11.size ∧
        t.I1 ∧ t.I2 E8 ∧ t.I3 E8 ∧ t.I4 :=
  ⟨E8_WF, reachable_3_11, rfl, by decide!,
    erase_position E8 E8_WF set_3_11 reachable_3_11 [] [⟨1, 11⟩] ⟨0, 3⟩ rfl⟩

theorem copy_agrees_witness :
    E8.WF ∧ Reachable E8 set_mixed ∧ set_mixed.copy E8 = .ok () set_mixed_copy ∧
      ∃ t, set_mixed.copy E8 = .ok () t ∧ keys t.master_list = keys set_mixed.master_list ∧
        t.size = set_mixed.size ∧ t.bucketCount E8 = set_mixed.bucketCount E8 ∧
        t.loadFactor = set_mixed.loadFactor ∧ t.maxLoadFactor = set_mixed.maxLoadFactor ∧
        NodupIds t.master_list ∧ t.I2 E8 ∧
        t.hash_set.length = set_mixed.hash_set.length ∧
        (∀ b : Nat, (t.hash_set[b]?).bind (node_index t.master_list) =
          (set_mixed.hash_set[b]?).bind (node_index set_mixed.master_list)) ∧
        (∀ b : Nat, t.hash_set[b]? = some none ↔ set_mixed.hash_set[b]? = some none) ∧
        (∀ k, t.contains E8 k = set_mixed.contains E8 k) ∧
        (∀ b, t.bucketSize E8 b = set_mixed.bucketSize E8 b) :=
  ⟨E8_WF, reachable_mixed, by decide!, copy_agrees E8 E8_WF set_mixed reachable_mixed⟩

theorem bucket_count_monotone_witness :
    E8.WF ∧ E8.Increasing ∧ Reachable E8 set_full ∧
      (Op.insert 8).run E8 set_full = .ok () set_full_again ∧
      (set_full.current_size_index ≤ set_full_again.current_size_index ∧
        ∃ a b, set_full.bucketCount E8 = some a ∧ set_full_again.bucketCount E8 = some b ∧
          a ≤ b) ∧
      set_full_again.current_size_index ≤ set_full.current_size_index + 1 :=
  ⟨E8_WF, E8_increasing, reachable_full, by decide!,
    (bucket_count_monotone E8 E8_WF E8_increasing set_full reachable_full).1 (Op.insert 8)
      set_full_again (by decide!),
    (bucket_count_monotone E8 E8_WF E8_increasing set_full reachable_full).2.1 8
      set_full_again (by decide!)⟩

/-- C19 fails on the code: in the reachable one-element set `set_one`, which
contains 1, `erase(1)` evaluates `*next` with `next == end()`; and on the fresh
set, which does not contain 5, `erase(5)` runs `std::next` on `end()`. -/
theorem erase_accesses_past_end :
    Reachable E8 set_one ∧ set_one.contains E8 1 = some true ∧
      set_one.erase_reads_end E8 1 = some true ∧
      Reachable E8 set_fresh ∧ set_fresh.contains E8 5 = some false ∧
      set_fresh.erase_advances_end E8 5 = some true :=
  ⟨reachable_one, by decide!, by decide!,
    Reachable.ctor (by decide! : HashSet.ctor E8 = .ok () set_fresh), by decide!, by decide!⟩

theorem rehash_terminates_witness :
    1 ≤ 16 ∧ 16 < 2 ^ 31 ∧ E8.sizes[set_before_rehash.current_size_index]? = some 16 ∧
      NodupIds set_before_rehash.master_list ∧
      HashSet.rehash_trace E8 6 { set_before_rehash with hash_set := List.replicate 16 none }
        (list_begin set_before_rehash.master_list) = [0, 0, 1, 1, 2] ∧
      HashSet.rehash_loop E8 4 { set_before_rehash with hash_set := List.replicate 16 none }
        (list_begin set_before_rehash.master_list) = .diverged ∧
      (∃ t, set_before_rehash.rehash E8 16 = .ok () t) ∧
      (∃ t, ∀ fuel, 2 * set_before_rehash.master_list.length ≤ fuel →
        HashSet.rehash_loop E8 fuel
          { set_before_rehash with hash_set := List.replicate 16 none }
          (list_begin set_before_rehash.master_list) = .ok () t) :=
  ⟨by decide, by norm_num, by decide, by unfold NodupIds; decide, by decide!, by decide!,
    (rehash_terminates E8 set_before_rehash 16 (by decide) (by norm_num) (by decide)
      (by unfold NodupIds; decide)).1,
    (rehash_terminates E8 set_before_rehash 16 (by decide) (by norm_num) (by decide)
      (by unfold NodupIds; decide)).2.1⟩
